import Mathlib

/-!
Verification of the streaming JSON engine in `src/core.ts` of json-stream-visit.

The embedding models JavaScript strings as lists of UTF-16 code units
(`List Nat`), which is exactly the data model the source's regexes and index
arithmetic operate on.  The three layers of the source are embedded in order:

1. the scanner (`scanner()` in the source), a stateful chunk tokenizer driven
   by the sticky regexes `TOKEN_PREFIX`, `STRING_CONT` and `NS_ATOM_CONT`;
2. the buffered scanner (`bufferedScan`), an async generator that yields token
   types while maintaining a capture window (`buffering`, `bufferedChunks`,
   `currentChunk`, `startIndex`, `endIndex`);
3. the visitor driver (`visit`), a push-down automaton over token types.

Asynchrony in the source is strictly sequential (one `for await` loop whose
body awaits each callback before pulling the next token), so the generator and
driver are embedded as pure state-passing functions whose interleaving follows
the source's control flow; callback invocation and resolution are recorded as
events in an output trace.  The source variable `chunkIndex` is incremented but
never read, so it is omitted from the scanner state.
-/

namespace JsonStreamVisit

/-- A UTF-16 code unit, the unit of JavaScript string indexing. -/
abbrev CU := Nat

/-- A chunk of the input stream: a JavaScript string as a list of code units. -/
abbrev Chunk := List CU

/-- Whitespace class of the regexes: space, tab, line feed, carriage return. -/
def isWsCU (c : CU) : Bool := c = 32 || c = 9 || c = 10 || c = 13

/-- Token kinds, from the `TokenType` enum of the source. -/
inductive TokenType where
  | beginObject
  | endObject
  | beginArray
  | endArray
  | valueSeparator
  | nameSeparator
  | atom
deriving DecidableEq, Repr

/-- Structural single-character tokens, from `TOKEN_TYPE_MAP` in the source. -/
def structType? (c : CU) : Option TokenType :=
  if c = 123 then some .beginObject       -- left brace
  else if c = 125 then some .endObject    -- right brace
  else if c = 91 then some .beginArray    -- [
  else if c = 93 then some .endArray      -- ]
  else if c = 44 then some .valueSeparator -- ,
  else if c = 58 then some .nameSeparator  -- :
  else none

/-- Line terminators, which the JavaScript regex dot does not match. -/
def isLineTerm (c : CU) : Bool := c = 10 || c = 13 || c = 8232 || c = 8233

/-- The JavaScript regex `.` (no `s` flag): any code unit except a line
terminator. -/
def jsDot (c : CU) : Bool := ! isLineTerm c

/-- Membership in the bare-atom class `[^ \t\n\r{}\[\]:,"]` of the regexes. -/
def isNsCU (c : CU) : Bool := !(isWsCU c) && (structType? c).isNone && c ≠ 34

/-- A scanner token: kind and exclusive end index in the current chunk
(`Token` in the source). -/
structure Token where
  type : TokenType
  endIndex : Nat
deriving DecidableEq, Repr

/-- Which continuation regex a pending token must be resumed with
(`STRING_CONT` or `NS_ATOM_CONT` in the source). -/
inductive ContKind where
  | string
  | nsAtom
deriving DecidableEq, Repr

/-- The scanner state persisting between calls: `pendingToken`, `pendingSkip`
and `pendingCont` in the source. -/
structure ScanState where
  pending : Option Token
  pendingSkip : Nat
  pendingCont : ContKind
deriving DecidableEq, Repr

/-- The initial scanner state set up by `scanner()`. -/
def initScan : ScanState := ⟨none, 0, .string⟩

/-- Semantics of the sticky regex `STRING_CONT` = the string body part of
`TOKEN_PREFIX`: matches `(?:[^\\"]|\\(?:.|($)))*(")?` at the head of the list.
Returns (number of code units consumed, hanging-escape group matched,
closing-quote group matched).  A backslash followed by a line terminator stops
the star early because the regex dot does not match line terminators. -/
def stringCont : Chunk → Nat × Bool × Bool
  | [] => (0, false, false)
  | c :: rest =>
    if c = 34 then (1, false, true)
    else if c = 92 then
      match rest with
      | [] => (1, true, false)
      | d :: rest2 =>
        if jsDot d then
          let r := stringCont rest2
          (2 + r.1, r.2.1, r.2.2)
        else (0, false, false)
    else
      let r := stringCont rest
      (1 + r.1, r.2.1, r.2.2)

/-- Semantics of the sticky regex `NS_ATOM_CONT` = `[^ \t\n\r{}\[\]:,"]*`:
length of the maximal bare-atom run at the head of the list. -/
def nsCont : Chunk → Nat
  | [] => 0
  | c :: rest => if isNsCU c then 1 + nsCont rest else 0

/-- Length of the maximal whitespace run at the head of the list, the
`[ \t\n\r]*` part of `TOKEN_PREFIX`. -/
def wsCount : Chunk → Nat
  | [] => 0
  | c :: rest => if isWsCU c then 1 + wsCount rest else 0

/-- Matching a pending continuation regex: `pendingCont.exec` in the source.
For `NS_ATOM_CONT` both capture groups are absent. -/
def contMatch : ContKind → Chunk → Nat × Bool × Bool
  | .string, l => stringCont l
  | .nsAtom, l => (nsCont l, false, false)

/-- The `while (TOKEN_PREFIX.lastIndex < chunk.length)` loop of the scanner,
lines 117-157 of the source.  `p` is `TOKEN_PREFIX.lastIndex`; `st` carries the
`pendingToken` / `pendingSkip` / `pendingCont` variables (which the loop may
write when a token prefix is left unfinished); `acc` is the `tokens` array.
Each iteration advances `p` by at least one, so running the loop with any
`fuel > chunk.length - p` computes the full loop; `scanChunk` passes
`chunk.length + 1`. -/
def mainLoop (fuel : Nat) (chunk : Chunk) (p : Nat) (st : ScanState)
    (acc : List Token) : ScanState × List Token :=
  match fuel with
  | 0 => (st, acc)
  | fuel + 1 =>
    let s := p + wsCount (chunk.drop p)
    match chunk.drop s with
    | [] => (st, acc)
    | c :: rest =>
      match structType? c with
      | some ty => mainLoop fuel chunk (s+1) st (acc ++ [⟨ty, s+1⟩])
      | none =>
        if c = 34 then
          -- string alternative of TOKEN_PREFIX
          let r := stringCont rest
          let e := s + 1 + r.1
          if r.2.2 then
            -- closing quote seen: the token is complete
            mainLoop fuel chunk e st (acc ++ [⟨.atom, e⟩])
          else
            -- unclosed string: record it as pending and continue the loop
            mainLoop fuel chunk e ⟨some ⟨.atom, e⟩, if r.2.1 then 1 else 0, .string⟩ acc
        else
          -- bare-atom alternative; the run includes c itself
          let e := s + 1 + nsCont rest
          if e = chunk.length then
            -- a bare atom reaching the end of the chunk is never complete
            mainLoop fuel chunk e ⟨some ⟨.atom, e⟩, 0, .nsAtom⟩ acc
          else
            mainLoop fuel chunk e st (acc ++ [⟨.atom, e⟩])

/-- One scanner call on a (non-sentinel) chunk: the body of the closure
returned by `scanner()`, lines 76-159 of the source. -/
def scanChunk (st : ScanState) (chunk : Chunk) : ScanState × List Token :=
  match st.pending with
  | none => mainLoop (chunk.length + 1) chunk 0 st []
  | some tok =>
    if st.pendingSkip ≥ chunk.length then
      -- the whole chunk is consumed by the skip; return no tokens
      ({ st with pendingSkip := st.pendingSkip - chunk.length }, [])
    else
      let r := contMatch st.pendingCont (chunk.drop st.pendingSkip)
      let e := st.pendingSkip + r.1
      let tok2 : Token := { tok with endIndex := e }
      if e < chunk.length || r.2.2 then
        -- the pending token is complete (note: pendingSkip keeps its stale
        -- value here, exactly as in the source)
        mainLoop (chunk.length + 1) chunk e { st with pending := none } [tok2]
      else
        mainLoop (chunk.length + 1) chunk e
          { st with pending := some tok2, pendingSkip := if r.2.1 then 1 else 0 } []

/-- One scanner call: a chunk, or `none` for the end-of-stream sentinel
(`chunk === undefined`). -/
def scanStep (st : ScanState) (chunk : Option Chunk) : ScanState × List Token :=
  match chunk with
  | none =>
    match st.pending with
    | some tok => ({ st with pending := none }, [tok])
    | none => (st, [])
  | some c => scanChunk st c

/-- Observational equivalence of scanner states: the pending token agrees, and
when a token is pending the skip count and continuation pattern agree as well.
When no token is pending, the source never reads `pendingSkip` or
`pendingCont` before overwriting them, so states differing only there behave
identically. -/
def ObsEq (s t : ScanState) : Prop :=
  s.pending = t.pending ∧
    (s.pending ≠ none → s.pendingSkip = t.pendingSkip ∧ s.pendingCont = t.pendingCont)


/-! ## The character-level scanner

To show that tokenization is independent of the chunking, the regex-per-chunk
scanner is refined to a machine that consumes the concatenated input one code
unit at a time.  The machine mode records whether the scanner is between
tokens, inside a string (with a possible hanging escape), or inside a bare
atom.  A mode/state relation connects it to the `pendingToken` bookkeeping of
the source. -/

/-- Mode of the character-level scanner. -/
inductive CMode where
  | between
  | inStr (esc : Bool)
  | inAtom
deriving DecidableEq, Repr

/-- Mode transition on one code unit, from between tokens (also used from
inside a bare atom, which reacts to every code unit the same way). -/
def cNextB (c : CU) : CMode :=
  if isWsCU c then .between
  else match structType? c with
    | some _ => .between
    | none => if c = 34 then .inStr false else .inAtom

/-- Mode transition of the character machine. -/
def cNext : CMode → CU → CMode
  | .between, c => cNextB c
  | .inAtom, c => cNextB c
  | .inStr esc, c =>
    if esc then .inStr false
    else if c = 34 then .between
    else if c = 92 then .inStr true
    else .inStr false

/-- Tokens emitted on one code unit read at global position `i`, from between
tokens. -/
def cOutB (c : CU) (i : Nat) : List (TokenType × Nat) :=
  if isWsCU c then []
  else match structType? c with
    | some ty => [(ty, i + 1)]
    | none => []

/-- Tokens emitted by the character machine on one code unit at global
position `i`.  A bare atom is emitted when the code unit ending it is read. -/
def cOut : CMode → CU → Nat → List (TokenType × Nat)
  | .between, c, i => cOutB c i
  | .inStr esc, c, i => if esc then [] else if c = 34 then [(.atom, i + 1)] else []
  | .inAtom, c, i => if isNsCU c then [] else (.atom, i) :: cOutB c i

/-- Run of the character machine over a list of code units starting at global
position `i`: final mode and emitted (token type, global end) pairs. -/
def cRun : CMode → Nat → Chunk → CMode × List (TokenType × Nat)
  | md, _, [] => (md, [])
  | md, i, c :: rest =>
    let r := cRun (cNext md c) (i + 1) rest
    (r.1, cOut md c i ++ r.2)

/-- Cleanliness: whenever the machine holds a hanging escape, the next code
unit is not a line terminator.  On clean input the chunked regexes and the
character machine tokenize identically; `JSON.parse`-valid input is clean. -/
def cClean : CMode → Chunk → Bool
  | _, [] => true
  | md, c :: rest =>
    (match md with
     | .inStr true => jsDot c
     | _ => true) && cClean (cNext md c) rest

/-- Relation between a scanner state and a character-machine mode: the
pending-token bookkeeping matches the mode (the pending token's `endIndex` is
stale in the source and therefore unconstrained). -/
def ScanRel (st : ScanState) (md : CMode) : Prop :=
  match md with
  | .between => st.pending = none
  | .inStr esc => (∃ e, st.pending = some ⟨.atom, e⟩) ∧ st.pendingCont = .string ∧
      st.pendingSkip = (if esc then 1 else 0)
  | .inAtom => (∃ e, st.pending = some ⟨.atom, e⟩) ∧ st.pendingCont = .nsAtom ∧
      st.pendingSkip = 0


/-- A clean segment: processed from between tokens it is clean and lands the
character machine between tokens or inside a bare atom (either one composes
cleanly with whatever follows). -/
def CleanSeg (x : Chunk) : Prop :=
  cClean .between x = true ∧
    ((cRun .between 0 x).1 = .between ∨ (cRun .between 0 x).1 = .inAtom)

/-! ## The buffered token stream

`bufferedScan` wraps the scanner in an async generator that yields token
types and maintains a capture window over the raw input.  The generator state
is embedded as `MState`; consumer interaction (the `buffer()` / `flush()`
calls made between yields) is modelled by a schedule assigning to each yield
index the list of commands the consumer issues after receiving that token.
The control flow follows the source exactly: for each chunk, set
`startIndex = endIndex = 0`, scan, then for each token set `endIndex`, yield
(running the consumer's commands), and reset the window if not buffering;
after the token loop, save any remaining suffix of the chunk; after the last
chunk, scan the sentinel and yield any final tokens without updating
`endIndex` and without window resets. -/

/-- The state of `bufferedScan`: the scanner closure plus the `buffering`,
`bufferedChunks`, `currentChunk`, `startIndex` and `endIndex` variables. -/
structure MState where
  scan : ScanState
  buffering : Bool
  bufferedChunks : List Chunk
  currentChunk : Chunk
  startIndex : Nat
  endIndex : Nat
deriving DecidableEq, Repr

/-- The initial state of `bufferedScan` (`currentChunk` starts empty). -/
def initM : MState := ⟨initScan, false, [], [], 0, 0⟩

/-- JavaScript `l.slice(a, b)` for the index regime used by the source
(`a`, `b` non-negative, clamped to the length, empty when `b ≤ a`). -/
def seg (l : Chunk) (a b : Nat) : Chunk := (l.drop a).take (b - a)

/-- The string built by `flush()`:
`''.concat(...bufferedChunks, currentChunk.slice(startIndex, endIndex))`. -/
def flushStr (m : MState) : Chunk :=
  m.bufferedChunks.flatten ++ seg m.currentChunk m.startIndex m.endIndex

/-- A consumer command issued between yields: `buffer()` or `flush()`. -/
inductive Cmd where
  | buffer
  | flush
deriving DecidableEq, Repr

/-- Effect of one consumer command on the stream state; `flush` returns the
window contents. -/
def applyCmd (m : MState) : Cmd → MState × Option Chunk
  | .buffer => ({ m with buffering := true }, none)
  | .flush => ({ m with buffering := false }, some (flushStr m))

/-- Runs a list of consumer commands, collecting the flush results. -/
def runCmds (m : MState) : List Cmd → MState × List Chunk
  | [] => (m, [])
  | c :: cs =>
    let r1 := applyCmd m c
    let r2 := runCmds r1.1 cs
    (r2.1, r1.2.toList ++ r2.2)

/-- One yield of the in-chunk token loop: record the token's end index, let
the consumer run its commands, then (back in the generator) reset the window
if not buffering. -/
def tokenYield (m : MState) (tok : Token) (cmds : List Cmd) : MState × List Chunk :=
  let m1 := { m with endIndex := tok.endIndex }
  let r := runCmds m1 cmds
  (if r.1.buffering then r.1
   else { r.1 with startIndex := r.1.endIndex, bufferedChunks := [] }, r.2)

/-- Processes the tokens scanned from the current chunk, one yield at a time.
`k` is the index of the next yield in the whole stream; returns the flush
outputs of each yield. -/
def procToks (m : MState) (toks : List Token) (sched : Nat → List Cmd) (k : Nat) :
    MState × Nat × List (List Chunk) :=
  match toks with
  | [] => (m, k, [])
  | tok :: rest =>
    let r1 := tokenYield m tok (sched k)
    let r2 := procToks r1.1 rest sched (k+1)
    (r2.1, r2.2.1, r1.2 :: r2.2.2)

/-- Processes one chunk: scan it with `startIndex = endIndex = 0`, yield its
tokens, then save any remaining suffix of the chunk
(`bufferedChunks.push(currentChunk.slice(startIndex))`). -/
def procChunk (m : MState) (c : Chunk) (sched : Nat → List Cmd) (k : Nat) :
    MState × Nat × List (List Chunk) :=
  let sres := scanStep m.scan (some c)
  let m1 : MState :=
    { m with scan := sres.1, currentChunk := c, startIndex := 0, endIndex := 0 }
  let r := procToks m1 sres.2 sched k
  let m2 := r.1
  let saved := m2.bufferedChunks ++ [c.drop m2.startIndex]
  let m3 := if m2.startIndex < c.length then
      { m2 with bufferedChunks := saved, startIndex := c.length, endIndex := c.length }
    else m2
  (m3, r.2.1, r.2.2)

/-- Yields the tokens produced by the end-of-stream sentinel call: the source
loop `of scan()` neither updates `endIndex` nor resets the window. -/
def sentToks (m : MState) (toks : List Token) (sched : Nat → List Cmd) (k : Nat) :
    MState × Nat × List (List Chunk) :=
  match toks with
  | [] => (m, k, [])
  | _tok :: rest =>
    let r1 := runCmds m (sched k)
    let r2 := sentToks r1.1 rest sched (k+1)
    (r2.1, r2.2.1, r1.2 :: r2.2.2)

/-- Runs the whole generator over a list of chunks followed by the sentinel. -/
def bRun (m : MState) (chunks : List Chunk) (sched : Nat → List Cmd) (k : Nat) :
    MState × Nat × List (List Chunk) :=
  match chunks with
  | [] =>
    let sres := scanStep m.scan none
    sentToks { m with scan := sres.1 } sres.2 sched k
  | c :: rest =>
    let r1 := procChunk m c sched k
    let r2 := bRun r1.1 rest sched r1.2.1
    (r2.1, r2.2.1, r1.2.2 ++ r2.2.2)

/-- The per-yield flush outputs of a full `bufferedScan` run driven by a
command schedule. -/
def bufferedRun (chunks : List Chunk) (sched : Nat → List Cmd) : List (List Chunk) :=
  (bRun initM chunks sched 0).2.2

/-- The stream of (token type, global end position) pairs produced by feeding
the chunks and then the sentinel to a fresh scanner.  Global positions count
from the start of the concatenated input; tokens emitted by the sentinel call
are assigned the total input length (their `endIndex` field is stale in the
source and the buffered stream does not read it). -/
def traceAux (st : ScanState) (base : Nat) : List Chunk → List (TokenType × Nat)
  | [] => (scanStep st none).2.map (fun t => (t.type, base))
  | c :: rest =>
    let r := scanStep st (some c)
    r.2.map (fun t => (t.type, base + t.endIndex)) ++ traceAux r.1 (base + c.length) rest

/-- The token trace of a chunked stream. -/
def tokenTrace (chunks : List Chunk) : List (TokenType × Nat) := traceAux initScan 0 chunks

/-- Global end position of the token before yield `a` (zero at the start of
the stream). -/
def prevEnd (tr : List (TokenType × Nat)) : Nat → Nat
  | 0 => 0
  | a + 1 => ((tr[a]?).map Prod.snd).getD 0

/-- Global end position of the token at yield `b`. -/
def gEnd (tr : List (TokenType × Nat)) (b : Nat) : Nat :=
  ((tr[b]?).map Prod.snd).getD 0

/-- The canonical buffer-then-flush schedule: `buffer()` after yield `a`,
`flush()` after yield `b`, nothing else. -/
def schedBF (a b : Nat) : Nat → List Cmd :=
  fun k => if k = a then [.buffer] else if k = b then [.flush] else []

/-! ## The abstract window machine

The capture window of `bufferedScan` is characterised against an abstract
machine that works directly on global positions in the concatenated input:
`w` is the global start of the window and `g` the global end of the last
yielded token.  A flush returns the segment `[w, g)` of the full input; a
yield while not buffering moves `w` up to `g`.  The refinement proof shows
the concrete chunk-and-index bookkeeping of the source implements exactly
this machine, which is what makes window contents independent of chunking. -/

/-- Abstract window machine state. -/
structure AState where
  buffering : Bool
  w : Nat
  g : Nat
deriving DecidableEq, Repr

/-- Abstract effect of one consumer command. -/
def aApplyCmd (full : Chunk) (a : AState) : Cmd → AState × Option Chunk
  | .buffer => ({ a with buffering := true }, none)
  | .flush => ({ a with buffering := false }, some (seg full a.w a.g))

/-- Abstract run of a command list. -/
def aRunCmds (full : Chunk) (a : AState) : List Cmd → AState × List Chunk
  | [] => (a, [])
  | c :: cs =>
    let r1 := aApplyCmd full a c
    let r2 := aRunCmds full r1.1 cs
    (r2.1, r1.2.toList ++ r2.2)

/-- Abstract yield of a token ending at global position `g`. -/
def aYield (full : Chunk) (a : AState) (g : Nat) (cmds : List Cmd) :
    AState × List Chunk :=
  let a1 : AState := { a with g := g }
  let r := aRunCmds full a1 cmds
  (if r.1.buffering then r.1 else { r.1 with w := g }, r.2)

/-- Abstract run over a token trace. -/
def aRun (full : Chunk) (a : AState) (tr : List (TokenType × Nat))
    (sched : Nat → List Cmd) (k : Nat) : AState × List (List Chunk) :=
  match tr with
  | [] => (a, [])
  | tg :: rest =>
    let r1 := aYield full a tg.2 (sched k)
    let r2 := aRun full r1.1 rest sched (k+1)
    (r2.1, r1.2 :: r2.2)

/-- The buffering flag left by a command list. -/
def endBuffering (b : Bool) : List Cmd → Bool
  | [] => b
  | .buffer :: cs => endBuffering true cs
  | .flush :: cs => endBuffering false cs

/-- The window invariant tying a concrete `bufferedScan` state to global
positions in the full input: `base` is the global position of the start of
`currentChunk` and `w` the global start of the capture window. -/
structure BufInv (m : MState) (full : Chunk) (base w : Nat) : Prop where
  cur : m.currentChunk = seg full base (base + m.currentChunk.length)
  chunksEq : m.bufferedChunks.flatten = seg full w (base + m.startIndex)
  wLe : w ≤ base + m.startIndex
  startLe : m.startIndex ≤ m.currentChunk.length
  endLe : m.endIndex ≤ m.currentChunk.length
  baseLe : base + m.currentChunk.length ≤ full.length


/-! ## The visitor layer -/

/-- A visitor schema (`Visitor` in the source): a callback (identified here by
a numeric tag, since callback bodies are opaque to the driver), an array
visitor created by `array(inner)`, or an object visitor literal mapping keys
to sub-visitors. -/
inductive Visitor where
  | fn (id : Nat)
  | arr (inner : Visitor)
  | obj (fields : List (Chunk × Visitor))

/-- Property lookup `state.value[key]` on an object visitor literal.  Keys of
an object literal are distinct, so first match models the lookup. -/
def lookupField : List (Chunk × Visitor) → Chunk → Option Visitor
  | [], _ => none
  | f :: rest, key => if f.1 = key then some f.2 else lookupField rest key

/-- The source `VisitStartState`: the states a sub-visitor can be entered
from; these are immutable (readonly) in the source so that array visitors can
reuse them. -/
inductive StartState where
  | valueBuffering (id : Nat)
  | arrayPreBegin (inner : Visitor)
  | objectPreBegin (fields : List (Chunk × Visitor))
  | valueSkipping

/-- The source `VisitState` stack frames (`id` plus `value` payload). -/
inductive VisitState where
  | valueBuffering (id : Nat)
  | valueSkipping
  | arrayPreBegin (inner : Visitor)
  | arrayPostBegin (start : StartState)
  | arrayPostValue (start : StartState)
  | arrayPreEnd (start : StartState)
  | objectPreBegin (fields : List (Chunk × Visitor))
  | objectPostBegin (fields : List (Chunk × Visitor))
  | objectPreKey (fields : List (Chunk × Visitor))
  | objectPostValue (fields : List (Chunk × Visitor))
  | objectPostKey (start : StartState)

/-- A start state used as a stack frame (the source subtype inclusion
`VisitStartState <: VisitState`). -/
def StartState.asFrame : StartState → VisitState
  | .valueBuffering id => .valueBuffering id
  | .arrayPreBegin inner => .arrayPreBegin inner
  | .objectPreBegin fields => .objectPreBegin fields
  | .valueSkipping => .valueSkipping

/-- `stateFromVisitor` of the source. -/
def stateFromVisitor : Visitor → StartState
  | .fn id => .valueBuffering id
  | .arr inner => .arrayPreBegin inner
  | .obj fields => .objectPreBegin fields

/-- The `DEPTH_DELTA` table of the source. -/
def DEPTH_DELTA : TokenType → Int
  | .beginObject => 1
  | .beginArray => 1
  | .endObject => -1
  | .endArray => -1
  | .valueSeparator => 0
  | .nameSeparator => 0
  | .atom => 0

/-! ### A model of `JSON.parse`

The driver calls the JavaScript builtin `JSON.parse` on flushed text, for
whole buffered values and for object keys.  The builtin is modelled by a
recursive-descent acceptor of the JSON grammar (ECMA-404 / ECMA-262
`ParseJSON`, over UTF-16 code units): `jsonAccepts` decides whether
`JSON.parse` succeeds, and `jsonKeyParse` classifies the parse at key
position: the decoded string when the parsed value is a string, a marker when
the parse succeeds with a non-string value (the source then coerces the value
with property-key lookup and continues), and failure when `JSON.parse`
throws. -/

/-- Value of a hexadecimal digit code unit. -/
def hexVal (c : CU) : Option Nat :=
  if 48 ≤ c ∧ c ≤ 57 then some (c - 48)
  else if 65 ≤ c ∧ c ≤ 70 then some (c - 55)
  else if 97 ≤ c ∧ c ≤ 102 then some (c - 87)
  else none

/-- Drops leading JSON whitespace (space, tab, line feed, carriage return). -/
def jsonWsDrop : Chunk → Chunk
  | [] => []
  | c :: rest => if isWsCU c then jsonWsDrop rest else c :: rest

/-- Decodes a JSON string body after the opening quote: returns the decoded
code units and the remainder after the closing quote.  Unescaped control
characters below U+0020 are rejected; `\uXXXX` appends the code unit
directly (JavaScript strings need not pair surrogates). -/
def strBody : Chunk → Option (Chunk × Chunk)
  | [] => none
  | c :: rest =>
    if c = 34 then some ([], rest)
    else if c = 92 then
      match rest with
      | [] => none
      | d :: r =>
        if d = 34 ∨ d = 92 ∨ d = 47 then (strBody r).map (fun p => (d :: p.1, p.2))
        else if d = 98 then (strBody r).map (fun p => (8 :: p.1, p.2))
        else if d = 102 then (strBody r).map (fun p => (12 :: p.1, p.2))
        else if d = 110 then (strBody r).map (fun p => (10 :: p.1, p.2))
        else if d = 114 then (strBody r).map (fun p => (13 :: p.1, p.2))
        else if d = 116 then (strBody r).map (fun p => (9 :: p.1, p.2))
        else if d = 117 then
          match r with
          | h1 :: h2 :: h3 :: h4 :: r4 =>
            match hexVal h1, hexVal h2, hexVal h3, hexVal h4 with
            | some a, some b, some x, some y =>
              (strBody r4).map (fun p => ((((a * 16 + b) * 16 + x) * 16 + y) :: p.1, p.2))
            | _, _, _, _ => none
          | _ => none
        else none
    else if c < 32 then none
    else (strBody rest).map (fun p => (c :: p.1, p.2))

/-- Splits a maximal run of leading decimal digits. -/
def digitSpan : Chunk → Chunk × Chunk
  | [] => ([], [])
  | c :: rest =>
    if 48 ≤ c ∧ c ≤ 57 then
      let r := digitSpan rest
      (c :: r.1, r.2)
    else ([], c :: rest)

/-- Accepts the exponent part of a JSON number (possibly empty). -/
def jsonExpPart (l : Chunk) : Option Chunk :=
  match l with
  | c :: r =>
    if c = 101 ∨ c = 69 then
      let r1 := match r with
        | 43 :: r2 => r2
        | 45 :: r2 => r2
        | _ => r
      match digitSpan r1 with
      | ([], _) => none
      | (_, r2) => some r2
    else some l
  | [] => some l

/-- Accepts the fraction-and-exponent part of a JSON number. -/
def jsonFracPart (l : Chunk) : Option Chunk :=
  match l with
  | 46 :: r =>
    (match digitSpan r with
     | ([], _) => none
     | (_, r2) => jsonExpPart r2)
  | _ => jsonExpPart l

/-- Accepts a JSON number (`-? int frac? exp?`), returning the remainder. -/
def jsonNum (l : Chunk) : Option Chunk :=
  let l1 := match l with
    | 45 :: r => r
    | _ => l
  match l1 with
  | 48 :: r2 => jsonFracPart r2
  | c :: r2 =>
    if 49 ≤ c ∧ c ≤ 57 then jsonFracPart (digitSpan r2).2
    else none
  | [] => none

/-- Selector for the three mutually recursive productions of the JSON
grammar; the recursion is fused into one fuel-indexed function so that it
is structurally recursive on the fuel. -/
inductive JKind where
  | value
  | members
  | elems
deriving DecidableEq, Repr

/-- The mutual recursion of the JSON grammar: accepts a value, the members of
an object from the first key onward (consuming the closing brace), or the
elements of an array from the first element onward (consuming the closing
bracket), returning the remainder.  Fuel decreases on each nested call; every
call consumes at least one code unit, so `length + 1` fuel always suffices. -/
def jsonRun : Nat → JKind → Chunk → Option Chunk
  | 0, _, _ => none
  | fuel + 1, .value, l =>
    match l with
    | 123 :: rest =>
      let l1 := jsonWsDrop rest
      (match l1 with
       | 125 :: r => some r
       | _ => jsonRun fuel .members l1)
    | 91 :: rest =>
      let l1 := jsonWsDrop rest
      (match l1 with
       | 93 :: r => some r
       | _ => jsonRun fuel .elems l1)
    | 34 :: rest => (strBody rest).map Prod.snd
    | 116 :: 114 :: 117 :: 101 :: r => some r
    | 102 :: 97 :: 108 :: 115 :: 101 :: r => some r
    | 110 :: 117 :: 108 :: 108 :: r => some r
    | _ => jsonNum l
  | fuel + 1, .members, l =>
    match l with
    | 34 :: rest =>
      (match strBody rest with
       | none => none
       | some p =>
         match jsonWsDrop p.2 with
         | 58 :: r2 =>
           (match jsonRun fuel .value (jsonWsDrop r2) with
            | none => none
            | some r3 =>
              match jsonWsDrop r3 with
              | 44 :: r4 => jsonRun fuel .members (jsonWsDrop r4)
              | 125 :: r4 => some r4
              | _ => none)
         | _ => none)
    | _ => none
  | fuel + 1, .elems, l =>
    match jsonRun fuel .value l with
    | none => none
    | some r =>
      match jsonWsDrop r with
      | 44 :: r2 => jsonRun fuel .elems (jsonWsDrop r2)
      | 93 :: r2 => some r2
      | _ => none

/-- Accepts a JSON value at the head of the list, returning the remainder. -/
def jsonVal (fuel : Nat) (l : Chunk) : Option Chunk := jsonRun fuel .value l

/-- Accepts the members of an object from the first key onward, consuming the
closing brace. -/
def jsonMembers (fuel : Nat) (l : Chunk) : Option Chunk := jsonRun fuel .members l

/-- Accepts the elements of an array from the first element onward, consuming
the closing bracket. -/
def jsonElems (fuel : Nat) (l : Chunk) : Option Chunk := jsonRun fuel .elems l

/-- Whether `JSON.parse` succeeds on the text. -/
def jsonAccepts (l : Chunk) : Bool :=
  match jsonVal (l.length + 1) (jsonWsDrop l) with
  | some r => (jsonWsDrop r).isEmpty
  | none => false

/-- Outcome of `JSON.parse` on the flushed text at key position: a string
value (with its decoded code units), a successful parse of a non-string
value, or a thrown parse error. -/
inductive KeyParse where
  | str (key : Chunk)
  | nonStr
  | fail
deriving DecidableEq, Repr

/-- `JSON.parse` at key position.  The source does not check the parsed
value's type: any successful parse continues, with the value coerced to a
property key by `state.value[key]`.  A string value yields its decoded code
units; any other successful parse is `.nonStr`; a `JSON.parse` error is
`.fail` and propagates out of `visit`. -/
def jsonKeyParse (l : Chunk) : KeyParse :=
  match jsonWsDrop l with
  | 34 :: rest =>
    (match strBody rest with
     | some p => if (jsonWsDrop p.2).isEmpty then .str p.1 else .fail
     | none => .fail)
  | _ => if jsonAccepts l then .nonStr else .fail

/-! ### The driver -/

/-- Observable events of a `visit` run: a token dispatched by the driver loop,
a callback invocation (with the raw flushed text whose `JSON.parse` value is
passed to the callback), and the resolution of the awaited callback. -/
inductive Ev where
  | dispatch (t : TokenType)
  | invoke (id : Nat) (raw : Chunk)
  | resolve (id : Nat)
deriving DecidableEq, Repr

/-- Errors thrown by `visit`: `SyntaxError` for unbalanced delimiters and
unexpected token kinds, plain `Error` for bad list continuations, and the
native error propagating out of a failed `JSON.parse`. -/
inductive VErr where
  | unbalancedDelims
  | expectedArray
  | expectedArrayEnd
  | expectedObject
  | expectedString
  | expectedColon
  | expectedObjectEnd
  | parseFail
deriving DecidableEq, Repr

/-- The two buffered-stream operations the driver calls between yields,
abstracted over the stream state so the concrete stream and the abstract
window machine share one transition function. -/
structure BufOps (σ : Type) where
  doBuffer : σ → σ
  doFlush : σ → σ × Chunk

/-- The concrete operations: `buffer()` sets the flag, `flush()` clears it
and returns the window contents. -/
def mOps : BufOps MState :=
  ⟨fun m => { m with buffering := true },
   fun m => ({ m with buffering := false }, flushStr m)⟩

/-- The abstract operations on the global-position window machine. -/
def aOps (full : Chunk) : BufOps AState :=
  ⟨fun a => { a with buffering := true },
   fun a => ({ a with buffering := false }, seg full a.w a.g)⟩

/-- The shared object-key step (`case ObjectPostBegin` falling through to
`case ObjectPreKey` in the source): the token must be an atom; the flushed
text is parsed with `JSON.parse` and the sub-visitor for the key is selected
from the schema, a missing key giving a skipping state.  The frame is
rewritten to `ObjectPostValue` and an `ObjectPostKey` frame holding the
selected start state is pushed.  A successful non-string parse also
continues: the source coerces the value to a property key with
`state.value[key]`; schema fields name object members by their literal string
keys (the same data-model reading as `lookupField`), so the coerced key of a
non-string value selects no field and the skipping state is pushed. -/
def objKeyStep {σ : Type} (ops : BufOps σ) (s : σ)
    (fields : List (Chunk × Visitor)) (below : List VisitState) (depth : Int)
    (t : TokenType) : Except VErr (σ × List VisitState × Int × List Ev) :=
  if t = .atom then
    let fr := ops.doFlush s
    match jsonKeyParse fr.2 with
    | .str key =>
      let vs : StartState :=
        match lookupField fields key with
        | none => .valueSkipping
        | some v => stateFromVisitor v
      .ok (fr.1, .objectPostKey vs :: .objectPostValue fields :: below, depth, [])
    | .nonStr =>
      .ok (fr.1, .objectPostKey .valueSkipping :: .objectPostValue fields :: below,
          depth, [])
    | .fail => .error .parseFail
  else .error .expectedString

/-- One iteration of the `visit` driver loop on a nonempty stack (source
lines 365-475): the `ArrayPostBegin` pre-step rewrites the top frame and
pushes the element start state, then the switch on the (possibly new) top
frame runs.  Returns the stream state, stack, depth and events of the
iteration, or the thrown error.  An empty stack is never dispatched (the
loop breaks first); it is mapped to a no-op. -/
def dispatch {σ : Type} (ops : BufOps σ) (s : σ) (stack : List VisitState)
    (depth : Int) (t : TokenType) :
    Except VErr (σ × List VisitState × Int × List Ev) :=
  match stack with
  | [] => .ok (s, [], depth, [])
  | st0 :: rest0 =>
    let pre : VisitState × List VisitState :=
      match st0 with
      | .arrayPostBegin start =>
        if t = .endArray then (.arrayPreEnd start, rest0)
        else (start.asFrame, .arrayPostValue start :: rest0)
      | _ => (st0, rest0)
    let below := pre.2
    match pre.1 with
    | .valueBuffering id =>
      let s1 := if depth = 0 then ops.doBuffer s else s
      let d := depth + DEPTH_DELTA t
      if d = 0 then
        let fr := ops.doFlush s1
        if jsonAccepts fr.2 then .ok (fr.1, below, d, [.invoke id fr.2, .resolve id])
        else .error .parseFail
      else if d < 0 then .error .unbalancedDelims
      else .ok (s1, .valueBuffering id :: below, d, [])
    | .valueSkipping =>
      let d := depth + DEPTH_DELTA t
      if d = 0 then .ok (s, below, d, [])
      else if d < 0 then .error .unbalancedDelims
      else .ok (s, .valueSkipping :: below, d, [])
    | .arrayPreBegin inner =>
      if t = .beginArray then
        .ok (s, .arrayPostBegin (stateFromVisitor inner) :: below, depth, [])
      else .error .expectedArray
    | .arrayPostBegin start => .ok (s, .arrayPostBegin start :: below, depth, [])
    | .arrayPostValue start =>
      if t = .endArray then .ok (s, below, depth, [])
      else if t = .valueSeparator then
        .ok (s, start.asFrame :: .arrayPostValue start :: below, depth, [])
      else .error .expectedArrayEnd
    | .arrayPreEnd _ => .ok (s, below, depth, [])
    | .objectPreBegin fields =>
      if t = .beginObject then
        .ok (s, .objectPostBegin fields :: below, depth, [])
      else .error .expectedObject
    | .objectPostBegin fields =>
      if t = .endObject then .ok (s, below, depth, [])
      else objKeyStep ops s fields below depth t
    | .objectPreKey fields => objKeyStep ops s fields below depth t
    | .objectPostValue fields =>
      if t = .endObject then .ok (s, below, depth, [])
      else if t = .valueSeparator then
        .ok (s, .objectPreKey fields :: below, depth, [])
      else .error .expectedObjectEnd
    | .objectPostKey start =>
      if t = .nameSeparator then .ok (s, start.asFrame :: below, depth, [])
      else .error .expectedColon

/-- The result of running the driver over part of the stream: stream state,
visitor stack, depth counter, emitted events, thrown error (if any), and
whether the run stopped early (by `break` on an empty stack or by a thrown
error). -/
structure VRun (σ : Type) where
  s : σ
  stack : List VisitState
  depth : Int
  events : List Ev
  err : Option VErr
  broke : Bool

/-- Driver loop over the tokens scanned from the current chunk: each token is
dispatched after `endIndex` is set, and afterwards the generator resets the
window if not buffering.  On an empty stack the loop breaks; on an error the
exception propagates with no further generator execution (no reset). -/
def vToksM : MState → List VisitState → Int → List Token → VRun MState
  | m, stack, depth, [] => ⟨m, stack, depth, [], none, false⟩
  | m, stack, depth, tok :: rest =>
    if stack.isEmpty then ⟨m, stack, depth, [], none, true⟩
    else
      let m1 := { m with endIndex := tok.endIndex }
      match dispatch mOps m1 stack depth tok.type with
      | .error e => ⟨m1, stack, depth, [.dispatch tok.type], some e, true⟩
      | .ok r =>
        let m2 := if r.1.buffering then r.1
          else { r.1 with startIndex := r.1.endIndex, bufferedChunks := [] }
        let res := vToksM m2 r.2.1 r.2.2.1 rest
        ⟨res.s, res.stack, res.depth, (Ev.dispatch tok.type :: r.2.2.2) ++ res.events,
          res.err, res.broke⟩

/-- Driver over one chunk: scan with a fresh window, dispatch the tokens,
then save any remaining suffix of the chunk (skipped when the run stopped
early, since `break` and exceptions abandon the suspended generator). -/
def vChunk (m : MState) (stack : List VisitState) (depth : Int) (c : Chunk) :
    VRun MState :=
  let sres := scanStep m.scan (some c)
  let m1 : MState :=
    { m with scan := sres.1, currentChunk := c, startIndex := 0, endIndex := 0 }
  let r := vToksM m1 stack depth sres.2
  if r.broke ∨ r.err.isSome then r
  else
    let m2 := r.s
    let m3 := if m2.startIndex < c.length then
        { m2 with bufferedChunks := m2.bufferedChunks ++ [c.drop m2.startIndex],
                  startIndex := c.length, endIndex := c.length }
      else m2
    ⟨m3, r.stack, r.depth, r.events, none, false⟩

/-- Driver over the chunk list (no sentinel). -/
def vBody : MState → List VisitState → Int → List Chunk → VRun MState
  | m, stack, depth, [] => ⟨m, stack, depth, [], none, false⟩
  | m, stack, depth, c :: rest =>
    let r := vChunk m stack depth c
    if r.broke ∨ r.err.isSome then r
    else
      let res := vBody r.s r.stack r.depth rest
      ⟨res.s, res.stack, res.depth, r.events ++ res.events, res.err, res.broke⟩

/-- Driver over the end-of-stream sentinel tokens, which are yielded without
`endIndex` updates and without window resets. -/
def vSent : MState → List VisitState → Int → List TokenType → VRun MState
  | m, stack, depth, [] => ⟨m, stack, depth, [], none, false⟩
  | m, stack, depth, t :: rest =>
    if stack.isEmpty then ⟨m, stack, depth, [], none, true⟩
    else
      match dispatch mOps m stack depth t with
      | .error e => ⟨m, stack, depth, [.dispatch t], some e, true⟩
      | .ok r =>
        let res := vSent r.1 r.2.1 r.2.2.1 rest
        ⟨res.s, res.stack, res.depth, (Ev.dispatch t :: r.2.2.2) ++ res.events,
          res.err, res.broke⟩

/-- A full `visit(stream, visitor)` run over a list of chunks. -/
def visitRun (chunks : List Chunk) (v : Visitor) : VRun MState :=
  let r := vBody initM [(stateFromVisitor v).asFrame] 0 chunks
  if r.broke ∨ r.err.isSome then r
  else
    let sres := scanStep r.s.scan none
    let r2 := vSent { r.s with scan := sres.1 } r.stack r.depth (sres.2.map Token.type)
    ⟨r2.s, r2.stack, r2.depth, r.events ++ r2.events, r2.err, r2.broke⟩

/-- Checks that every `invoke` event is immediately followed by the matching
`resolve` event. -/
def pairedEvs : List Ev → Bool
  | [] => true
  | .invoke id _ :: rest =>
    (match rest with
     | .resolve id2 :: _ => id2 = id && pairedEvs rest
     | _ => false)
  | _ :: rest => pairedEvs rest


/-- The driver loop run against the abstract window machine over a global
token trace: each token carries its global end position, which plays the role
of `endIndex`; the post-dispatch reset moves the window start up to the
position.  Chunk boundaries do not exist at this level, which is what makes
the run depend only on the trace. -/
def vAbsToks (full : Chunk) : AState → List VisitState → Int → List (TokenType × Nat) → VRun AState
  | a, stack, depth, [] => ⟨a, stack, depth, [], none, false⟩
  | a, stack, depth, tg :: rest =>
    if stack.isEmpty then ⟨a, stack, depth, [], none, true⟩
    else
      let a1 : AState := { a with g := tg.2 }
      match dispatch (aOps full) a1 stack depth tg.1 with
      | .error e => ⟨a1, stack, depth, [.dispatch tg.1], some e, true⟩
      | .ok r =>
        let a2 := if r.1.buffering then r.1 else { r.1 with w := r.1.g }
        let res := vAbsToks full a2 r.2.1 r.2.2.1 rest
        ⟨res.s, res.stack, res.depth, (Ev.dispatch tg.1 :: r.2.2.2) ++ res.events,
          res.err, res.broke⟩

/-- A whole `visit` run expressed over the token trace of the stream. -/
def visitAbs (full : Chunk) (tr : List (TokenType × Nat)) (v : Visitor) : VRun AState :=
  vAbsToks full ⟨false, 0, 0⟩ [(stateFromVisitor v).asFrame] 0 tr

/-- The scanner state after feeding a list of chunks. -/
def scanEnd (st : ScanState) : List Chunk → ScanState
  | [] => st
  | c :: rest => scanEnd (scanStep st (some c)).1 rest

/-- The token trace of the chunk list without the end-of-stream sentinel. -/
def bodyTrace (st : ScanState) (base : Nat) : List Chunk → List (TokenType × Nat)
  | [] => []
  | c :: rest =>
    let r := scanStep st (some c)
    r.2.map (fun t => (t.type, base + t.endIndex)) ++ bodyTrace r.1 (base + c.length) rest

end JsonStreamVisit

namespace JsonStreamVisit

/-! ## Basic lemmas about the scanner -/

theorem wsCount_le (l : Chunk) : wsCount l ≤ l.length := by
  induction l with
  | nil => simp [wsCount]
  | cons c rest ih =>
    simp only [wsCount, List.length_cons]
    split <;> omega

theorem nsCont_le (l : Chunk) : nsCont l ≤ l.length := by
  induction l with
  | nil => simp [nsCont]
  | cons c rest ih =>
    simp only [nsCont, List.length_cons]
    split <;> omega

@[simp] theorem stringCont_nil : stringCont [] = (0, false, false) := rfl

@[simp] theorem stringCont_quote (rest : Chunk) :
    stringCont (34 :: rest) = (1, false, true) := by
  rw [stringCont.eq_def]; simp

@[simp] theorem stringCont_esc_nil : stringCont [92] = (1, true, false) := by
  rw [stringCont.eq_def]; simp

theorem stringCont_esc_cons (d : CU) (rest2 : Chunk) :
    stringCont (92 :: d :: rest2) =
      if jsDot d then
        (2 + (stringCont rest2).1, (stringCont rest2).2.1, (stringCont rest2).2.2)
      else (0, false, false) := by
  rw [stringCont.eq_def]; simp

theorem stringCont_other (c : CU) (rest : Chunk) (h1 : c ≠ 34) (h2 : c ≠ 92) :
    stringCont (c :: rest) =
      (1 + (stringCont rest).1, (stringCont rest).2.1, (stringCont rest).2.2) := by
  rw [stringCont.eq_def]
  simp [h1, h2]

/-- The loop threads its state through without reading it: it either returns
the threaded state unchanged or overwrites it with a fully determined value,
and the emitted tokens never depend on it. -/
theorem mainLoop_state (fuel : Nat) (chunk : Chunk) (p : Nat) (st : ScanState)
    (acc : List Token) :
    ∀ t : ScanState,
      (mainLoop fuel chunk p st acc).2 = (mainLoop fuel chunk p t acc).2 ∧
      (((mainLoop fuel chunk p st acc).1 = st ∧ (mainLoop fuel chunk p t acc).1 = t) ∨
        (mainLoop fuel chunk p st acc).1 = (mainLoop fuel chunk p t acc).1) := by
  induction fuel, chunk, p, st, acc using mainLoop.induct with
  | case1 chunk p st acc =>
    intro t
    simp [mainLoop]
  | case2 chunk p st acc fuel s hdrop =>
    intro t
    simp [mainLoop, hdrop]
  | case3 chunk p st acc fuel s d rest2 hdrop ty hty ih =>
    intro t
    simp only [mainLoop, hdrop, hty]
    exact ih t
  | case4 chunk p st acc fuel s rest2 r e hcl hdrop hty ih =>
    intro t
    simp only [mainLoop, hdrop, hty, reduceIte,
      if_pos (show (stringCont rest2).2.2 = true from hcl)]
    exact ih t
  | case5 chunk p st acc fuel s rest2 r e hcl hdrop hty ih =>
    intro t
    simp only [mainLoop, hdrop, hty, reduceIte,
      if_neg (show ¬ (stringCont rest2).2.2 = true from hcl)]
    exact ⟨trivial, Or.inr trivial⟩
  | case6 chunk p st acc fuel s d rest2 hdrop hty hd e he ih =>
    intro t
    simp only [mainLoop, hdrop, hty, if_neg hd,
      if_pos (show s + 1 + nsCont rest2 = chunk.length from he)]
    exact ⟨trivial, Or.inr trivial⟩
  | case7 chunk p st acc fuel s d rest2 hdrop hty hd e he ih =>
    intro t
    simp only [mainLoop, hdrop, hty, if_neg hd,
      if_neg (show ¬ s + 1 + nsCont rest2 = chunk.length from he)]
    exact ih t

theorem obsEqRfl {s : ScanState} : ObsEq s s := ⟨rfl, fun _ => ⟨rfl, rfl⟩⟩

theorem stringCont_le (l : Chunk) : (stringCont l).1 ≤ l.length := by
  induction l using stringCont.induct with
  | case1 => simp
  | case2 rest => simp
  | case3 h => simp
  | case4 d rest2 hd h ih =>
    rw [stringCont_esc_cons, if_pos hd]
    simp only [List.length_cons]
    omega
  | case5 d rest2 hd h =>
    rw [stringCont_esc_cons, if_neg hd]
    simp
  | case6 c rest h h2 ih =>
    rw [stringCont_other c rest h h2]
    simp only [List.length_cons]
    omega

end JsonStreamVisit


namespace JsonStreamVisit

/-! ## More loop and character-class lemmas -/

theorem mainLoop_acc_prefix (fuel : Nat) (chunk : Chunk) (p : Nat) (st : ScanState)
    (acc : List Token) :
    ∃ extra, (mainLoop fuel chunk p st acc).2 = acc ++ extra := by
  induction fuel, chunk, p, st, acc using mainLoop.induct with
  | case1 chunk p st acc => exact ⟨[], by simp [mainLoop]⟩
  | case2 chunk p st acc fuel s hdrop => exact ⟨[], by simp [mainLoop, hdrop]⟩
  | case3 chunk p st acc fuel s d rest2 hdrop ty hty ih =>
    obtain ⟨extra, hx⟩ := ih
    refine ⟨⟨ty, s+1⟩ :: extra, ?_⟩
    simp only [mainLoop, hdrop, hty]
    rw [hx]
    simp
  | case4 chunk p st acc fuel s rest2 r e hcl hdrop hty ih =>
    obtain ⟨extra, hx⟩ := ih
    refine ⟨⟨.atom, e⟩ :: extra, ?_⟩
    simp only [mainLoop, hdrop, hty, reduceIte,
      if_pos (show (stringCont rest2).2.2 = true from hcl)]
    rw [hx]
    simp
  | case5 chunk p st acc fuel s rest2 r e hcl hdrop hty ih =>
    obtain ⟨extra, hx⟩ := ih
    refine ⟨extra, ?_⟩
    simp only [mainLoop, hdrop, hty, reduceIte,
      if_neg (show ¬ (stringCont rest2).2.2 = true from hcl)]
    exact hx
  | case6 chunk p st acc fuel s d rest2 hdrop hty hd e he ih =>
    obtain ⟨extra, hx⟩ := ih
    refine ⟨extra, ?_⟩
    simp only [mainLoop, hdrop, hty, if_neg hd,
      if_pos (show s + 1 + nsCont rest2 = chunk.length from he)]
    exact hx
  | case7 chunk p st acc fuel s d rest2 hdrop hty hd e he ih =>
    obtain ⟨extra, hx⟩ := ih
    refine ⟨⟨.atom, e⟩ :: extra, ?_⟩
    simp only [mainLoop, hdrop, hty, if_neg hd,
      if_neg (show ¬ s + 1 + nsCont rest2 = chunk.length from he)]
    rw [hx]
    simp

theorem mainLoop_end {chunk : Chunk} {p : Nat} (fuel : Nat) (st : ScanState)
    (acc : List Token) (h : chunk.length ≤ p) :
    mainLoop fuel chunk p st acc = (st, acc) := by
  cases fuel with
  | zero => rfl
  | succ fuel =>
    have hd : chunk.drop p = [] := List.drop_eq_nil_of_le h
    have hw : wsCount (chunk.drop p) = 0 := by rw [hd]; rfl
    have hd2 : chunk.drop (p + wsCount (chunk.drop p)) = [] := by
      rw [hw]
      simpa using hd
    simp only [mainLoop, hd2]

theorem mainLoop_pending (fuel : Nat) (chunk : Chunk) (p : Nat) (st : ScanState)
    (acc : List Token) (h : st.pending ≠ none) :
    (mainLoop fuel chunk p st acc).1.pending ≠ none := by
  induction fuel, chunk, p, st, acc using mainLoop.induct with
  | case1 chunk p st acc => exact h
  | case2 chunk p st acc fuel s hdrop => simpa [mainLoop, hdrop] using h
  | case3 chunk p st acc fuel s d rest2 hdrop ty hty ih =>
    simp only [mainLoop, hdrop, hty]
    exact ih h
  | case4 chunk p st acc fuel s rest2 r e hcl hdrop hty ih =>
    simp only [mainLoop, hdrop, hty, reduceIte,
      if_pos (show (stringCont rest2).2.2 = true from hcl)]
    exact ih h
  | case5 chunk p st acc fuel s rest2 r e hcl hdrop hty ih =>
    simp only [mainLoop, hdrop, hty, reduceIte,
      if_neg (show ¬ (stringCont rest2).2.2 = true from hcl)]
    exact ih (by simp)
  | case6 chunk p st acc fuel s d rest2 hdrop hty hd e he ih =>
    simp only [mainLoop, hdrop, hty, if_neg hd,
      if_pos (show s + 1 + nsCont rest2 = chunk.length from he)]
    exact ih (by simp)
  | case7 chunk p st acc fuel s d rest2 hdrop hty hd e he ih =>
    simp only [mainLoop, hdrop, hty, if_neg hd,
      if_neg (show ¬ s + 1 + nsCont rest2 = chunk.length from he)]
    exact ih h

theorem wsCount_all (l : Chunk) (h : wsCount l = l.length) :
    ∀ x ∈ l, isWsCU x = true := by
  induction l with
  | nil => simp
  | cons c rest ih =>
    intro x hx
    by_cases hc : isWsCU c
    · simp only [wsCount, if_pos hc, List.length_cons, Nat.add_comm 1] at h
      have := ih (by omega)
      rcases List.mem_cons.mp hx with rfl | hm
      · exact hc
      · exact this x hm
    · simp only [wsCount, if_neg hc, List.length_cons] at h
      have := wsCount_le rest
      omega

theorem nsCont_all (l : Chunk) (h : nsCont l = l.length) :
    ∀ x ∈ l, isNsCU x = true := by
  induction l with
  | nil => simp
  | cons c rest ih =>
    intro x hx
    by_cases hc : isNsCU c
    · simp only [nsCont, if_pos hc, List.length_cons, Nat.add_comm 1] at h
      have := ih (by omega)
      rcases List.mem_cons.mp hx with rfl | hm
      · exact hc
      · exact this x hm
    · simp only [nsCont, if_neg hc, List.length_cons] at h
      have := nsCont_le rest
      omega

theorem nsCont_of_all (l : Chunk) (h : ∀ x ∈ l, isNsCU x = true) :
    nsCont l = l.length := by
  induction l with
  | nil => rfl
  | cons c rest ih =>
    simp only [nsCont, if_pos (h c (by simp)), List.length_cons]
    rw [ih (fun x hx => h x (List.mem_cons_of_mem c hx))]
    omega

theorem stringCont_closed (l : Chunk) (h : (stringCont l).2.2 = true) :
    1 ≤ (stringCont l).1 ∧ l[(stringCont l).1 - 1]? = some 34 := by
  induction l using stringCont.induct with
  | case1 => simp at h
  | case2 rest => simp
  | case3 hq => simp at h
  | case4 d rest2 hd hq ih =>
    rw [stringCont_esc_cons, if_pos hd] at h ⊢
    simp only at h ⊢
    obtain ⟨h1, h2⟩ := ih h
    refine ⟨by omega, ?_⟩
    have : 2 + (stringCont rest2).1 - 1 = (stringCont rest2).1 - 1 + 2 := by omega
    rw [this]
    simpa using h2
  | case5 d rest2 hd hq =>
    rw [stringCont_esc_cons, if_neg hd] at h
    simp at h
  | case6 c rest hc1 hc2 ih =>
    rw [stringCont_other c rest hc1 hc2] at h ⊢
    simp only at h ⊢
    obtain ⟨h1, h2⟩ := ih h
    refine ⟨by omega, ?_⟩
    have : 1 + (stringCont rest).1 - 1 = (stringCont rest).1 - 1 + 1 := by omega
    rw [this]
    simpa using h2

theorem drop_cons_lt {chunk : Chunk} {s : Nat} {c : CU} {rest : List CU}
    (h : chunk.drop s = c :: rest) : s < chunk.length := by
  by_contra hge
  rw [List.drop_eq_nil_of_le (Nat.le_of_not_lt hge)] at h
  exact absurd h (by simp)

theorem drop_cons_len {chunk : Chunk} {s : Nat} {c : CU} {rest : List CU}
    (h : chunk.drop s = c :: rest) : chunk.length = s + 1 + rest.length := by
  have h1 := congrArg List.length h
  rw [List.length_drop] at h1
  simp only [List.length_cons] at h1
  have := drop_cons_lt h
  omega

theorem drop_cons_head {chunk : Chunk} {s : Nat} {c : CU} {rest : List CU}
    (h : chunk.drop s = c :: rest) : chunk[s]? = some c := by
  have := List.getElem?_drop chunk s 0
  rw [h] at this
  simpa using this.symm

theorem drop_cons_get {chunk : Chunk} {s : Nat} {c : CU} {rest : List CU}
    (h : chunk.drop s = c :: rest) (k : Nat) : chunk[s + 1 + k]? = rest[k]? := by
  have := List.getElem?_drop chunk s (k + 1)
  rw [h] at this
  simp only [List.getElem?_cons_succ] at this
  rw [this]
  congr 1
  omega

theorem mainLoop_last_ns (fuel : Nat) (chunk : Chunk) (p : Nat) (st : ScanState)
    (acc : List Token) (u : CU) :
    chunk[chunk.length - 1]? = some u → isNsCU u = true →
    chunk.length - p < fuel →
    (chunk.length ≤ p → st.pending ≠ none) →
    (mainLoop fuel chunk p st acc).1.pending ≠ none := by
  induction fuel, chunk, p, st, acc using mainLoop.induct with
  | case1 chunk p st acc =>
    intro _ _ hfuel _
    exact absurd hfuel (by omega)
  | case2 chunk p st acc fuel s hdrop =>
    intro hu hns hfuel hpre
    simp only [mainLoop, hdrop]
    apply hpre
    by_contra hlt
    push_neg at hlt
    have hslen : chunk.length ≤ p + wsCount (chunk.drop p) := by
      by_contra hx
      push_neg at hx
      rw [List.drop_eq_nil_iff] at hdrop
      omega
    have hwsle := wsCount_le (chunk.drop p)
    rw [List.length_drop] at hwsle
    have hwseq : wsCount (chunk.drop p) = (chunk.drop p).length := by
      rw [List.length_drop]
      omega
    have hall := wsCount_all _ hwseq
    have humem : u ∈ chunk.drop p := by
      have hgot : (chunk.drop p)[chunk.length - 1 - p]? = some u := by
        rw [List.getElem?_drop]
        rw [show p + (chunk.length - 1 - p) = chunk.length - 1 by omega]
        exact hu
      exact List.getElem?_mem hgot
    have hw := hall u humem
    simp [isNsCU, hw] at hns
  | case3 chunk p st acc fuel s d rest2 hdrop ty hty ih =>
    intro hu hns hfuel hpre
    simp only [mainLoop, hdrop, hty]
    have hs := drop_cons_lt hdrop
    refine ih hu hns (by omega) ?_
    intro hlen
    exfalso
    have hse : s = chunk.length - 1 := by omega
    have hd := drop_cons_head hdrop
    rw [hse, hu] at hd
    obtain rfl : u = d := by injection hd
    simp [isNsCU, hty] at hns
  | case4 chunk p st acc fuel s rest2 r e hcl hdrop hty ih =>
    intro hu hns hfuel hpre
    simp only [mainLoop, hdrop, hty, reduceIte,
      if_pos (show (stringCont rest2).2.2 = true from hcl)]
    have hs := drop_cons_lt hdrop
    have hlen := drop_cons_len hdrop
    have hscle := stringCont_le rest2
    refine ih hu hns (by show chunk.length - (s + 1 + (stringCont rest2).1) < fuel; omega) ?_
    intro hle
    exfalso
    obtain ⟨h1, h2⟩ := stringCont_closed rest2 hcl
    have heq : s + 1 + (stringCont rest2).1 = chunk.length := by
      have : chunk.length ≤ s + 1 + (stringCont rest2).1 := hle
      omega
    have hq : chunk[s + 1 + ((stringCont rest2).1 - 1)]? = some 34 := by
      rw [drop_cons_get hdrop]
      exact h2
    rw [show s + 1 + ((stringCont rest2).1 - 1) = chunk.length - 1 by omega, hu] at hq
    obtain rfl : u = 34 := by injection hq
    simp [isNsCU] at hns
  | case5 chunk p st acc fuel s rest2 r e hcl hdrop hty ih =>
    intro hu hns hfuel hpre
    simp only [mainLoop, hdrop, hty, reduceIte,
      if_neg (show ¬ (stringCont rest2).2.2 = true from hcl)]
    have hs := drop_cons_lt hdrop
    refine ih hu hns (by show chunk.length - (s + 1 + (stringCont rest2).1) < fuel; omega) ?_
    intro _
    simp
  | case6 chunk p st acc fuel s d rest2 hdrop hty hd e he ih =>
    intro hu hns hfuel hpre
    simp only [mainLoop, hdrop, hty, if_neg hd,
      if_pos (show s + 1 + nsCont rest2 = chunk.length from he)]
    have hs := drop_cons_lt hdrop
    refine ih hu hns (by show chunk.length - (s + 1 + nsCont rest2) < fuel; omega) ?_
    intro _
    simp
  | case7 chunk p st acc fuel s d rest2 hdrop hty hd e he ih =>
    intro hu hns hfuel hpre
    simp only [mainLoop, hdrop, hty, if_neg hd,
      if_neg (show ¬ s + 1 + nsCont rest2 = chunk.length from he)]
    have hs := drop_cons_lt hdrop
    have hlen := drop_cons_len hdrop
    have hnle := nsCont_le rest2
    refine ih hu hns (by show chunk.length - (s + 1 + nsCont rest2) < fuel; omega) ?_
    intro hle
    exfalso
    have hne : ¬ s + 1 + nsCont rest2 = chunk.length := he
    omega

end JsonStreamVisit

namespace JsonStreamVisit

/-! ## Claim theorems about the scanner state -/

/-- C10: Calling the scanner with an empty-string chunk, in any state, returns
an empty token list and leaves the state (pending token, continuation pattern
and skip count) unchanged.  When a token is pending the call takes the
skip-consumption branch (`pendingSkip >= chunk.length` with length 0) and
subtracts zero; otherwise the token-prefix loop finds the chunk exhausted
immediately.  In particular an empty chunk never completes a pending bare
atom. -/
theorem scan_empty_chunk_neutral (s : ScanState) : scanStep s (some []) = (s, []) := by
  match h : s.pending with
  | none => simp [scanStep, scanChunk, h, mainLoop, wsCount]
  | some tok =>
    simp [scanStep, scanChunk, h]
    rw [← h]

/-- Witness: the empty-chunk theorem applied to the initial scanner state. -/
theorem scan_empty_chunk_neutral_witness :
    scanStep initScan (some []) = (initScan, []) :=
  scan_empty_chunk_neutral initScan

/-- C8 counterexample: after scanning the chunk `"\` (an unterminated string
with a hanging escape, which sets the skip count to 1) and then the
end-of-stream sentinel (which emits the pending token but does not reset the
skip count), the scanner state has no pending token while its skip count is 1,
refuting "whenever no token is pending the skip count is zero". -/
theorem scan_skip_counterexample :
    ((scanStep (scanStep initScan (some [34, 92])).1 none).1.pending = none) ∧
    ((scanStep (scanStep initScan (some [34, 92])).1 none).1.pendingSkip ≠ 0) := by
  decide

/-- C8 (amended): after every call at most one pending token exists (the state
holds a single `Option Token`), and whenever no token is pending the skip
count and continuation pattern are unobservable rather than necessarily zero:
any two states that agree on the pending token, and on the skip count and
continuation pattern when a token is pending, produce identical token outputs
on every input (chunk or sentinel) and remain in agreement afterwards. -/
theorem scan_skip_unobservable (s t : ScanState) (h : ObsEq s t) (i : Option Chunk) :
    (scanStep s i).2 = (scanStep t i).2 ∧ ObsEq (scanStep s i).1 (scanStep t i).1 := by
  obtain ⟨hp, hrest⟩ := h
  match hps : s.pending with
  | some tok =>
    have hts : t = s := by
      obtain ⟨h1, h2⟩ := hrest (by rw [hps]; simp)
      cases s
      cases t
      simp_all
    rw [hts]
    exact ⟨rfl, obsEqRfl⟩
  | none =>
    have hpt : t.pending = none := by rw [← hp, hps]
    match i with
    | none =>
      simp only [scanStep, hps, hpt]
      exact ⟨by simp, ⟨by rw [hps, hpt], fun hn => absurd hps hn⟩⟩
    | some c =>
      simp only [scanStep, scanChunk, hps, hpt]
      obtain ⟨ho, hdisj⟩ := mainLoop_state (c.length+1) c 0 s [] t
      refine ⟨ho, ?_⟩
      rcases hdisj with ⟨h1, h2⟩ | heq
      · rw [h1, h2]
        exact ⟨hp, hrest⟩
      · rw [heq]
        exact obsEqRfl

/-- Witness: two states with no pending token and different stale skip counts
are observationally equal, and scanning the chunk `5` from either gives the
same output. -/
theorem scan_skip_unobservable_witness :
    ObsEq ⟨none, 0, .string⟩ ⟨none, 7, .nsAtom⟩ ∧
      ((scanStep ⟨none, 0, .string⟩ (some [53])).2 =
        (scanStep ⟨none, 7, .nsAtom⟩ (some [53])).2 ∧
       ObsEq (scanStep ⟨none, 0, .string⟩ (some [53])).1
         (scanStep ⟨none, 7, .nsAtom⟩ (some [53])).1) :=
  ⟨⟨rfl, fun hn => absurd rfl hn⟩,
    scan_skip_unobservable _ _ ⟨rfl, fun hn => absurd rfl hn⟩ (some [53])⟩

end JsonStreamVisit


namespace JsonStreamVisit

/-- C7: A non-string atom that runs to the end of the current chunk is always
left pending, and is completed only by a delimiter in a later chunk or by the
end-of-stream sentinel.  Part 1 (creation): scanning any chunk whose final
character belongs to the bare-atom class leaves a pending token, even if the
text could already be a complete number.  Parts 2-4 (completion), for a state
holding a pending bare atom: a later chunk containing a delimiter (a character
outside the bare-atom class: whitespace, structural symbol, or double quote)
emits the atom, ended at the first delimiter; a nonempty chunk made entirely
of bare-atom characters emits nothing and leaves the atom pending with its end
re-stamped; the sentinel emits the pending atom. -/
theorem bare_atom_pending (s : ScanState) (tok : Token) (c : Chunk)
    (hp : s.pending = some tok) (hcont : s.pendingCont = .nsAtom)
    (hskip : s.pendingSkip = 0) :
    (∀ (s2 : ScanState) (c2 : Chunk) (u : CU),
        c2[c2.length - 1]? = some u → isNsCU u = true →
        (scanStep s2 (some c2)).1.pending ≠ none) ∧
    (¬(∀ u ∈ c, isNsCU u = true) →
      ∃ more, (scanStep s (some c)).2 = { type := tok.type, endIndex := nsCont c } :: more) ∧
    (c ≠ [] → (∀ u ∈ c, isNsCU u = true) →
      scanStep s (some c) = ({ s with pending := some { tok with endIndex := c.length } }, [])) ∧
    scanStep s none = ({ s with pending := none }, [tok]) := by
  refine ⟨?_, ?_, ?_, ?_⟩
  · -- creation: a trailing bare-atom character always leaves a pending token
    intro s2 c2 u hu hns
    have hc2 : c2 ≠ [] := by
      intro h
      rw [h] at hu
      simp at hu
    have hlen : 0 < c2.length := List.length_pos.mpr hc2
    match hp2 : s2.pending with
    | none =>
      simp only [scanStep, scanChunk, hp2]
      exact mainLoop_last_ns _ _ _ _ _ u hu hns (by omega) (by omega)
    | some t2 =>
      simp only [scanStep, scanChunk, hp2]
      by_cases hsk : s2.pendingSkip ≥ c2.length
      · simp only [if_pos hsk]
        simp [hp2]
      · simp only [if_neg hsk]
        set r := contMatch s2.pendingCont (c2.drop s2.pendingSkip) with hr
        by_cases hdone : s2.pendingSkip + r.1 < c2.length ∨ r.2.2 = true
        · have hcond : (decide (s2.pendingSkip + r.1 < c2.length) || r.2.2) = true := by
            rcases hdone with h | h <;> simp [h]
          rw [if_pos hcond]
          apply mainLoop_last_ns _ _ _ _ _ u hu hns (by omega)
          intro hle
          exfalso
          rcases hdone with h | h
          · omega
          · -- the continuation closed a string whose final quote is the last
            -- character of the chunk, contradicting the bare-atom last char
            match hck : s2.pendingCont with
            | .nsAtom => rw [hck] at hr; simp [hr, contMatch] at h
            | .string =>
              rw [hck] at hr
              simp only [contMatch] at hr
              obtain ⟨h1, h2⟩ := stringCont_closed (c2.drop s2.pendingSkip)
                (by rw [hr] at h; exact h)
              have hre : r.1 = (stringCont (c2.drop s2.pendingSkip)).1 := by rw [hr]
              have hsc := stringCont_le (c2.drop s2.pendingSkip)
              rw [List.length_drop] at hsc
              have hq : c2[s2.pendingSkip + (r.1 - 1)]? = some 34 := by
                rw [← List.getElem?_drop, hre]
                exact h2
              rw [show s2.pendingSkip + (r.1 - 1) = c2.length - 1 by omega, hu] at hq
              obtain rfl : u = 34 := by injection hq
              simp [isNsCU] at hns
        · push_neg at hdone
          obtain ⟨hd1, hd2⟩ := hdone
          have hcond : ¬ ((decide (s2.pendingSkip + r.1 < c2.length) || r.2.2) = true) := by
            simp [hd2]
            omega
          rw [if_neg hcond]
          apply mainLoop_pending
          simp
  · -- a delimiter in the next chunk completes the pending bare atom
    intro hnall
    have hc : c ≠ [] := by
      intro h
      exact hnall (by rw [h]; simp)
    have hlen : 0 < c.length := List.length_pos.mpr hc
    have hlt : nsCont c < c.length := by
      have hle := nsCont_le c
      rcases Nat.lt_or_ge (nsCont c) c.length with h | h
      · exact h
      · exact absurd (nsCont_all c (by omega)) hnall
    simp only [scanStep, scanChunk, hp, hcont, hskip]
    rw [if_neg (by omega)]
    simp only [contMatch, List.drop_zero]
    rw [if_pos (by simp; omega)]
    obtain ⟨extra, hx⟩ := mainLoop_acc_prefix (c.length + 1) c (0 + nsCont c)
      ⟨none, 0, .nsAtom⟩ [{ tok with endIndex := 0 + nsCont c }]
    refine ⟨extra, ?_⟩
    rw [hx]
    simp
  · -- a chunk with no delimiter leaves the atom pending with a re-stamped end
    intro hc hall
    have hlen : 0 < c.length := List.length_pos.mpr hc
    have heq : nsCont c = c.length := nsCont_of_all c hall
    simp only [scanStep, scanChunk, hp, hcont, hskip]
    rw [if_neg (by omega)]
    simp only [contMatch, List.drop_zero]
    rw [if_neg (by simp; omega)]
    rw [mainLoop_end _ _ _ (by simp [heq])]
    have : (0 + nsCont c) = c.length := by omega
    rw [this]
    cases s
    simp at hp hcont hskip
    simp [hp, hcont, hskip]
  · simp [scanStep, hp]

/-- Witness for the bare-atom pending theorem: state pending the atom `1`
after a first chunk, then a chunk `,2` (delimiter at position 0), a chunk `23`
(all atom characters), and the sentinel. -/
theorem bare_atom_pending_witness :
    (∃ more, (scanStep ⟨some ⟨.atom, 1⟩, 0, .nsAtom⟩ (some [44, 50])).2 =
        { type := TokenType.atom, endIndex := 0 } :: more) ∧
    (scanStep ⟨some ⟨.atom, 1⟩, 0, .nsAtom⟩ (some [50, 51]) =
      (⟨some ⟨.atom, 2⟩, 0, .nsAtom⟩, [])) ∧
    (scanStep ⟨some ⟨.atom, 1⟩, 0, .nsAtom⟩ none =
      (⟨none, 0, .nsAtom⟩, [⟨.atom, 1⟩])) := by
  obtain ⟨-, h2, h3, h4⟩ :=
    bare_atom_pending ⟨some ⟨.atom, 1⟩, 0, .nsAtom⟩ ⟨.atom, 1⟩ [44, 50] rfl rfl rfl
  refine ⟨by simpa using h2 (by decide), ?_, by simpa using h4⟩
  obtain ⟨-, -, h3b, -⟩ :=
    bare_atom_pending ⟨some ⟨.atom, 1⟩, 0, .nsAtom⟩ ⟨.atom, 1⟩ [50, 51] rfl rfl rfl
  simpa using h3b (by decide) (by decide)

end JsonStreamVisit

namespace JsonStreamVisit

/-! ## Claim theorems about flush -/

/-- C6 counterexample: with the single chunk `5 ` (digit five, space) the
stream yields one atom token; calling `flush()` twice right after that yield
returns the text `5` both times.  The claim that a second `flush()` before any
further token returns the empty string is false: `flush()` does not clear the
window, the window is only cleared when the next token is yielded while not
buffering. -/
theorem flush_not_cleared_counterexample :
    bufferedRun [[53, 32]] (fun _ => [.flush, .flush]) = [[[53], [53]]] ∧
      ([53] : Chunk) ≠ [] := by
  constructor
  · rfl
  · decide

/-- C6 (amended): `flush()` returns the concatenated retained material from
the start of the buffer window up to and including the most recently yielded
token, and stops buffering, but does not itself clear the window: a second
`flush()` before any further token is yielded returns the same string again.
The window is cleared when the next token is yielded while not buffering: the
post-yield state then has an empty saved-chunk list and a collapsed window, so
its flush contents are empty. -/
theorem flush_window_semantics :
    (∀ m : MState, runCmds m [Cmd.flush, Cmd.flush] =
      ({ m with buffering := false }, [flushStr m, flushStr m])) ∧
    (∀ (m : MState) (tok : Token) (cmds : List Cmd),
      (tokenYield m tok cmds).1.buffering = false →
      flushStr (tokenYield m tok cmds).1 = []) := by
  constructor
  · intro m
    rfl
  · intro m tok cmds hb
    simp only [tokenYield] at hb ⊢
    by_cases h : (runCmds { m with endIndex := tok.endIndex } cmds).1.buffering = true
    · rw [if_pos h] at hb
      exact absurd hb (by simp [h])
    · rw [if_neg h] at hb ⊢
      simp [flushStr, seg]

/-- Witness: the amended flush semantics at a concrete state holding the text
`ab` in its window, and a concrete non-buffering yield. -/
theorem flush_window_semantics_witness :
    runCmds ⟨initScan, true, [[97]], [98, 99], 0, 1⟩ [Cmd.flush, Cmd.flush] =
      (⟨initScan, false, [[97]], [98, 99], 0, 1⟩, [[97, 98], [97, 98]]) ∧
    flushStr (tokenYield ⟨initScan, false, [[97]], [98, 99], 0, 1⟩ ⟨.atom, 2⟩ []).1 = [] := by
  constructor
  · rw [flush_window_semantics.1 ⟨initScan, true, [[97]], [98, 99], 0, 1⟩]
    decide
  · exact flush_window_semantics.2 ⟨initScan, false, [[97]], [98, 99], 0, 1⟩ ⟨.atom, 2⟩ []
      (by decide)

end JsonStreamVisit


namespace JsonStreamVisit

/-! ## The capture window refines the abstract global-position machine -/

/-! seg lemmas -/

theorem seg_refl (l : Chunk) (a : Nat) : seg l a a = [] := by
  simp [seg]

theorem seg_len (l : Chunk) (a b : Nat) (hb : b ≤ l.length) (hab : a ≤ b) :
    (seg l a b).length = b - a := by
  simp [seg]
  omega

theorem seg_append (l : Chunk) (a b c : Nat) (h1 : a ≤ b) (h2 : b ≤ c) :
    seg l a b ++ seg l b c = seg l a c := by
  unfold seg
  rw [show c - a = (b - a) + (c - b) by omega]
  rw [List.take_add]
  congr 1
  rw [List.drop_drop]
  congr 2
  omega

theorem seg_all (l : Chunk) : seg l 0 l.length = l := by
  simp [seg]

theorem seg_drop (l : Chunk) (a b k : Nat) :
    (seg l a b).drop k = seg l (a + k) (b - k + k) := by
  unfold seg
  rw [List.drop_take, List.drop_drop]
  congr 1
  omega

theorem seg_take (l : Chunk) (a b k : Nat) (h : k ≤ b - a) :
    (seg l a b).take k = seg l a (a + k) := by
  unfold seg
  rw [List.take_take]
  congr 1
  omega

theorem seg_getElem (l : Chunk) (a b n : Nat) :
    (seg l a b)[n]? = if n < b - a then l[a + n]? else none := by
  unfold seg
  rw [List.getElem?_take, List.getElem?_drop]

/-- The slice of the current chunk between in-chunk indices is the
corresponding global segment. -/
theorem seg_of_cur {m : MState} {full : Chunk} {base w : Nat}
    (hinv : BufInv m full base w) (i j : Nat) (hj : j ≤ m.currentChunk.length) :
    seg m.currentChunk i j = seg full (base + i) (base + j) := by
  apply List.ext_getElem?
  intro n
  rw [seg_getElem, seg_getElem]
  by_cases hn : n < j - i
  · rw [if_pos hn, if_pos (by omega)]
    conv =>
      lhs
      rw [hinv.cur]
    rw [seg_getElem]
    rw [if_pos (by omega)]
    congr 1
    omega
  · rw [if_neg hn, if_neg (by omega)]

/-- Flush contents under the invariant when the window indices are ordered. -/
theorem flushStr_inv {m : MState} {full : Chunk} {base w : Nat}
    (hinv : BufInv m full base w) (h : m.startIndex ≤ m.endIndex) :
    flushStr m = seg full w (base + m.endIndex) := by
  unfold flushStr
  rw [hinv.chunksEq, seg_of_cur hinv _ _ hinv.endLe]
  exact seg_append full w (base + m.startIndex) (base + m.endIndex) hinv.wLe (by omega)

/-- Flush contents under the invariant when the end index is stale (at most
the start): the slice is empty and the buffered chunks cover the window. -/
theorem flushStr_inv_stale {m : MState} {full : Chunk} {base w : Nat}
    (hinv : BufInv m full base w) (h : m.endIndex ≤ m.startIndex) :
    flushStr m = seg full w (base + m.startIndex) := by
  unfold flushStr
  rw [hinv.chunksEq]
  rw [show seg m.currentChunk m.startIndex m.endIndex = [] from by
    unfold seg
    rw [show m.endIndex - m.startIndex = 0 by omega]
    simp]
  simp

/-- Running commands only toggles the buffering flag. -/
theorem runCmds_state (cmds : List Cmd) : ∀ m : MState,
    (runCmds m cmds).1 = { m with buffering := endBuffering m.buffering cmds } := by
  induction cmds with
  | nil => intro m; rfl
  | cons c cs ih =>
    intro m
    match c with
    | .buffer =>
      show (runCmds { m with buffering := true } cs).1 = _
      rw [ih]
      rfl
    | .flush =>
      show (runCmds { m with buffering := false } cs).1 = _
      rw [ih]
      rfl

/-- Every flush output of a command list is the (unchanging) window text. -/
theorem runCmds_outputs (cmds : List Cmd) : ∀ m : MState,
    ∀ o ∈ (runCmds m cmds).2, o = flushStr m := by
  induction cmds with
  | nil => intro m o ho; simp [runCmds] at ho
  | cons c cs ih =>
    intro m o ho
    match c with
    | .buffer =>
      have : (runCmds m (Cmd.buffer :: cs)).2 = (runCmds { m with buffering := true } cs).2 := rfl
      rw [this] at ho
      have h2 := ih { m with buffering := true } o ho
      exact h2
    | .flush =>
      have : (runCmds m (Cmd.flush :: cs)).2 =
          flushStr m :: (runCmds { m with buffering := false } cs).2 := rfl
      rw [this] at ho
      rcases List.mem_cons.mp ho with rfl | hm
      · rfl
      · have h2 := ih { m with buffering := false } o hm
        exact h2

/-- The number of outputs of a command list does not depend on the state. -/
theorem runCmds_outputs_aligned (full : Chunk) (cmds : List Cmd) :
    ∀ (m : MState) (a : AState),
      a.buffering = m.buffering → seg full a.w a.g = flushStr m →
      (aRunCmds full a cmds).2 = (runCmds m cmds).2 ∧
      (aRunCmds full a cmds).1.buffering = (runCmds m cmds).1.buffering ∧
      (aRunCmds full a cmds).1.w = a.w ∧ (aRunCmds full a cmds).1.g = a.g := by
  induction cmds with
  | nil => intro m a hb hf; exact ⟨rfl, hb, rfl, rfl⟩
  | cons c cs ih =>
    intro m a hb hf
    match c with
    | .buffer =>
      have h1 : aRunCmds full a (Cmd.buffer :: cs) =
          ((aRunCmds full { a with buffering := true } cs).1,
            (aRunCmds full { a with buffering := true } cs).2) := rfl
      have h2 : runCmds m (Cmd.buffer :: cs) =
          ((runCmds { m with buffering := true } cs).1,
            (runCmds { m with buffering := true } cs).2) := rfl
      rw [h1, h2]
      exact ih { m with buffering := true } { a with buffering := true } rfl hf
    | .flush =>
      have h1 : aRunCmds full a (Cmd.flush :: cs) =
          ((aRunCmds full { a with buffering := false } cs).1,
            seg full a.w a.g :: (aRunCmds full { a with buffering := false } cs).2) := rfl
      have h2 : runCmds m (Cmd.flush :: cs) =
          ((runCmds { m with buffering := false } cs).1,
            flushStr m :: (runCmds { m with buffering := false } cs).2) := rfl
      rw [h1, h2, hf]
      obtain ⟨o1, o2, o3, o4⟩ := ih { m with buffering := false } { a with buffering := false } rfl hf
      exact ⟨by rw [o1], o2, o3, o4⟩

theorem inv_endUpdate {m : MState} {full : Chunk} {base w : Nat}
    (hinv : BufInv m full base w) {e : Nat} (he : e ≤ m.currentChunk.length) :
    BufInv { m with endIndex := e } full base w :=
  ⟨hinv.cur, hinv.chunksEq, hinv.wLe, hinv.startLe, he, hinv.baseLe⟩

theorem inv_buffering {m : MState} {full : Chunk} {base w : Nat}
    (hinv : BufInv m full base w) (b : Bool) :
    BufInv { m with buffering := b } full base w :=
  ⟨hinv.cur, hinv.chunksEq, hinv.wLe, hinv.startLe, hinv.endLe, hinv.baseLe⟩

theorem inv_reset {m : MState} {full : Chunk} {base w : Nat}
    (hinv : BufInv m full base w) :
    BufInv { m with startIndex := m.endIndex, bufferedChunks := [] } full base
      (base + m.endIndex) := by
  refine ⟨hinv.cur, ?_, le_refl _, hinv.endLe, hinv.endLe, hinv.baseLe⟩
  show List.flatten [] = seg full (base + m.endIndex) (base + m.endIndex)
  rw [seg_refl]
  rfl

theorem drop_eq_seg (l : Chunk) (i : Nat) : l.drop i = seg l i l.length := by
  unfold seg
  rw [List.take_of_length_le (le_of_eq (List.length_drop _ _))]

theorem inv_push {m : MState} {full : Chunk} {base w : Nat}
    (hinv : BufInv m full base w) :
    BufInv { m with
        bufferedChunks := m.bufferedChunks ++ [m.currentChunk.drop m.startIndex],
        startIndex := m.currentChunk.length,
        endIndex := m.currentChunk.length } full base w := by
  have hs := hinv.startLe
  have hw := hinv.wLe
  refine ⟨hinv.cur, ?_, ?_, le_refl _, le_refl _, hinv.baseLe⟩
  · show (m.bufferedChunks ++ [m.currentChunk.drop m.startIndex]).flatten =
      seg full w (base + m.currentChunk.length)
    rw [List.flatten_append]
    simp only [List.flatten_cons, List.flatten_nil, List.append_nil]
    rw [hinv.chunksEq, drop_eq_seg, seg_of_cur hinv _ _ (le_refl _)]
    exact seg_append full w (base + m.startIndex) (base + m.currentChunk.length)
      hw (by omega)
  · show w ≤ base + m.currentChunk.length
    omega

theorem inv_newChunk {m : MState} {full : Chunk} {base w : Nat}
    (hinv : BufInv m full base w) (hse : m.startIndex = m.currentChunk.length)
    (st2 : ScanState) (c : Chunk)
    (hc : c = seg full (base + m.currentChunk.length)
      (base + m.currentChunk.length + c.length))
    (hb : base + m.currentChunk.length + c.length ≤ full.length) :
    BufInv { m with scan := st2, currentChunk := c, startIndex := 0, endIndex := 0 }
      full (base + m.currentChunk.length) w := by
  have hw := hinv.wLe
  have hs := hinv.startLe
  refine ⟨hc, ?_, ?_, Nat.zero_le _, Nat.zero_le _, ?_⟩
  · show m.bufferedChunks.flatten =
      seg full w (base + m.currentChunk.length + 0)
    rw [hinv.chunksEq, hse]
    simp
  · show w ≤ base + m.currentChunk.length + 0
    omega
  · show base + m.currentChunk.length + c.length ≤ full.length
    exact hb

theorem mainLoop_ends (fuel : Nat) (chunk : Chunk) (p : Nat) (st : ScanState)
    (acc : List Token) :
    p ≤ chunk.length →
    (∀ t ∈ acc, t.endIndex ≤ p) →
    acc.Pairwise (fun x y => x.endIndex ≤ y.endIndex) →
    (mainLoop fuel chunk p st acc).2.Pairwise (fun x y => x.endIndex ≤ y.endIndex) ∧
      ∀ t ∈ (mainLoop fuel chunk p st acc).2, t.endIndex ≤ chunk.length := by
  induction fuel, chunk, p, st, acc using mainLoop.induct with
  | case1 chunk p st acc =>
    intro hp hacc hpw
    exact ⟨hpw, fun t ht => le_trans (hacc t ht) hp⟩
  | case2 chunk p st acc fuel s hdrop =>
    intro hp hacc hpw
    simp only [mainLoop, hdrop]
    exact ⟨hpw, fun t ht => le_trans (hacc t ht) hp⟩
  | case3 chunk p st acc fuel s d rest2 hdrop ty hty ih =>
    intro hp hacc hpw
    simp only [mainLoop, hdrop, hty]
    have hs := drop_cons_lt hdrop
    refine ih (by omega) ?_ ?_
    · intro t ht
      rcases List.mem_append.mp ht with hm | hm
      · have := hacc t hm
        omega
      · simp at hm
        rw [hm]
    · rw [List.pairwise_append]
      refine ⟨hpw, List.pairwise_singleton _ _, ?_⟩
      intro x hx y hy
      simp at hy
      rw [hy]
      have := hacc x hx
      simp
      omega
  | case4 chunk p st acc fuel s rest2 r e hcl hdrop hty ih =>
    intro hp hacc hpw
    simp only [mainLoop, hdrop, hty, reduceIte,
      if_pos (show (stringCont rest2).2.2 = true from hcl)]
    have hs := drop_cons_lt hdrop
    have hlen := drop_cons_len hdrop
    have hsc := stringCont_le rest2
    refine ih (by show s + 1 + (stringCont rest2).1 ≤ chunk.length; omega) ?_ ?_
    · intro t ht
      rcases List.mem_append.mp ht with hm | hm
      · have := hacc t hm
        show t.endIndex ≤ s + 1 + (stringCont rest2).1
        omega
      · simp at hm
        rw [hm]
    · rw [List.pairwise_append]
      refine ⟨hpw, List.pairwise_singleton _ _, ?_⟩
      intro x hx y hy
      simp at hy
      rw [hy]
      have := hacc x hx
      simp
      omega
  | case5 chunk p st acc fuel s rest2 r e hcl hdrop hty ih =>
    intro hp hacc hpw
    simp only [mainLoop, hdrop, hty, reduceIte,
      if_neg (show ¬ (stringCont rest2).2.2 = true from hcl)]
    have hs := drop_cons_lt hdrop
    have hlen := drop_cons_len hdrop
    have hsc := stringCont_le rest2
    refine ih (by show s + 1 + (stringCont rest2).1 ≤ chunk.length; omega) ?_ hpw
    intro t ht
    have := hacc t ht
    show t.endIndex ≤ s + 1 + (stringCont rest2).1
    omega
  | case6 chunk p st acc fuel s d rest2 hdrop hty hd e he ih =>
    intro hp hacc hpw
    simp only [mainLoop, hdrop, hty, if_neg hd,
      if_pos (show s + 1 + nsCont rest2 = chunk.length from he)]
    have hs := drop_cons_lt hdrop
    refine ih (by omega) ?_ hpw
    intro t ht
    have := hacc t ht
    show t.endIndex ≤ s + 1 + nsCont rest2
    omega
  | case7 chunk p st acc fuel s d rest2 hdrop hty hd e he ih =>
    intro hp hacc hpw
    simp only [mainLoop, hdrop, hty, if_neg hd,
      if_neg (show ¬ s + 1 + nsCont rest2 = chunk.length from he)]
    have hs := drop_cons_lt hdrop
    have hlen := drop_cons_len hdrop
    have hnc := nsCont_le rest2
    refine ih (by show s + 1 + nsCont rest2 ≤ chunk.length; omega) ?_ ?_
    · intro t ht
      rcases List.mem_append.mp ht with hm | hm
      · have := hacc t hm
        show t.endIndex ≤ s + 1 + nsCont rest2
        omega
      · simp at hm
        rw [hm]
    · rw [List.pairwise_append]
      refine ⟨hpw, List.pairwise_singleton _ _, ?_⟩
      intro x hx y hy
      simp at hy
      rw [hy]
      have := hacc x hx
      simp
      omega

/-- Tokens returned by a scanner call have non-decreasing end indices, all
bounded by the chunk length. -/
theorem scanChunk_ends (st : ScanState) (c : Chunk) :
    (scanStep st (some c)).2.Pairwise (fun x y => x.endIndex ≤ y.endIndex) ∧
      ∀ t ∈ (scanStep st (some c)).2, t.endIndex ≤ c.length := by
  match hp : st.pending with
  | none =>
    simp only [scanStep, scanChunk, hp]
    exact mainLoop_ends _ _ _ _ _ (Nat.zero_le _) (by simp) (by simp)
  | some tok =>
    simp only [scanStep, scanChunk, hp]
    by_cases hsk : st.pendingSkip ≥ c.length
    · rw [if_pos hsk]
      exact ⟨List.Pairwise.nil, by simp⟩
    · rw [if_neg hsk]
      have hble : (contMatch st.pendingCont (c.drop st.pendingSkip)).1 ≤
          c.length - st.pendingSkip := by
        match st.pendingCont with
        | .string =>
          have := stringCont_le (c.drop st.pendingSkip)
          rw [List.length_drop] at this
          exact this
        | .nsAtom =>
          have := nsCont_le (c.drop st.pendingSkip)
          rw [List.length_drop] at this
          exact this
      by_cases hcond : (decide (st.pendingSkip +
          (contMatch st.pendingCont (c.drop st.pendingSkip)).1 < c.length) ||
          (contMatch st.pendingCont (c.drop st.pendingSkip)).2.2) = true
      · rw [if_pos hcond]
        refine mainLoop_ends _ _ _ _ _ (by omega) ?_ ?_
        · intro t ht
          simp at ht
          rw [ht]
        · simp
      · rw [if_neg hcond]
        refine mainLoop_ends _ _ _ _ _ (by omega) (by simp) (by simp)

theorem tokenYield_abs (full : Chunk) (m : MState) (a : AState) (base w : Nat)
    (tok : Token) (cmds : List Cmd)
    (hinv : BufInv m full base w) (hw : a.w = w) (hab : a.buffering = m.buffering)
    (hbound : tok.endIndex ≤ m.currentChunk.length)
    (hstart : m.startIndex ≤ tok.endIndex) :
    (tokenYield m tok cmds).2 = (aYield full a (base + tok.endIndex) cmds).2 ∧
    ∃ w2, BufInv (tokenYield m tok cmds).1 full base w2 ∧
      (aYield full a (base + tok.endIndex) cmds).1.w = w2 ∧
      (aYield full a (base + tok.endIndex) cmds).1.buffering =
        (tokenYield m tok cmds).1.buffering ∧
      (tokenYield m tok cmds).1.currentChunk = m.currentChunk ∧
      (tokenYield m tok cmds).1.scan = m.scan ∧
      (tokenYield m tok cmds).1.startIndex ≤ tok.endIndex := by
  have hinv1 : BufInv { m with endIndex := tok.endIndex } full base w :=
    inv_endUpdate hinv hbound
  have hflush : seg full ({ a with g := base + tok.endIndex } : AState).w
      ({ a with g := base + tok.endIndex } : AState).g =
      flushStr { m with endIndex := tok.endIndex } := by
    rw [flushStr_inv hinv1 hstart]
    simp [hw]
  obtain ⟨ho, hb2, hw2, hg2⟩ := runCmds_outputs_aligned full cmds
    { m with endIndex := tok.endIndex } { a with g := base + tok.endIndex }
    (by simpa using hab) hflush
  have hrs := runCmds_state cmds { m with endIndex := tok.endIndex }
  simp only [tokenYield, aYield]
  constructor
  · exact ho.symm
  · by_cases hbf : (runCmds { m with endIndex := tok.endIndex } cmds).1.buffering = true
    · rw [if_pos hbf, if_pos (by rw [hb2]; exact hbf)]
      refine ⟨w, ?_, by rw [hw2, hw], by rw [hb2], ?_, ?_, ?_⟩
      · rw [hrs]
        exact inv_buffering hinv1 _
      · rw [hrs]
      · rw [hrs]
      · rw [hrs]
        exact hstart
    · rw [if_neg hbf, if_neg (by rw [hb2]; exact hbf)]
      refine ⟨base + tok.endIndex, ?_, ?_, by simp [hb2], ?_, ?_, ?_⟩
      · rw [hrs]
        have h2 := inv_reset (inv_buffering hinv1 (endBuffering m.buffering cmds))
        simpa using h2
      · simp [hg2]
      · rw [hrs]
      · rw [hrs]
      · rw [hrs]

theorem procToks_abs (full : Chunk) (sched : Nat → List Cmd) (toks : List Token) :
    ∀ (m : MState) (a : AState) (base w k : Nat),
    BufInv m full base w → a.w = w → a.buffering = m.buffering →
    toks.Pairwise (fun x y => x.endIndex ≤ y.endIndex) →
    (∀ t ∈ toks, t.endIndex ≤ m.currentChunk.length) →
    (∀ t ∈ toks, m.startIndex ≤ t.endIndex) →
    (procToks m toks sched k).2.2 =
      (aRun full a (toks.map (fun t => (t.type, base + t.endIndex))) sched k).2 ∧
    (procToks m toks sched k).2.1 = k + toks.length ∧
    ∃ w2, BufInv (procToks m toks sched k).1 full base w2 ∧
      (aRun full a (toks.map (fun t => (t.type, base + t.endIndex))) sched k).1.w = w2 ∧
      (aRun full a (toks.map (fun t => (t.type, base + t.endIndex))) sched k).1.buffering =
        (procToks m toks sched k).1.buffering ∧
      (procToks m toks sched k).1.currentChunk = m.currentChunk ∧
      (procToks m toks sched k).1.scan = m.scan := by
  induction toks with
  | nil =>
    intro m a base w k hinv hw hab _ _ _
    exact ⟨rfl, by simp [procToks], w, hinv, hw, hab, rfl, rfl⟩
  | cons tok rest ih =>
    intro m a base w k hinv hw hab hpw hbound hstart
    obtain ⟨hpwh, hpwt⟩ := List.pairwise_cons.mp hpw
    obtain ⟨ho1, w1, hinv1, hw1, hb1, hcur1, hscan1, hs1⟩ :=
      tokenYield_abs full m a base w tok (sched k) hinv hw hab
        (hbound tok (by simp)) (hstart tok (by simp))
    obtain ⟨ho2, hk2, w2, hinv2, hw2, hb2, hcur2, hscan2⟩ :=
      ih (tokenYield m tok (sched k)).1 (aYield full a (base + tok.endIndex) (sched k)).1
        base w1 (k+1) hinv1 hw1 hb1 hpwt
        (by rw [hcur1]; intro t ht; exact hbound t (by simp [ht]))
        (by intro t ht
            calc (tokenYield m tok (sched k)).1.startIndex ≤ tok.endIndex := hs1
            _ ≤ t.endIndex := hpwh t ht)
    simp only [procToks, aRun, List.map_cons]
    refine ⟨?_, ?_, w2, hinv2, hw2, hb2, hcur2.trans hcur1, hscan2.trans hscan1⟩
    · rw [ho1, ho2]
    · rw [hk2]
      simp
      omega

theorem aRun_append (full : Chunk) (sched : Nat → List Cmd) (l1 : List (TokenType × Nat)) :
    ∀ (a : AState) (l2 : List (TokenType × Nat)) (k : Nat),
    aRun full a (l1 ++ l2) sched k =
      ((aRun full (aRun full a l1 sched k).1 l2 sched (k + l1.length)).1,
        (aRun full a l1 sched k).2 ++
          (aRun full (aRun full a l1 sched k).1 l2 sched (k + l1.length)).2) := by
  induction l1 with
  | nil => intro a l2 k; simp [aRun]
  | cons tg rest ih =>
    intro a l2 k
    simp only [List.cons_append, aRun, List.append_eq, List.length_cons]
    rw [ih]
    rw [show k + (rest.length + 1) = k + 1 + rest.length by omega]

theorem scanStep_none_short (st : ScanState) :
    (scanStep st none).2 = [] ∨ ∃ tok, (scanStep st none).2 = [tok] := by
  match h : st.pending with
  | none => left; simp [scanStep, h]
  | some tok => right; exact ⟨tok, by simp [scanStep, h]⟩

/-- Glue step for the chunk induction of `bRun_abs`: given the invariant after
the token loop of a chunk, the end-of-chunk push preserves it and the runs over
the remaining chunks agree. -/
theorem bRun_abs_glue (full : Chunk) (sched : Nat → List Cmd) (rest : List Chunk)
    (ih : ∀ (m : MState) (a : AState) (base w k : Nat),
      BufInv m full base w → a.w = w → a.buffering = m.buffering →
      m.startIndex = m.currentChunk.length →
      seg full (base + m.currentChunk.length) full.length = rest.flatten →
      (bRun m rest sched k).2.2 =
        (aRun full a (traceAux m.scan (base + m.currentChunk.length) rest) sched k).2)
    (M2 : MState) (A1 : AState) (c : Chunk) (base2 w2 k2 : Nat) (st2 : ScanState)
    (hinv2 : BufInv M2 full base2 w2) (hw2 : A1.w = w2)
    (hb2 : A1.buffering = M2.buffering) (hcur : M2.currentChunk = c)
    (hscan : M2.scan = st2)
    (hrest2 : seg full (base2 + c.length) full.length = rest.flatten) :
    (bRun (if M2.startIndex < c.length then { M2 with bufferedChunks := M2.bufferedChunks ++ [c.drop M2.startIndex], startIndex := c.length, endIndex := c.length } else M2) rest sched k2).2.2 =
      (aRun full A1 (traceAux st2 (base2 + c.length) rest) sched k2).2 := by
  subst hcur
  by_cases hlt : M2.startIndex < M2.currentChunk.length
  · rw [if_pos hlt]
    have hinv3 := inv_push hinv2
    have h2 : (bRun { M2 with bufferedChunks := M2.bufferedChunks ++ [M2.currentChunk.drop M2.startIndex], startIndex := M2.currentChunk.length, endIndex := M2.currentChunk.length } rest sched k2).2.2 =
        (aRun full A1 (traceAux M2.scan (base2 + M2.currentChunk.length) rest) sched k2).2 :=
      ih { M2 with bufferedChunks := M2.bufferedChunks ++ [M2.currentChunk.drop M2.startIndex], startIndex := M2.currentChunk.length, endIndex := M2.currentChunk.length } A1 base2 w2 k2 hinv3 hw2 hb2 rfl hrest2
    conv at h2 =>
      rhs
      rw [hscan]
    exact h2
  · rw [if_neg hlt]
    have hse2 : M2.startIndex = M2.currentChunk.length := by
      have h1 := hinv2.startLe
      omega
    have h2 : (bRun M2 rest sched k2).2.2 =
        (aRun full A1 (traceAux M2.scan (base2 + M2.currentChunk.length) rest) sched k2).2 :=
      ih M2 A1 base2 w2 k2 hinv2 hw2 hb2 hse2 hrest2
    rw [hscan] at h2
    exact h2

theorem bRun_abs (full : Chunk) (sched : Nat → List Cmd) (chunks : List Chunk) :
    ∀ (m : MState) (a : AState) (base w k : Nat),
    BufInv m full base w → a.w = w → a.buffering = m.buffering →
    m.startIndex = m.currentChunk.length →
    seg full (base + m.currentChunk.length) full.length = chunks.flatten →
    (bRun m chunks sched k).2.2 =
      (aRun full a (traceAux m.scan (base + m.currentChunk.length) chunks) sched k).2 := by
  induction chunks with
  | nil =>
    intro m a base w k hinv hw hab hse hrest
    simp only [bRun, traceAux]
    rcases scanStep_none_short m.scan with h0 | ⟨tok, h1⟩
    · rw [h0]
      rfl
    · rw [h1]
      simp only [sentToks, aRun, aYield, List.map_cons, List.map_nil]
      have hflush : seg full ({ a with g := base + m.currentChunk.length } : AState).w
          ({ a with g := base + m.currentChunk.length } : AState).g =
          flushStr { m with scan := (scanStep m.scan none).1 } := by
        show seg full a.w (base + m.currentChunk.length) = flushStr m
        rw [flushStr_inv_stale hinv (by rw [hse]; exact hinv.endLe), hse, hw]
      obtain ⟨ho, hb9, hw9, hg9⟩ := runCmds_outputs_aligned full (sched k)
        { m with scan := (scanStep m.scan none).1 }
        { a with g := base + m.currentChunk.length } (by simpa using hab) hflush
      rw [ho]
  | cons c rest ih =>
    intro m a base w k hinv hw hab hse hrest
    have hfl : (c :: rest).flatten = c ++ rest.flatten := by simp
    rw [hfl] at hrest
    have hlenle : base + m.currentChunk.length + (c.length + rest.flatten.length) ≤
        full.length := by
      have h1 := congrArg List.length hrest
      rw [seg_len full _ _ (le_refl _) (by have := hinv.baseLe; omega)] at h1
      rw [List.length_append] at h1
      have := hinv.baseLe
      omega
    have hcseg : c = seg full (base + m.currentChunk.length)
        (base + m.currentChunk.length + c.length) := by
      have h1 : (seg full (base + m.currentChunk.length) full.length).take c.length =
          (c ++ rest.flatten).take c.length := by rw [hrest]
      rw [List.take_left, seg_take] at h1
      · exact h1.symm
      · have := hinv.baseLe
        omega
    have hrest2 : seg full (base + m.currentChunk.length + c.length) full.length =
        rest.flatten := by
      have h1 : (seg full (base + m.currentChunk.length) full.length).drop c.length =
          (c ++ rest.flatten).drop c.length := by rw [hrest]
      rw [List.drop_left, seg_drop] at h1
      rw [← h1]
      congr 1
      have := hinv.baseLe
      omega
    have hinv1 := inv_newChunk hinv hse (scanStep m.scan (some c)).1 c hcseg (by omega)
    obtain ⟨hpw, hbound⟩ := scanChunk_ends m.scan c
    obtain ⟨ho1, hk1, w2, hinv2, hw2, hb2, hcur2, hscan2⟩ :=
      procToks_abs full sched (scanStep m.scan (some c)).2 { m with scan := (scanStep m.scan (some c)).1, currentChunk := c, startIndex := 0, endIndex := 0 } a (base + m.currentChunk.length) w k hinv1 hw hab hpw (by exact hbound) (by intro t ht; exact Nat.zero_le _)
    have hcur2' : (procToks { m with scan := (scanStep m.scan (some c)).1, currentChunk := c, startIndex := 0, endIndex := 0 } (scanStep m.scan (some c)).2 sched k).1.currentChunk = c := hcur2
    have hscan2' : (procToks { m with scan := (scanStep m.scan (some c)).1, currentChunk := c, startIndex := 0, endIndex := 0 } (scanStep m.scan (some c)).2 sched k).1.scan = (scanStep m.scan (some c)).1 := hscan2
    have hk1' : (procChunk m c sched k).2.1 = k + (scanStep m.scan (some c)).2.length := hk1
    have hL : (bRun m (c :: rest) sched k).2.2 =
        (procChunk m c sched k).2.2 ++
          (bRun (procChunk m c sched k).1 rest sched (procChunk m c sched k).2.1).2.2 := rfl
    have hR : traceAux m.scan (base + m.currentChunk.length) (c :: rest) =
        (scanStep m.scan (some c)).2.map
            (fun t => (t.type, base + m.currentChunk.length + t.endIndex)) ++
          traceAux (scanStep m.scan (some c)).1 (base + m.currentChunk.length + c.length)
            rest := rfl
    have hPc2 : (procChunk m c sched k).2.2 =
        (procToks { m with scan := (scanStep m.scan (some c)).1, currentChunk := c, startIndex := 0, endIndex := 0 } (scanStep m.scan (some c)).2 sched k).2.2 := rfl
    have hm3 : (procChunk m c sched k).1 =
        (if (procToks { m with scan := (scanStep m.scan (some c)).1, currentChunk := c, startIndex := 0, endIndex := 0 } (scanStep m.scan (some c)).2 sched k).1.startIndex < c.length then { (procToks { m with scan := (scanStep m.scan (some c)).1, currentChunk := c, startIndex := 0, endIndex := 0 } (scanStep m.scan (some c)).2 sched k).1 with bufferedChunks := (procToks { m with scan := (scanStep m.scan (some c)).1, currentChunk := c, startIndex := 0, endIndex := 0 } (scanStep m.scan (some c)).2 sched k).1.bufferedChunks ++ [c.drop (procToks { m with scan := (scanStep m.scan (some c)).1, currentChunk := c, startIndex := 0, endIndex := 0 } (scanStep m.scan (some c)).2 sched k).1.startIndex], startIndex := c.length, endIndex := c.length } else (procToks { m with scan := (scanStep m.scan (some c)).1, currentChunk := c, startIndex := 0, endIndex := 0 } (scanStep m.scan (some c)).2 sched k).1) := rfl
    rw [hL, hR, aRun_append, hPc2, ho1]
    congr 1
    rw [hk1', hm3]
    simp only [List.length_map]
    exact bRun_abs_glue full sched rest ih
      (procToks { m with scan := (scanStep m.scan (some c)).1, currentChunk := c, startIndex := 0, endIndex := 0 } (scanStep m.scan (some c)).2 sched k).1
      (aRun full a ((scanStep m.scan (some c)).2.map (fun t => (t.type, base + m.currentChunk.length + t.endIndex))) sched k).1
      c (base + m.currentChunk.length) w2 (k + (scanStep m.scan (some c)).2.length)
      (scanStep m.scan (some c)).1 hinv2 hw2 hb2 hcur2' hscan2' hrest2

theorem drop_cons_fst {α : Type} {l : List α} {k : Nat} {x : α} {rest : List α}
    (h : l.drop k = x :: rest) : l[k]? = some x := by
  have h2 := List.getElem?_drop l k 0
  rw [h] at h2
  simpa using h2.symm

theorem aYield_nilCmds_nb (full : Chunk) (ast : AState) (g : Nat)
    (h : ast.buffering = false) :
    aYield full ast g [] = (⟨false, g, g⟩, []) := by
  simp only [aYield, aRunCmds]
  rw [if_neg (by simp [h])]
  rw [show ({ ast with g := g } : AState).buffering = false from h]

theorem aYield_nilCmds_b (full : Chunk) (ast : AState) (g : Nat)
    (h : ast.buffering = true) :
    aYield full ast g [] = (⟨true, ast.w, g⟩, []) := by
  simp only [aYield, aRunCmds]
  rw [if_pos (by simp [h])]
  rw [show ({ ast with g := g } : AState) = ⟨true, ast.w, g⟩ from by rw [← h]]

theorem aYield_buffer (full : Chunk) (ast : AState) (g : Nat) :
    aYield full ast g [Cmd.buffer] = (⟨true, ast.w, g⟩, []) := by
  simp only [aYield, aRunCmds, aApplyCmd]
  rw [if_pos (by simp)]
  simp

theorem aYield_flush (full : Chunk) (ast : AState) (g : Nat) :
    aYield full ast g [Cmd.flush] = (⟨false, g, g⟩, [seg full ast.w g]) := by
  simp only [aYield, aRunCmds, aApplyCmd]
  rw [if_neg (by simp)]
  simp

theorem bfSpec_shift (X : List Chunk) (k j n b : Nat) :
    (if j < n then some (if k + 1 + j = b then X else []) else none) =
      (if j + 1 < n + 1 then some (if k + (j + 1) = b then X else ([] : List Chunk))
        else none) := by
  by_cases hj : j < n
  · rw [if_pos hj, if_pos (show j + 1 < n + 1 from by omega)]
    by_cases hkb2 : k + 1 + j = b
    · rw [if_pos hkb2, if_pos (show k + (j + 1) = b from by omega)]
    · rw [if_neg hkb2, if_neg (show ¬ k + (j + 1) = b from by omega)]
  · rw [if_neg hj, if_neg (show ¬ j + 1 < n + 1 from by omega)]

theorem aRun_bf (full : Chunk) (TR : List (TokenType × Nat)) (a b : Nat)
    (hab : a < b) :
    ∀ (l : List (TokenType × Nat)) (k : Nat), TR.drop k = l →
    ∀ ast : AState,
    ast.buffering = (decide (a < k) && decide (k ≤ b)) →
    ast.w = (if a < k ∧ k ≤ b then prevEnd TR a else prevEnd TR k) →
    ∀ j, (aRun full ast l (schedBF a b) k).2[j]? =
      if j < l.length then
        some (if k + j = b then [seg full (prevEnd TR a) (gEnd TR b)] else [])
      else none := by
  intro l
  induction l with
  | nil =>
    intro k hk ast hbf hwv j
    simp [aRun]
  | cons tg rest ih =>
    intro k hk ast hbf hwv j
    have htg : TR[k]? = some tg := drop_cons_fst hk
    have hgk : tg.2 = gEnd TR k := by
      unfold gEnd
      rw [htg]
      simp
    have hprev : gEnd TR k = prevEnd TR (k + 1) := rfl
    have hdropk : TR.drop (k+1) = rest := by
      have h1 := congrArg (List.drop 1) hk
      rw [List.drop_drop] at h1
      simp only [List.drop_succ_cons, List.drop_zero] at h1
      exact h1
    simp only [aRun]
    -- compute the yield at position k by phase
    rcases lt_trichotomy k a with hka | hka | hka
    · -- before the buffer call: window advances, nothing emitted
      have hy := aYield_nilCmds_nb full ast tg.2 (by rw [hbf]; simp; omega)
      rw [show schedBF a b k = [] from by unfold schedBF; rw [if_neg (by omega), if_neg (by omega)]] at *
      rw [hy]
      match j with
      | 0 =>
        simp only [List.getElem?_cons_zero, List.length_cons]
        rw [if_pos (by omega), if_neg (by omega)]
      | j + 1 =>
        simp only [List.getElem?_cons_succ, List.length_cons]
        rw [ih (k+1) hdropk ⟨false, tg.2, tg.2⟩ (by simp; omega)
          (by simp only [if_neg (show ¬ (a < k + 1 ∧ k + 1 ≤ b) from by omega)]
              rw [hgk]; exact hprev) j]
        exact bfSpec_shift _ k j rest.length b
    · -- the buffer call: freeze the window start
      have hy := aYield_buffer full ast tg.2
      rw [show schedBF a b k = [Cmd.buffer] from by unfold schedBF; rw [if_pos hka]] at *
      rw [hy]
      match j with
      | 0 =>
        simp only [List.getElem?_cons_zero, List.length_cons]
        rw [if_pos (by omega), if_neg (by omega)]
      | j + 1 =>
        simp only [List.getElem?_cons_succ, List.length_cons]
        rw [ih (k+1) hdropk ⟨true, ast.w, tg.2⟩ (by simp; omega)
          (by simp only [if_pos (show a < k + 1 ∧ k + 1 ≤ b from by omega)]
              rw [show (⟨true, ast.w, tg.2⟩ : AState).w = ast.w from rfl, hwv]
              rw [if_neg (show ¬ (a < k ∧ k ≤ b) from by omega), hka]) j]
        exact bfSpec_shift _ k j rest.length b
    · rcases lt_trichotomy k b with hkb | hkb | hkb
      · -- buffering between the calls
        have hy := aYield_nilCmds_b full ast tg.2 (by rw [hbf]; simp; omega)
        rw [show schedBF a b k = [] from by unfold schedBF; rw [if_neg (by omega), if_neg (by omega)]] at *
        rw [hy]
        match j with
        | 0 =>
          simp only [List.getElem?_cons_zero, List.length_cons]
          rw [if_pos (by omega), if_neg (by omega)]
        | j + 1 =>
          simp only [List.getElem?_cons_succ, List.length_cons]
          rw [ih (k+1) hdropk ⟨true, ast.w, tg.2⟩ (by simp; omega)
            (by simp only [if_pos (show a < k + 1 ∧ k + 1 ≤ b from by omega)]
                rw [show (⟨true, ast.w, tg.2⟩ : AState).w = ast.w from rfl, hwv]
                rw [if_pos (show a < k ∧ k ≤ b from by omega)]) j]
          exact bfSpec_shift _ k j rest.length b
      · -- the flush call: emit the window
        have hy := aYield_flush full ast tg.2
        rw [show schedBF a b k = [Cmd.flush] from by unfold schedBF; rw [if_neg (by omega), if_pos hkb]] at *
        rw [hy]
        match j with
        | 0 =>
          simp only [List.getElem?_cons_zero, List.length_cons]
          rw [if_pos (by omega), if_pos (by omega)]
          rw [hwv, if_pos (by omega), hgk, hkb]
        | j + 1 =>
          simp only [List.getElem?_cons_succ, List.length_cons]
          rw [ih (k+1) hdropk ⟨false, tg.2, tg.2⟩ (by simp; omega)
            (by simp only [if_neg (show ¬ (a < k + 1 ∧ k + 1 ≤ b) from by omega)]
                rw [hgk]; exact hprev) j]
          exact bfSpec_shift _ k j rest.length b
      · -- after the flush
        have hy := aYield_nilCmds_nb full ast tg.2 (by rw [hbf]; simp; omega)
        rw [show schedBF a b k = [] from by unfold schedBF; rw [if_neg (by omega), if_neg (by omega)]] at *
        rw [hy]
        match j with
        | 0 =>
          simp only [List.getElem?_cons_zero, List.length_cons]
          rw [if_pos (by omega), if_neg (by omega)]
        | j + 1 =>
          simp only [List.getElem?_cons_succ, List.length_cons]
          rw [ih (k+1) hdropk ⟨false, tg.2, tg.2⟩ (by simp; omega)
            (by simp only [if_neg (show ¬ (a < k + 1 ∧ k + 1 ≤ b) from by omega)]
                rw [hgk]; exact hprev) j]
          exact bfSpec_shift _ k j rest.length b

/-- C2: Buffer fidelity.  For a run of the buffered token stream over any
chunk list in which `buffer()` is called after yield `a` and `flush()` after a
later yield `b` (with no other commands in between), the string returned by
that `flush()` is exactly the segment of the concatenated input chunks from
the global end position of the token yielded before token `a` (the start of
the stream when `a` is the first token) through the global end position of
token `b`, regardless of how many chunk boundaries the range spans.  Global
end positions are those of `tokenTrace`; a token emitted by the end-of-stream
sentinel ends at the total input length. -/
theorem flush_buffer_fidelity (chunks : List Chunk) (a b : Nat)
    (hab : a < b) (hb : b < (tokenTrace chunks).length) :
    (bufferedRun chunks (schedBF a b))[b]? =
      some [seg chunks.flatten (prevEnd (tokenTrace chunks) a)
        (gEnd (tokenTrace chunks) b)] := by
  have hinvm : BufInv initM chunks.flatten 0 0 :=
    ⟨rfl, rfl, Nat.le_refl _, Nat.le_refl _, Nat.le_refl _, Nat.zero_le _⟩
  have habs := bRun_abs chunks.flatten (schedBF a b) chunks initM ⟨false, 0, 0⟩ 0 0 0
    hinvm rfl rfl rfl (by show seg chunks.flatten 0 chunks.flatten.length = chunks.flatten
                          exact seg_all chunks.flatten)
  unfold bufferedRun
  rw [habs]
  have hbf := aRun_bf chunks.flatten (tokenTrace chunks) a b hab (tokenTrace chunks) 0
    (List.drop_zero _) ⟨false, 0, 0⟩ (by simp)
    (by rw [if_neg (show ¬ (a < 0 ∧ 0 ≤ b) from by omega)]; rfl) b
  rw [if_pos hb, if_pos (by omega)] at hbf
  exact hbf

/-- Witness: buffering from token 1 (the key atom) through token 3 (the value
atom) of `{"foo":` / `"bar"}` returns the text `"foo":"bar"`. -/
theorem flush_buffer_fidelity_witness :
    ((1 : Nat) < 3 ∧
      3 < (tokenTrace [[123, 34, 102, 111, 111, 34, 58], [34, 98, 97, 114, 34, 125]]).length) ∧
    (bufferedRun [[123, 34, 102, 111, 111, 34, 58], [34, 98, 97, 114, 34, 125]]
        (schedBF 1 3))[3]? =
      some [seg ([[123, 34, 102, 111, 111, 34, 58], [34, 98, 97, 114, 34, 125]] : List Chunk).flatten
        (prevEnd (tokenTrace [[123, 34, 102, 111, 111, 34, 58], [34, 98, 97, 114, 34, 125]]) 1)
        (gEnd (tokenTrace [[123, 34, 102, 111, 111, 34, 58], [34, 98, 97, 114, 34, 125]]) 3)] :=
  ⟨⟨by decide, by decide⟩,
    flush_buffer_fidelity [[123, 34, 102, 111, 111, 34, 58], [34, 98, 97, 114, 34, 125]] 1 3
      (by decide) (by decide)⟩


/-- C4: ValueBuffering transition.  When the top frame is `ValueBuffering(cb)`
and a token is dispatched, the driver calls `buffer()` exactly when the depth
counter is 0 (setting the stream's buffering flag); it then adds the token's
depth delta (+1 for begin-object/begin-array, −1 for end-object/end-array, 0
otherwise).  If the depth is then 0 the buffered text is flushed (clearing the
flag), `JSON.parse` of it is passed to the callback, which is awaited, and the
frame is popped — unless the parse fails, in which case the error propagates.
If the depth becomes negative a `SyntaxError` (unbalanced delimiters) is
thrown.  Otherwise the frame stays with the updated depth. -/
theorem valueBuffering_transition (m : MState) (id : Nat) (rest : List VisitState)
    (depth : Int) (t : TokenType) :
    dispatch mOps m (.valueBuffering id :: rest) depth t =
      (if depth + DEPTH_DELTA t = 0 then
        (if jsonAccepts (flushStr m) then
          Except.ok ({ m with buffering := false }, rest, 0,
            [Ev.invoke id (flushStr m), Ev.resolve id])
        else Except.error VErr.parseFail)
      else if depth + DEPTH_DELTA t < 0 then Except.error VErr.unbalancedDelims
      else Except.ok ((if depth = 0 then { m with buffering := true } else m),
        VisitState.valueBuffering id :: rest, depth + DEPTH_DELTA t, [])) := by
  by_cases h0 : depth = 0
  · subst h0
    by_cases hd : DEPTH_DELTA t = 0
    · simp [dispatch, mOps, flushStr, hd]
    · simp [dispatch, mOps, flushStr, hd]
  · by_cases hd : depth + DEPTH_DELTA t = 0
    · simp [dispatch, mOps, flushStr, h0, hd]
    · simp [dispatch, mOps, flushStr, h0, hd]

/-- C9: array elements all start from the identical start state.  The four
conjuncts cover the array life cycle: entering an array replaces the
`ArrayPreBegin` frame by `ArrayPostBegin` holding the start state freshly
derived from the inner schema; dispatching any non-`end-array` token on
`ArrayPostBegin` behaves exactly as dispatching it with that same start state
pushed (as a by-value frame) over an `ArrayPostValue` frame retaining the
template; each comma pushes the very same template start state again; and
`end-array` pops without touching the template.  Since frames are immutable
values, processing one element can never mutate the state another element
starts from. -/
theorem array_element_start_reuse (m : MState) (depth : Int) (start : StartState)
    (inner : Visitor) (rest : List VisitState) (t : TokenType) :
    (dispatch mOps m (.arrayPreBegin inner :: rest) depth .beginArray =
      .ok (m, .arrayPostBegin (stateFromVisitor inner) :: rest, depth, [])) ∧
    (t ≠ .endArray →
      dispatch mOps m (.arrayPostBegin start :: rest) depth t =
        dispatch mOps m (start.asFrame :: .arrayPostValue start :: rest) depth t) ∧
    (dispatch mOps m (.arrayPostValue start :: rest) depth .valueSeparator =
      .ok (m, start.asFrame :: .arrayPostValue start :: rest, depth, [])) ∧
    (dispatch mOps m (.arrayPostBegin start :: rest) depth .endArray =
      .ok (m, rest, depth, [])) := by
  refine ⟨rfl, ?_, rfl, rfl⟩
  intro ht
  cases start <;> simp [dispatch, StartState.asFrame, ht]

/-- Witness for the start-state reuse theorem: dispatching an atom on an
`ArrayPostBegin` frame equals dispatching it with the template pushed. -/
theorem array_element_start_reuse_witness :
    (TokenType.atom ≠ TokenType.endArray) ∧
    dispatch mOps initM (.arrayPostBegin (.valueBuffering 5) :: []) 0 .atom =
      dispatch mOps initM
        ((StartState.valueBuffering 5).asFrame :: .arrayPostValue (.valueBuffering 5) :: [])
        0 .atom :=
  ⟨by decide,
    (array_element_start_reuse initM 0 (.valueBuffering 5) (.fn 0) [] .atom).2.1
      (by decide)⟩


/-- Events of a single successful dispatch: none, or an invocation followed
immediately by its resolution. -/
theorem dispatch_evs {σ : Type} (ops : BufOps σ) (s : σ) (stack : List VisitState)
    (depth : Int) (t : TokenType) :
    ∀ r : σ × List VisitState × Int × List Ev,
    dispatch ops s stack depth t = .ok r →
    r.2.2.2 = [] ∨ ∃ id raw, r.2.2.2 = [Ev.invoke id raw, Ev.resolve id] := by
  intro r
  match stack with
  | [] =>
    intro h
    cases h
    exact Or.inl rfl
  | st0 :: rest0 =>
    unfold dispatch
    cases st0 <;> simp only [objKeyStep] <;> (repeat' split) <;> intro h <;>
      first
        | (cases h; exact Or.inl rfl)
        | (cases h; exact Or.inr ⟨_, _, rfl⟩)
        | cases h

theorem pairedEvs_dispatch_cons (t : TokenType) (l : List Ev)
    (h : pairedEvs l = true) : pairedEvs (Ev.dispatch t :: l) = true := by
  simpa [pairedEvs] using h

theorem pairedEvs_call_cons (t : TokenType) (id : Nat) (raw : Chunk) (l : List Ev)
    (h : pairedEvs l = true) :
    pairedEvs (Ev.dispatch t :: Ev.invoke id raw :: Ev.resolve id :: l) = true := by
  simpa [pairedEvs] using h

theorem vToksM_paired (toks : List Token) :
    ∀ (m : MState) (stack : List VisitState) (depth : Int) (tail : List Ev),
    pairedEvs tail = true →
    pairedEvs ((vToksM m stack depth toks).events ++ tail) = true := by
  induction toks with
  | nil =>
    intro m stack depth tail ht
    simpa [vToksM]
  | cons tok rest ih =>
    intro m stack depth tail ht
    by_cases he : stack.isEmpty = true
    · simp only [vToksM, if_pos he]
      simpa
    · rcases hd : dispatch mOps { m with endIndex := tok.endIndex } stack depth tok.type with e | r
      · simp only [vToksM, if_neg he, hd]
        simpa [pairedEvs] using ht
      · simp only [vToksM, if_neg he, hd]
        rcases dispatch_evs mOps { m with endIndex := tok.endIndex } stack depth tok.type r hd with hz | ⟨id, raw, hz⟩
        · rw [hz]
          simp only [List.nil_append, List.cons_append]
          exact pairedEvs_dispatch_cons _ _ (by simpa using ih _ _ _ tail ht)
        · rw [hz]
          simp only [List.cons_append, List.nil_append]
          exact pairedEvs_call_cons _ _ _ _ (by simpa using ih _ _ _ tail ht)

theorem vSent_paired (ts : List TokenType) :
    ∀ (m : MState) (stack : List VisitState) (depth : Int) (tail : List Ev),
    pairedEvs tail = true →
    pairedEvs ((vSent m stack depth ts).events ++ tail) = true := by
  induction ts with
  | nil =>
    intro m stack depth tail ht
    simpa [vSent]
  | cons t rest ih =>
    intro m stack depth tail ht
    by_cases he : stack.isEmpty = true
    · simp only [vSent, if_pos he]
      simpa
    · rcases hd : dispatch mOps m stack depth t with e | r
      · simp only [vSent, if_neg he, hd]
        simpa [pairedEvs] using ht
      · simp only [vSent, if_neg he, hd]
        rcases dispatch_evs mOps m stack depth t r hd with hz | ⟨id, raw, hz⟩
        · rw [hz]
          simp only [List.nil_append, List.cons_append]
          exact pairedEvs_dispatch_cons _ _ (by simpa using ih _ _ _ tail ht)
        · rw [hz]
          simp only [List.cons_append, List.nil_append]
          exact pairedEvs_call_cons _ _ _ _ (by simpa using ih _ _ _ tail ht)

theorem vChunk_events (m : MState) (stack : List VisitState) (depth : Int) (c : Chunk) :
    (vChunk m stack depth c).events =
      (vToksM { m with scan := (scanStep m.scan (some c)).1, currentChunk := c, startIndex := 0, endIndex := 0 } stack depth (scanStep m.scan (some c)).2).events := by
  by_cases h : ((vToksM { m with scan := (scanStep m.scan (some c)).1, currentChunk := c, startIndex := 0, endIndex := 0 } stack depth (scanStep m.scan (some c)).2).broke = true ∨ (vToksM { m with scan := (scanStep m.scan (some c)).1, currentChunk := c, startIndex := 0, endIndex := 0 } stack depth (scanStep m.scan (some c)).2).err.isSome = true)
  · simp only [vChunk]
    rw [if_pos h]
  · simp only [vChunk]
    rw [if_neg h]

theorem vBody_paired (chunks : List Chunk) :
    ∀ (m : MState) (stack : List VisitState) (depth : Int) (tail : List Ev),
    pairedEvs tail = true →
    pairedEvs ((vBody m stack depth chunks).events ++ tail) = true := by
  induction chunks with
  | nil =>
    intro m stack depth tail ht
    simpa [vBody]
  | cons c rest ih =>
    intro m stack depth tail ht
    rcases hr : vChunk m stack depth c with ⟨s1, stack1, depth1, events1, err1, broke1⟩
    have hev : events1 = (vToksM { m with scan := (scanStep m.scan (some c)).1, currentChunk := c, startIndex := 0, endIndex := 0 } stack depth (scanStep m.scan (some c)).2).events := by
      have h2 := vChunk_events m stack depth c
      rw [hr] at h2
      exact h2
    by_cases hstop : (broke1 = true ∨ err1.isSome = true)
    · simp only [vBody, hr, if_pos hstop]
      rw [hev]
      exact vToksM_paired _ _ _ _ tail ht
    · simp only [vBody, hr, if_neg hstop]
      simp only [List.append_assoc]
      rw [hev]
      exact vToksM_paired _ _ _ _ _ (ih _ _ _ tail ht)

theorem visitRun_paired (chunks : List Chunk) (v : Visitor) :
    pairedEvs (visitRun chunks v).events = true := by
  by_cases h : ((vBody initM [(stateFromVisitor v).asFrame] 0 chunks).broke = true ∨ (vBody initM [(stateFromVisitor v).asFrame] 0 chunks).err.isSome = true)
  · simp only [visitRun]
    rw [if_pos h]
    have h2 := vBody_paired chunks initM [(stateFromVisitor v).asFrame] 0 [] rfl
    simpa using h2
  · simp only [visitRun]
    rw [if_neg h]
    show pairedEvs ((vBody initM [(stateFromVisitor v).asFrame] 0 chunks).events ++ _) = true
    apply vBody_paired
    simpa using vSent_paired _ _ _ _ [] rfl

theorem pairedEvs_extract (l : List Ev) :
    ∀ (i id : Nat) (raw : Chunk), pairedEvs l = true →
    l[i]? = some (Ev.invoke id raw) → l[i+1]? = some (Ev.resolve id) := by
  induction l with
  | nil =>
    intro i id raw hp hi
    simp at hi
  | cons e rest ih =>
    intro i id raw hp hi
    match i with
    | 0 =>
      simp only [List.getElem?_cons_zero] at hi
      obtain rfl : e = Ev.invoke id raw := by
        injection hi
      match rest with
      | [] => simp [pairedEvs] at hp
      | e2 :: rest2 =>
        match e2 with
        | .dispatch t => simp [pairedEvs] at hp
        | .invoke id3 raw3 => simp [pairedEvs] at hp
        | .resolve id2 =>
          simp only [pairedEvs, Bool.and_eq_true, decide_eq_true_eq] at hp
          simp [hp.1]
    | i + 1 =>
      simp only [List.getElem?_cons_succ] at hi ⊢
      refine ih i id raw ?_ hi
      match e with
      | .dispatch t => simpa [pairedEvs] using hp
      | .resolve id3 => simpa [pairedEvs] using hp
      | .invoke id3 raw3 =>
        match rest with
        | [] => simp [pairedEvs] at hp
        | .resolve id4 :: rest2 =>
          simp only [pairedEvs, Bool.and_eq_true] at hp
          exact hp.2
        | .dispatch t :: rest2 => simp [pairedEvs] at hp
        | .invoke id4 raw4 :: rest2 => simp [pairedEvs] at hp

/-- C5: async ordering.  In the event trace of any `visit` run, every callback
invocation is immediately followed by its resolution: no token dispatch and no
other callback invocation occurs between a callback being invoked and its
returned promise resolving (the driver awaits each callback before pulling
the next token).  Since invocations appear in the trace in dispatch order,
callbacks are invoked in document order. -/
theorem callback_await_ordering (chunks : List Chunk) (v : Visitor) (i id : Nat)
    (raw : Chunk)
    (h : (visitRun chunks v).events[i]? = some (Ev.invoke id raw)) :
    (visitRun chunks v).events[i+1]? = some (Ev.resolve id) :=
  pairedEvs_extract (visitRun chunks v).events i id raw (visitRun_paired chunks v) h

/-- Witness: on the single-chunk stream for the text `5` with a function
visitor, the invocation at trace index 1 is immediately followed by its
resolution at index 2. -/
theorem callback_await_ordering_witness :
    (visitRun [[53]] (Visitor.fn 3)).events[1]? = some (Ev.invoke 3 [53]) ∧
    (visitRun [[53]] (Visitor.fn 3)).events[2]? = some (Ev.resolve 3) :=
  ⟨rfl, callback_await_ordering [[53]] (Visitor.fn 3) 1 3 [53] rfl⟩


/-- C3 counterexample: with the empty-object visitor (which skips every key),
feeding the chunk `{"k":"aaaa` leaves the driver skipping the string value
(top frame `ValueSkipping`; no `ValueBuffering` frame exists and the key has
already been consumed), yet the buffered stream retains the five code units
`"aaaa` of the skipped value: the chunk-end push saves the pending-token
suffix of every chunk regardless of the visitor's state, so skipped material
is retained until the skip completes a token while not buffering.  This is
the driver state in the middle of a visit of, e.g., the stream
`{"k":"aaaa` / `aaaa"}`. -/
theorem skipped_material_retained :
    (vBody initM [(stateFromVisitor (Visitor.obj [])).asFrame] 0
        [[123, 34, 107, 34, 58, 34, 97, 97, 97, 97]]).stack =
      [VisitState.valueSkipping, VisitState.objectPostValue []] ∧
    (vBody initM [(stateFromVisitor (Visitor.obj [])).asFrame] 0
        [[123, 34, 107, 34, 58, 34, 97, 97, 97, 97]]).err = none ∧
    (vBody initM [(stateFromVisitor (Visitor.obj [])).asFrame] 0
        [[123, 34, 107, 34, 58, 34, 97, 97, 97, 97]]).broke = false ∧
    flushStr (vBody initM [(stateFromVisitor (Visitor.obj [])).asFrame] 0
        [[123, 34, 107, 34, 58, 34, 97, 97, 97, 97]]).s = [34, 97, 97, 97, 97] :=
  ⟨rfl, rfl, rfl, rfl⟩

/-- A successful dispatch changes the concrete stream state only in the
buffering flag. -/
theorem dispatch_mOps_state (m : MState) (stack : List VisitState) (depth : Int)
    (t : TokenType) :
    ∀ r : MState × List VisitState × Int × List Ev,
    dispatch mOps m stack depth t = .ok r →
    r.1 = { m with buffering := r.1.buffering } := by
  intro r
  match stack with
  | [] =>
    intro h
    cases h
    rfl
  | st0 :: rest0 =>
    unfold dispatch
    cases st0 <;> simp only [objKeyStep, mOps] <;> (repeat' split) <;> intro h <;>
      first
        | (cases h; rfl)
        | cases h

/-- The window invariant is preserved through the token loop of the driver,
whatever the visitor does. -/
theorem vToksM_inv (toks : List Token) :
    ∀ (m : MState) (stack : List VisitState) (depth : Int) (full : Chunk)
      (base w : Nat),
    BufInv m full base w →
    toks.Pairwise (fun x y => x.endIndex ≤ y.endIndex) →
    (∀ t ∈ toks, t.endIndex ≤ m.currentChunk.length) →
    (∀ t ∈ toks, m.startIndex ≤ t.endIndex) →
    m.startIndex ≤ m.endIndex →
    ∃ w2, BufInv (vToksM m stack depth toks).s full base w2 ∧
      (vToksM m stack depth toks).s.currentChunk = m.currentChunk ∧
      (vToksM m stack depth toks).s.scan = m.scan ∧
      (vToksM m stack depth toks).s.startIndex ≤ (vToksM m stack depth toks).s.endIndex := by
  induction toks with
  | nil =>
    intro m stack depth full base w hinv _ _ _ hse
    exact ⟨w, hinv, rfl, rfl, hse⟩
  | cons tok rest ih =>
    intro m stack depth full base w hinv hpw hbound hstart hse
    obtain ⟨hpwh, hpwt⟩ := List.pairwise_cons.mp hpw
    have hb1 : tok.endIndex ≤ m.currentChunk.length := hbound tok (by simp)
    have hs1 : m.startIndex ≤ tok.endIndex := hstart tok (by simp)
    have hinv1 : BufInv { m with endIndex := tok.endIndex } full base w :=
      inv_endUpdate hinv hb1
    by_cases he : stack.isEmpty = true
    · have hv : vToksM m stack depth (tok :: rest) = ⟨m, stack, depth, [], none, true⟩ := by
        simp only [vToksM, if_pos he]
      rw [hv]
      exact ⟨w, hinv, rfl, rfl, hse⟩
    · rcases hd : dispatch mOps { m with endIndex := tok.endIndex } stack depth tok.type with e | r
      · have hv : vToksM m stack depth (tok :: rest) =
            ⟨{ m with endIndex := tok.endIndex }, stack, depth, [Ev.dispatch tok.type], some e, true⟩ := by
          simp only [vToksM, if_neg he, hd]
        rw [hv]
        exact ⟨w, hinv1, rfl, rfl, hs1⟩
      · have hr1 := dispatch_mOps_state { m with endIndex := tok.endIndex } stack depth tok.type r hd
        have hinvr : BufInv r.1 full base w := by
          rw [hr1]
          exact inv_buffering hinv1 _
        by_cases hbf : r.1.buffering = true
        · have hv : (vToksM m stack depth (tok :: rest)).s = (vToksM r.1 r.2.1 r.2.2.1 rest).s := by
            simp only [vToksM, if_neg he, hd, if_pos hbf]
          obtain ⟨w4, hinv4, hcur4, hscan4, hse4⟩ := ih r.1 r.2.1 r.2.2.1 full base w hinvr hpwt
            (fun t ht => by rw [hr1]; exact hbound t (by simp [ht]))
            (fun t ht => by rw [hr1]; exact le_trans hs1 (hpwh t ht))
            (by rw [hr1]; exact hs1)
          rw [hv]
          refine ⟨w4, hinv4, ?_, ?_, hse4⟩
          · rw [hcur4, hr1]
          · rw [hscan4, hr1]
        · have hv : (vToksM m stack depth (tok :: rest)).s =
              (vToksM { r.1 with startIndex := r.1.endIndex, bufferedChunks := [] } r.2.1 r.2.2.1 rest).s := by
            simp only [vToksM, if_neg he, hd, if_neg hbf]
          have hinvR := inv_reset hinvr
          obtain ⟨w4, hinv4, hcur4, hscan4, hse4⟩ :=
            ih { r.1 with startIndex := r.1.endIndex, bufferedChunks := [] } r.2.1 r.2.2.1
              full base (base + r.1.endIndex) hinvR hpwt
              (fun t ht => by
                show t.endIndex ≤ r.1.currentChunk.length
                rw [hr1]
                exact hbound t (by simp [ht]))
              (fun t ht => by
                show r.1.endIndex ≤ t.endIndex
                rw [hr1]
                exact hpwh t ht)
              (le_refl _)
          rw [hv]
          refine ⟨w4, hinv4, ?_, ?_, hse4⟩
          · rw [hcur4]
            show r.1.currentChunk = m.currentChunk
            rw [hr1]
          · rw [hscan4]
            show r.1.scan = m.scan
            rw [hr1]

/-- The end-of-chunk push preserves the invariant and pins the window start
bookkeeping to the chunk length. -/
theorem vChunk_push_inv (full c : Chunk) (base2 w2 : Nat) (M2 : MState)
    (hinv2 : BufInv M2 full base2 w2) (hcur : M2.currentChunk = c) :
    BufInv (if M2.startIndex < c.length then { M2 with bufferedChunks := M2.bufferedChunks ++ [c.drop M2.startIndex], startIndex := c.length, endIndex := c.length } else M2) full base2 w2 ∧
      (if M2.startIndex < c.length then { M2 with bufferedChunks := M2.bufferedChunks ++ [c.drop M2.startIndex], startIndex := c.length, endIndex := c.length } else M2).currentChunk = c ∧
      (if M2.startIndex < c.length then { M2 with bufferedChunks := M2.bufferedChunks ++ [c.drop M2.startIndex], startIndex := c.length, endIndex := c.length } else M2).startIndex = c.length ∧
      (if M2.startIndex < c.length then { M2 with bufferedChunks := M2.bufferedChunks ++ [c.drop M2.startIndex], startIndex := c.length, endIndex := c.length } else M2).scan = M2.scan := by
  subst hcur
  by_cases hlt : M2.startIndex < M2.currentChunk.length
  · rw [if_pos hlt]
    exact ⟨inv_push hinv2, rfl, rfl, rfl⟩
  · rw [if_neg hlt]
    have h1 := hinv2.startLe
    exact ⟨hinv2, rfl, by omega, rfl⟩

/-- The window invariant is carried across a whole chunk of a driver run that
does not stop inside the chunk. -/
theorem vChunk_inv (m : MState) (stack : List VisitState) (depth : Int)
    (c full : Chunk) (base w : Nat)
    (hinv : BufInv m full base w) (hse : m.startIndex = m.currentChunk.length)
    (hcseg : c = seg full (base + m.currentChunk.length)
      (base + m.currentChunk.length + c.length))
    (hlen : base + m.currentChunk.length + c.length ≤ full.length) :
    (vChunk m stack depth c).broke = false →
    (vChunk m stack depth c).err = none →
    ∃ w2, BufInv (vChunk m stack depth c).s full (base + m.currentChunk.length) w2 ∧
      (vChunk m stack depth c).s.currentChunk = c ∧
      (vChunk m stack depth c).s.startIndex = c.length ∧
      (vChunk m stack depth c).s.scan = (scanStep m.scan (some c)).1 := by
  intro hbk herr
  have hinv1 := inv_newChunk hinv hse (scanStep m.scan (some c)).1 c hcseg hlen
  obtain ⟨hpw, hbound⟩ := scanChunk_ends m.scan c
  obtain ⟨w2, hinv2, hcur2, hscan2, hse2⟩ :=
    vToksM_inv (scanStep m.scan (some c)).2
      { m with scan := (scanStep m.scan (some c)).1, currentChunk := c, startIndex := 0, endIndex := 0 }
      stack depth full (base + m.currentChunk.length) w hinv1 hpw
      (by exact hbound) (by intro t ht; exact Nat.zero_le _) (le_refl _)
  by_cases hstop : ((vToksM { m with scan := (scanStep m.scan (some c)).1, currentChunk := c, startIndex := 0, endIndex := 0 } stack depth (scanStep m.scan (some c)).2).broke = true ∨ (vToksM { m with scan := (scanStep m.scan (some c)).1, currentChunk := c, startIndex := 0, endIndex := 0 } stack depth (scanStep m.scan (some c)).2).err.isSome = true)
  · exfalso
    have hv : vChunk m stack depth c =
        vToksM { m with scan := (scanStep m.scan (some c)).1, currentChunk := c, startIndex := 0, endIndex := 0 } stack depth (scanStep m.scan (some c)).2 := by
      simp only [vChunk]
      rw [if_pos hstop]
    rw [hv] at hbk herr
    rcases hstop with h1 | h1
    · rw [hbk] at h1
      exact absurd h1 (by simp)
    · rw [herr] at h1
      simp at h1
  · have hv : (vChunk m stack depth c).s =
        (if (vToksM { m with scan := (scanStep m.scan (some c)).1, currentChunk := c, startIndex := 0, endIndex := 0 } stack depth (scanStep m.scan (some c)).2).s.startIndex < c.length then { (vToksM { m with scan := (scanStep m.scan (some c)).1, currentChunk := c, startIndex := 0, endIndex := 0 } stack depth (scanStep m.scan (some c)).2).s with bufferedChunks := (vToksM { m with scan := (scanStep m.scan (some c)).1, currentChunk := c, startIndex := 0, endIndex := 0 } stack depth (scanStep m.scan (some c)).2).s.bufferedChunks ++ [c.drop (vToksM { m with scan := (scanStep m.scan (some c)).1, currentChunk := c, startIndex := 0, endIndex := 0 } stack depth (scanStep m.scan (some c)).2).s.startIndex], startIndex := c.length, endIndex := c.length } else (vToksM { m with scan := (scanStep m.scan (some c)).1, currentChunk := c, startIndex := 0, endIndex := 0 } stack depth (scanStep m.scan (some c)).2).s) := by
      simp only [vChunk]
      rw [if_neg hstop]
    obtain ⟨hinv3, hcur3, hse3, hscan3⟩ :=
      vChunk_push_inv full c (base + m.currentChunk.length) w2
        (vToksM { m with scan := (scanStep m.scan (some c)).1, currentChunk := c, startIndex := 0, endIndex := 0 } stack depth (scanStep m.scan (some c)).2).s
        hinv2 hcur2
    rw [hv]
    exact ⟨w2, hinv3, hcur3, hse3, hscan3.trans hscan2⟩

/-- The window invariant of a driver run that completes all its chunks:
afterwards the whole consumed input has been scanned and the window
bookkeeping sits at the end of the last chunk. -/
theorem vBody_window (chunks : List Chunk) :
    ∀ (m : MState) (stack : List VisitState) (depth : Int) (full : Chunk)
      (base w : Nat),
    BufInv m full base w → m.startIndex = m.currentChunk.length →
    seg full (base + m.currentChunk.length) full.length = chunks.flatten →
    (vBody m stack depth chunks).broke = false →
    (vBody m stack depth chunks).err = none →
    ∃ base2 w2, BufInv (vBody m stack depth chunks).s full base2 w2 ∧
      (vBody m stack depth chunks).s.startIndex =
        (vBody m stack depth chunks).s.currentChunk.length ∧
      base2 + (vBody m stack depth chunks).s.currentChunk.length = full.length := by
  induction chunks with
  | nil =>
    intro m stack depth full base w hinv hse hrest _ _
    refine ⟨base, w, hinv, hse, ?_⟩
    show base + m.currentChunk.length = full.length
    have h1 := congrArg List.length hrest
    rw [seg_len full _ _ (le_refl _) (by have := hinv.baseLe; omega)] at h1
    simp at h1
    have := hinv.baseLe
    omega
  | cons c rest ih =>
    intro m stack depth full base w hinv hse hrest hbk herr
    have hfl : (c :: rest).flatten = c ++ rest.flatten := by simp
    rw [hfl] at hrest
    have hlenle : base + m.currentChunk.length + (c.length + rest.flatten.length) ≤
        full.length := by
      have h1 := congrArg List.length hrest
      rw [seg_len full _ _ (le_refl _) (by have := hinv.baseLe; omega)] at h1
      rw [List.length_append] at h1
      have := hinv.baseLe
      omega
    have hcseg : c = seg full (base + m.currentChunk.length)
        (base + m.currentChunk.length + c.length) := by
      have h1 : (seg full (base + m.currentChunk.length) full.length).take c.length =
          (c ++ rest.flatten).take c.length := by rw [hrest]
      rw [List.take_left, seg_take] at h1
      · exact h1.symm
      · have := hinv.baseLe
        omega
    have hrest2 : seg full (base + m.currentChunk.length + c.length) full.length =
        rest.flatten := by
      have h1 : (seg full (base + m.currentChunk.length) full.length).drop c.length =
          (c ++ rest.flatten).drop c.length := by rw [hrest]
      rw [List.drop_left, seg_drop] at h1
      rw [← h1]
      congr 1
      have := hinv.baseLe
      omega
    by_cases hstop : ((vChunk m stack depth c).broke = true ∨
        (vChunk m stack depth c).err.isSome = true)
    · exfalso
      have hv : vBody m stack depth (c :: rest) = vChunk m stack depth c := by
        simp only [vBody]
        rw [if_pos hstop]
      rw [hv] at hbk herr
      rcases hstop with h1 | h1
      · rw [hbk] at h1
        exact absurd h1 (by simp)
      · rw [herr] at h1
        simp at h1
    · have hnb : (vChunk m stack depth c).broke = false := by
        rcases hx : (vChunk m stack depth c).broke with _ | _
        · rfl
        · exact absurd (Or.inl hx) hstop
      have hne : (vChunk m stack depth c).err = none := by
        rcases hx : (vChunk m stack depth c).err with _ | e
        · rfl
        · exact absurd (Or.inr (by rw [hx]; rfl)) hstop
      obtain ⟨w2, hinv2, hcur2, hse2, hscan2⟩ :=
        vChunk_inv m stack depth c full base w hinv hse hcseg (by omega) hnb hne
      have hsproj : (vBody m stack depth (c :: rest)).s =
          (vBody (vChunk m stack depth c).s (vChunk m stack depth c).stack
            (vChunk m stack depth c).depth rest).s := by
        simp only [vBody]
        rw [if_neg hstop]
      have hbproj : (vBody m stack depth (c :: rest)).broke =
          (vBody (vChunk m stack depth c).s (vChunk m stack depth c).stack
            (vChunk m stack depth c).depth rest).broke := by
        simp only [vBody]
        rw [if_neg hstop]
      have heproj : (vBody m stack depth (c :: rest)).err =
          (vBody (vChunk m stack depth c).s (vChunk m stack depth c).stack
            (vChunk m stack depth c).depth rest).err := by
        simp only [vBody]
        rw [if_neg hstop]
      rw [hbproj] at hbk
      rw [heproj] at herr
      obtain ⟨base3, w3, hinv3, hse3, hb3⟩ :=
        ih (vChunk m stack depth c).s (vChunk m stack depth c).stack
          (vChunk m stack depth c).depth full (base + m.currentChunk.length) w2
          hinv2 (by rw [hse2, hcur2]) (by rw [hcur2]; exact hrest2) hbk herr
      rw [hsproj]
      exact ⟨base3, w3, hinv3, hse3, hb3⟩

/-- C3 (amended): the buffered stream's retention is governed by the capture
window, not by the visitor's frames.  At every chunk boundary of a visit that
has not stopped, the retained material (saved chunks plus the captured slice
of the current chunk) is exactly a contiguous suffix of the input consumed so
far: it runs from the capture-window start to the end of the last chunk.  In
particular it is not bounded by the subtrees of active `ValueBuffering`
frames: a chunk suffix holding pending-token material is saved at every chunk
boundary regardless of the visitor's state, so material of skipped regions is
retained until the skip next completes a token while the stream is not
buffering. -/
theorem visit_retention_window (chunks : List Chunk) (v : Visitor)
    (hb : (vBody initM [(stateFromVisitor v).asFrame] 0 chunks).broke = false)
    (he : (vBody initM [(stateFromVisitor v).asFrame] 0 chunks).err = none) :
    ∃ w, w ≤ chunks.flatten.length ∧
      flushStr (vBody initM [(stateFromVisitor v).asFrame] 0 chunks).s =
        seg chunks.flatten w chunks.flatten.length := by
  obtain ⟨base2, w2, hinv2, hse2, hb2⟩ :=
    vBody_window chunks initM [(stateFromVisitor v).asFrame] 0 chunks.flatten 0 0
      ⟨rfl, rfl, Nat.le_refl _, Nat.le_refl _, Nat.le_refl _, Nat.zero_le _⟩ rfl
      (by simpa using seg_all chunks.flatten) hb he
  refine ⟨w2, ?_, ?_⟩
  · have h1 := hinv2.wLe
    have h2 := hinv2.startLe
    omega
  · have hst := flushStr_inv_stale hinv2 (by rw [hse2]; exact hinv2.endLe)
    rw [hst, hse2, hb2]

/-- Witness: after the chunk `{"k":"aaaa` with the empty-object visitor the
retained text `"aaaa` is the suffix of the consumed input from window start 5. -/
theorem visit_retention_window_witness :
    ((vBody initM [(stateFromVisitor (Visitor.obj [])).asFrame] 0
        [[123, 34, 107, 34, 58, 34, 97, 97, 97, 97]]).broke = false ∧
     (vBody initM [(stateFromVisitor (Visitor.obj [])).asFrame] 0
        [[123, 34, 107, 34, 58, 34, 97, 97, 97, 97]]).err = none) ∧
    ∃ w, w ≤ ([[123, 34, 107, 34, 58, 34, 97, 97, 97, 97]] : List Chunk).flatten.length ∧
      flushStr (vBody initM [(stateFromVisitor (Visitor.obj [])).asFrame] 0
          [[123, 34, 107, 34, 58, 34, 97, 97, 97, 97]]).s =
        seg ([[123, 34, 107, 34, 58, 34, 97, 97, 97, 97]] : List Chunk).flatten w
          ([[123, 34, 107, 34, 58, 34, 97, 97, 97, 97]] : List Chunk).flatten.length :=
  ⟨⟨rfl, rfl⟩,
    visit_retention_window [[123, 34, 107, 34, 58, 34, 97, 97, 97, 97]]
      (Visitor.obj []) rfl rfl⟩



@[simp] theorem flushStr_setBuffering (m : MState) (b : Bool) :
    flushStr { m with buffering := b } = flushStr m := rfl

/-- A successful abstract dispatch changes the window state only in the
buffering flag. -/
theorem dispatch_aOps_state (full : Chunk) (a : AState) (stack : List VisitState)
    (depth : Int) (t : TokenType) :
    ∀ r : AState × List VisitState × Int × List Ev,
    dispatch (aOps full) a stack depth t = .ok r →
    r.1 = { a with buffering := r.1.buffering } := by
  intro r
  match stack with
  | [] =>
    intro h
    cases h
    rfl
  | st0 :: rest0 =>
    unfold dispatch
    cases st0 <;> simp only [objKeyStep, aOps] <;> (repeat' split) <;> intro h <;>
      first
        | (cases h; rfl)
        | cases h

/-- The `ArrayPostBegin` pre-step: dispatching a non-`end-array` token equals
dispatching it with the element start state pushed over the retained
template. -/
theorem dispatch_postBegin {σ : Type} (ops : BufOps σ) (s : σ) (start : StartState)
    (rest0 : List VisitState) (depth : Int) (t : TokenType) (ht : t ≠ .endArray) :
    dispatch ops s (.arrayPostBegin start :: rest0) depth t =
      dispatch ops s (start.asFrame :: .arrayPostValue start :: rest0) depth t := by
  cases start <;> simp [dispatch, StartState.asFrame, ht]

/-- The object-key step acts the same on concrete and abstract stream states
whose windows agree. -/
theorem objKeyStep_rel (full : Chunk) (m : MState) (a : AState)
    (fields : List (Chunk × Visitor)) (below : List VisitState) (depth : Int)
    (t : TokenType) (hf : flushStr m = seg full a.w a.g)
    (hb : m.buffering = a.buffering) :
    (objKeyStep mOps m fields below depth t).map (fun r => (r.1.buffering, r.2)) =
      (objKeyStep (aOps full) a fields below depth t).map (fun r => (r.1.buffering, r.2)) := by
  by_cases hta : t = .atom
  · rcases hk : jsonKeyParse (seg full a.w a.g) with key | _ | _
    · simp [objKeyStep, hta, mOps, aOps, hf, hk, Except.map]
    · simp [objKeyStep, hta, mOps, aOps, hf, hk, Except.map]
    · simp [objKeyStep, hta, mOps, aOps, hf, hk, Except.map]
  · simp [objKeyStep, hta, Except.map]

/-- The value-buffering frame acts the same on concrete and abstract stream
states whose windows agree. -/
theorem dispatch_rel_vb (full : Chunk) (m : MState) (a : AState) (id : Nat)
    (below : List VisitState) (depth : Int) (t : TokenType)
    (hf : flushStr m = seg full a.w a.g) (hb : m.buffering = a.buffering) :
    (dispatch mOps m (.valueBuffering id :: below) depth t).map (fun r => (r.1.buffering, r.2)) =
      (dispatch (aOps full) a (.valueBuffering id :: below) depth t).map (fun r => (r.1.buffering, r.2)) := by
  by_cases h0 : depth = 0
  · subst h0
    by_cases hd : DEPTH_DELTA t = 0
    · by_cases hacc : jsonAccepts (seg full a.w a.g) = true
      · simp [dispatch, mOps, aOps, hd, hf, hacc, Except.map]
      · simp [dispatch, mOps, aOps, hd, hf, hacc, Except.map]
    · by_cases hneg : DEPTH_DELTA t < 0
      · simp [dispatch, mOps, aOps, hd, hneg, Except.map]
      · simp [dispatch, mOps, aOps, hd, hneg, hb, Except.map]
  · by_cases hd : depth + DEPTH_DELTA t = 0
    · by_cases hacc : jsonAccepts (seg full a.w a.g) = true
      · simp [dispatch, mOps, aOps, h0, hd, hf, hacc, Except.map]
      · simp [dispatch, mOps, aOps, h0, hd, hf, hacc, Except.map]
    · by_cases hneg : depth + DEPTH_DELTA t < 0
      · simp [dispatch, mOps, aOps, h0, hd, hneg, Except.map]
      · simp [dispatch, mOps, aOps, h0, hd, hneg, hb, Except.map]

/-- A dispatch is observationally the same on the concrete stream state and
on an abstract window state with the same buffering flag and the same window
contents: same error or same flag, stack, depth and events. -/
theorem dispatch_rel (full : Chunk) (m : MState) (a : AState)
    (stack : List VisitState) (depth : Int) (t : TokenType)
    (hf : flushStr m = seg full a.w a.g) (hb : m.buffering = a.buffering) :
    (dispatch mOps m stack depth t).map (fun r => (r.1.buffering, r.2)) =
      (dispatch (aOps full) a stack depth t).map (fun r => (r.1.buffering, r.2)) := by
  match stack with
  | [] => simp [dispatch, hb, Except.map]
  | st0 :: rest0 =>
    cases st0 with
    | valueBuffering id => exact dispatch_rel_vb full m a id rest0 depth t hf hb
    | valueSkipping =>
      by_cases hd : depth + DEPTH_DELTA t = 0
      · simp [dispatch, hd, hb, Except.map]
      · by_cases hneg : depth + DEPTH_DELTA t < 0
        · simp [dispatch, hd, hneg, Except.map]
        · simp [dispatch, hd, hneg, hb, Except.map]
    | arrayPreBegin inner =>
      by_cases hta : t = .beginArray
      · simp [dispatch, hta, hb, Except.map]
      · simp [dispatch, hta, Except.map]
    | arrayPostBegin start =>
      by_cases hta : t = .endArray
      · simp [dispatch, hta, hb, Except.map]
      · rw [dispatch_postBegin mOps m start rest0 depth t hta,
          dispatch_postBegin (aOps full) a start rest0 depth t hta]
        cases start with
        | valueBuffering id =>
          exact dispatch_rel_vb full m a id (.arrayPostValue (.valueBuffering id) :: rest0) depth t hf hb
        | valueSkipping =>
          by_cases hd : depth + DEPTH_DELTA t = 0
          · simp [dispatch, StartState.asFrame, hd, hb, Except.map]
          · by_cases hneg : depth + DEPTH_DELTA t < 0
            · simp [dispatch, StartState.asFrame, hd, hneg, Except.map]
            · simp [dispatch, StartState.asFrame, hd, hneg, hb, Except.map]
        | arrayPreBegin inner =>
          by_cases htb : t = .beginArray
          · simp [dispatch, StartState.asFrame, htb, hb, Except.map]
          · simp [dispatch, StartState.asFrame, htb, Except.map]
        | objectPreBegin fields =>
          by_cases htb : t = .beginObject
          · simp [dispatch, StartState.asFrame, htb, hb, Except.map]
          · simp [dispatch, StartState.asFrame, htb, Except.map]
    | arrayPostValue start =>
      by_cases hta : t = .endArray
      · simp [dispatch, hta, hb, Except.map]
      · by_cases htc : t = .valueSeparator
        · simp [dispatch, hta, htc, hb, Except.map]
        · simp [dispatch, hta, htc, Except.map]
    | arrayPreEnd start => simp [dispatch, hb, Except.map]
    | objectPreBegin fields =>
      by_cases hta : t = .beginObject
      · simp [dispatch, hta, hb, Except.map]
      · simp [dispatch, hta, Except.map]
    | objectPostBegin fields =>
      by_cases hta : t = .endObject
      · simp [dispatch, hta, hb, Except.map]
      · have hco : dispatch mOps m (.objectPostBegin fields :: rest0) depth t =
            objKeyStep mOps m fields rest0 depth t := by
          simp [dispatch, hta, Except.map]
        have hao : dispatch (aOps full) a (.objectPostBegin fields :: rest0) depth t =
            objKeyStep (aOps full) a fields rest0 depth t := by
          simp [dispatch, hta, Except.map]
        rw [hco, hao]
        exact objKeyStep_rel full m a fields rest0 depth t hf hb
    | objectPreKey fields =>
      have hco : dispatch mOps m (.objectPreKey fields :: rest0) depth t =
          objKeyStep mOps m fields rest0 depth t := by
        simp [dispatch]
      have hao : dispatch (aOps full) a (.objectPreKey fields :: rest0) depth t =
          objKeyStep (aOps full) a fields rest0 depth t := by
        simp [dispatch]
      rw [hco, hao]
      exact objKeyStep_rel full m a fields rest0 depth t hf hb
    | objectPostValue fields =>
      by_cases hta : t = .endObject
      · simp [dispatch, hta, hb, Except.map]
      · by_cases htc : t = .valueSeparator
        · simp [dispatch, hta, htc, hb, Except.map]
        · simp [dispatch, hta, htc, Except.map]
    | objectPostKey start =>
      by_cases hta : t = .nameSeparator
      · simp [dispatch, hta, hb, Except.map]
      · simp [dispatch, hta, Except.map]


/-- The driver's token loop is in lockstep with the abstract run over the
token trace: same events, stack, depth, error and break behaviour, and the
stream states stay related through the window invariant. -/
theorem vToksM_abs (full : Chunk) (toks : List Token) :
    ∀ (m : MState) (a : AState) (stack : List VisitState) (depth : Int)
      (base w : Nat),
    BufInv m full base w → a.w = w → a.buffering = m.buffering →
    toks.Pairwise (fun x y => x.endIndex ≤ y.endIndex) →
    (∀ t ∈ toks, t.endIndex ≤ m.currentChunk.length) →
    (∀ t ∈ toks, m.startIndex ≤ t.endIndex) →
    ((vToksM m stack depth toks).events =
        (vAbsToks full a stack depth (toks.map (fun t => (t.type, base + t.endIndex)))).events ∧
      (vToksM m stack depth toks).stack =
        (vAbsToks full a stack depth (toks.map (fun t => (t.type, base + t.endIndex)))).stack ∧
      (vToksM m stack depth toks).depth =
        (vAbsToks full a stack depth (toks.map (fun t => (t.type, base + t.endIndex)))).depth ∧
      (vToksM m stack depth toks).err =
        (vAbsToks full a stack depth (toks.map (fun t => (t.type, base + t.endIndex)))).err ∧
      (vToksM m stack depth toks).broke =
        (vAbsToks full a stack depth (toks.map (fun t => (t.type, base + t.endIndex)))).broke) ∧
    ∃ w2, BufInv (vToksM m stack depth toks).s full base w2 ∧
      (vAbsToks full a stack depth (toks.map (fun t => (t.type, base + t.endIndex)))).s.w = w2 ∧
      (vAbsToks full a stack depth (toks.map (fun t => (t.type, base + t.endIndex)))).s.buffering =
        (vToksM m stack depth toks).s.buffering ∧
      (vToksM m stack depth toks).s.currentChunk = m.currentChunk ∧
      (vToksM m stack depth toks).s.scan = m.scan := by
  induction toks with
  | nil =>
    intro m a stack depth base w hinv hw hab _ _ _
    exact ⟨⟨rfl, rfl, rfl, rfl, rfl⟩, w, hinv, hw, hab, rfl, rfl⟩
  | cons tok rest ih =>
    intro m a stack depth base w hinv hw hab hpw hbound hstart
    obtain ⟨hpwh, hpwt⟩ := List.pairwise_cons.mp hpw
    have hb1 : tok.endIndex ≤ m.currentChunk.length := hbound tok (by simp)
    have hs1 : m.startIndex ≤ tok.endIndex := hstart tok (by simp)
    have hinv1 : BufInv { m with endIndex := tok.endIndex } full base w :=
      inv_endUpdate hinv hb1
    simp only [List.map_cons]
    by_cases he : stack.isEmpty = true
    · have hvc : vToksM m stack depth (tok :: rest) = ⟨m, stack, depth, [], none, true⟩ := by
        simp only [vToksM, if_pos he]
      have hva : vAbsToks full a stack depth
          ((tok.type, base + tok.endIndex) :: rest.map (fun t => (t.type, base + t.endIndex))) =
          ⟨a, stack, depth, [], none, true⟩ := by
        simp only [vAbsToks, if_pos he]
      rw [hvc, hva]
      exact ⟨⟨rfl, rfl, rfl, rfl, rfl⟩, w, hinv, hw, hab, rfl, rfl⟩
    · have hf : flushStr { m with endIndex := tok.endIndex } =
          seg full ({ a with g := base + tok.endIndex } : AState).w
            ({ a with g := base + tok.endIndex } : AState).g := by
        show flushStr { m with endIndex := tok.endIndex } = seg full a.w (base + tok.endIndex)
        rw [flushStr_inv hinv1 hs1, hw]
      have hrel := dispatch_rel full { m with endIndex := tok.endIndex }
        { a with g := base + tok.endIndex } stack depth tok.type hf
        (by show m.buffering = a.buffering; exact hab.symm)
      rcases hd : dispatch mOps { m with endIndex := tok.endIndex } stack depth tok.type with e | r
      · rcases ha : dispatch (aOps full) { a with g := base + tok.endIndex } stack depth tok.type with e' | r'
        · rw [hd, ha] at hrel
          simp only [Except.map] at hrel
          injection hrel with hee
          have hvc : vToksM m stack depth (tok :: rest) =
              ⟨{ m with endIndex := tok.endIndex }, stack, depth, [Ev.dispatch tok.type], some e, true⟩ := by
            simp only [vToksM, if_neg he, hd]
          have hva : vAbsToks full a stack depth
              ((tok.type, base + tok.endIndex) :: rest.map (fun t => (t.type, base + t.endIndex))) =
              ⟨{ a with g := base + tok.endIndex }, stack, depth, [Ev.dispatch tok.type], some e', true⟩ := by
            simp only [vAbsToks, if_neg he, ha]
          rw [hvc, hva]
          refine ⟨⟨rfl, rfl, rfl, by rw [hee], rfl⟩, w, hinv1, hw, ?_, rfl, rfl⟩
          show a.buffering = m.buffering
          exact hab
        · rw [hd, ha] at hrel
          simp [Except.map] at hrel
      · rcases ha : dispatch (aOps full) { a with g := base + tok.endIndex } stack depth tok.type with e' | r'
        · rw [hd, ha] at hrel
          simp [Except.map] at hrel
        · rw [hd, ha] at hrel
          simp only [Except.map] at hrel
          injection hrel with hrel2
          obtain ⟨rs, rstack, rdepth, revs⟩ := r
          obtain ⟨ras, rastack, radepth, raevs⟩ := r'
          obtain ⟨hflag, h1, h2, h3⟩ : rs.buffering = ras.buffering ∧ rstack = rastack ∧
              rdepth = radepth ∧ revs = raevs := by simpa using hrel2
          subst h1
          subst h2
          subst h3
          have hrm := dispatch_mOps_state { m with endIndex := tok.endIndex } stack depth
            tok.type (rs, rstack, rdepth, revs) hd
          have hra := dispatch_aOps_state full { a with g := base + tok.endIndex } stack depth
            tok.type (ras, rstack, rdepth, revs) ha
          simp only at hrm hra
          have hinvr : BufInv rs full base w := by
            rw [hrm]
            exact inv_buffering hinv1 _
          by_cases hbf : rs.buffering = true
          · have hbf' : ras.buffering = true := by rw [← hflag]; exact hbf
            have hvc : vToksM m stack depth (tok :: rest) =
                ⟨(vToksM rs rstack rdepth rest).s, (vToksM rs rstack rdepth rest).stack,
                  (vToksM rs rstack rdepth rest).depth,
                  (Ev.dispatch tok.type :: revs) ++ (vToksM rs rstack rdepth rest).events,
                  (vToksM rs rstack rdepth rest).err, (vToksM rs rstack rdepth rest).broke⟩ := by
              simp only [vToksM, if_neg he, hd, if_pos hbf]
            have hva : vAbsToks full a stack depth
                ((tok.type, base + tok.endIndex) :: rest.map (fun t => (t.type, base + t.endIndex))) =
                ⟨(vAbsToks full ras rstack rdepth (rest.map (fun t => (t.type, base + t.endIndex)))).s,
                  (vAbsToks full ras rstack rdepth (rest.map (fun t => (t.type, base + t.endIndex)))).stack,
                  (vAbsToks full ras rstack rdepth (rest.map (fun t => (t.type, base + t.endIndex)))).depth,
                  (Ev.dispatch tok.type :: revs) ++
                    (vAbsToks full ras rstack rdepth (rest.map (fun t => (t.type, base + t.endIndex)))).events,
                  (vAbsToks full ras rstack rdepth (rest.map (fun t => (t.type, base + t.endIndex)))).err,
                  (vAbsToks full ras rstack rdepth (rest.map (fun t => (t.type, base + t.endIndex)))).broke⟩ := by
              simp only [vAbsToks, if_neg he, ha, if_pos hbf']
            obtain ⟨⟨ie, is2, id2, ier, ibr⟩, w4, hinv4, hw4, hab4, hcur4, hscan4⟩ :=
              ih rs ras rstack rdepth base w hinvr
                (by rw [hra]; show a.w = w; exact hw)
                hflag.symm
                hpwt
                (fun t ht => by rw [hrm]; exact hbound t (by simp [ht]))
                (fun t ht => by rw [hrm]; exact le_trans hs1 (hpwh t ht))
            rw [hvc, hva]
            refine ⟨⟨by rw [ie], is2, id2, ier, ibr⟩, w4, hinv4, hw4, hab4, ?_, ?_⟩
            · rw [hcur4, hrm]
            · rw [hscan4, hrm]
          · have hbf' : ¬ ras.buffering = true := by rw [← hflag]; exact hbf
            have hvc : vToksM m stack depth (tok :: rest) =
                ⟨(vToksM { rs with startIndex := rs.endIndex, bufferedChunks := [] } rstack rdepth rest).s,
                  (vToksM { rs with startIndex := rs.endIndex, bufferedChunks := [] } rstack rdepth rest).stack,
                  (vToksM { rs with startIndex := rs.endIndex, bufferedChunks := [] } rstack rdepth rest).depth,
                  (Ev.dispatch tok.type :: revs) ++
                    (vToksM { rs with startIndex := rs.endIndex, bufferedChunks := [] } rstack rdepth rest).events,
                  (vToksM { rs with startIndex := rs.endIndex, bufferedChunks := [] } rstack rdepth rest).err,
                  (vToksM { rs with startIndex := rs.endIndex, bufferedChunks := [] } rstack rdepth rest).broke⟩ := by
              simp only [vToksM, if_neg he, hd, if_neg hbf]
            have hva : vAbsToks full a stack depth
                ((tok.type, base + tok.endIndex) :: rest.map (fun t => (t.type, base + t.endIndex))) =
                ⟨(vAbsToks full { ras with w := ras.g } rstack rdepth (rest.map (fun t => (t.type, base + t.endIndex)))).s,
                  (vAbsToks full { ras with w := ras.g } rstack rdepth (rest.map (fun t => (t.type, base + t.endIndex)))).stack,
                  (vAbsToks full { ras with w := ras.g } rstack rdepth (rest.map (fun t => (t.type, base + t.endIndex)))).depth,
                  (Ev.dispatch tok.type :: revs) ++
                    (vAbsToks full { ras with w := ras.g } rstack rdepth (rest.map (fun t => (t.type, base + t.endIndex)))).events,
                  (vAbsToks full { ras with w := ras.g } rstack rdepth (rest.map (fun t => (t.type, base + t.endIndex)))).err,
                  (vAbsToks full { ras with w := ras.g } rstack rdepth (rest.map (fun t => (t.type, base + t.endIndex)))).broke⟩ := by
              simp only [vAbsToks, if_neg he, ha, if_neg hbf']
            have hinvR : BufInv { rs with startIndex := rs.endIndex, bufferedChunks := [] }
                full base (base + rs.endIndex) := inv_reset hinvr
            obtain ⟨⟨ie, is2, id2, ier, ibr⟩, w4, hinv4, hw4, hab4, hcur4, hscan4⟩ :=
              ih { rs with startIndex := rs.endIndex, bufferedChunks := [] } { ras with w := ras.g }
                rstack rdepth base (base + rs.endIndex) hinvR
                (by
                  show ras.g = base + rs.endIndex
                  rw [hra, hrm])
                hflag.symm
                hpwt
                (fun t ht => by
                  show t.endIndex ≤ rs.currentChunk.length
                  rw [hrm]
                  exact hbound t (by simp [ht]))
                (fun t ht => by
                  show rs.endIndex ≤ t.endIndex
                  rw [hrm]
                  exact hpwh t ht)
            rw [hvc, hva]
            refine ⟨⟨by rw [ie], is2, id2, ier, ibr⟩, w4, hinv4, hw4, hab4, ?_, ?_⟩
            · rw [hcur4]
              show rs.currentChunk = m.currentChunk
              rw [hrm]
            · rw [hscan4]
              show rs.scan = m.scan
              rw [hrm]


/-- One chunk of the driver run is in lockstep with the abstract run over the
chunk's token trace, and when the chunk completes, the window invariant is
re-established at the next chunk boundary. -/
theorem vChunk_abs (m : MState) (a : AState) (stack : List VisitState)
    (depth : Int) (c full : Chunk) (base w : Nat)
    (hinv : BufInv m full base w) (hw : a.w = w) (hab : a.buffering = m.buffering)
    (hse : m.startIndex = m.currentChunk.length)
    (hcseg : c = seg full (base + m.currentChunk.length)
      (base + m.currentChunk.length + c.length))
    (hlen : base + m.currentChunk.length + c.length ≤ full.length) :
    ((vChunk m stack depth c).events =
        (vAbsToks full a stack depth ((scanStep m.scan (some c)).2.map
          (fun t => (t.type, base + m.currentChunk.length + t.endIndex)))).events ∧
      (vChunk m stack depth c).stack =
        (vAbsToks full a stack depth ((scanStep m.scan (some c)).2.map
          (fun t => (t.type, base + m.currentChunk.length + t.endIndex)))).stack ∧
      (vChunk m stack depth c).depth =
        (vAbsToks full a stack depth ((scanStep m.scan (some c)).2.map
          (fun t => (t.type, base + m.currentChunk.length + t.endIndex)))).depth ∧
      (vChunk m stack depth c).err =
        (vAbsToks full a stack depth ((scanStep m.scan (some c)).2.map
          (fun t => (t.type, base + m.currentChunk.length + t.endIndex)))).err ∧
      (vChunk m stack depth c).broke =
        (vAbsToks full a stack depth ((scanStep m.scan (some c)).2.map
          (fun t => (t.type, base + m.currentChunk.length + t.endIndex)))).broke) ∧
    ((vChunk m stack depth c).broke = false → (vChunk m stack depth c).err = none →
      ∃ w2, BufInv (vChunk m stack depth c).s full (base + m.currentChunk.length) w2 ∧
        (vAbsToks full a stack depth ((scanStep m.scan (some c)).2.map
          (fun t => (t.type, base + m.currentChunk.length + t.endIndex)))).s.w = w2 ∧
        (vAbsToks full a stack depth ((scanStep m.scan (some c)).2.map
          (fun t => (t.type, base + m.currentChunk.length + t.endIndex)))).s.buffering =
          (vChunk m stack depth c).s.buffering ∧
        (vChunk m stack depth c).s.currentChunk = c ∧
        (vChunk m stack depth c).s.startIndex = c.length ∧
        (vChunk m stack depth c).s.scan = (scanStep m.scan (some c)).1) := by
  have hinv1 := inv_newChunk hinv hse (scanStep m.scan (some c)).1 c hcseg hlen
  obtain ⟨hpw, hbound⟩ := scanChunk_ends m.scan c
  obtain ⟨⟨ie, is2, id2, ier, ibr⟩, w2, hinv2, hw2, hab2, hcur2, hscan2⟩ :=
    vToksM_abs full (scanStep m.scan (some c)).2
      { m with scan := (scanStep m.scan (some c)).1, currentChunk := c, startIndex := 0, endIndex := 0 }
      a stack depth (base + m.currentChunk.length) w hinv1 hw hab hpw
      (by exact hbound) (by intro t ht; exact Nat.zero_le _)
  by_cases hstop : ((vToksM { m with scan := (scanStep m.scan (some c)).1, currentChunk := c, startIndex := 0, endIndex := 0 } stack depth (scanStep m.scan (some c)).2).broke = true ∨ (vToksM { m with scan := (scanStep m.scan (some c)).1, currentChunk := c, startIndex := 0, endIndex := 0 } stack depth (scanStep m.scan (some c)).2).err.isSome = true)
  · have hv : vChunk m stack depth c =
        vToksM { m with scan := (scanStep m.scan (some c)).1, currentChunk := c, startIndex := 0, endIndex := 0 } stack depth (scanStep m.scan (some c)).2 := by
      simp only [vChunk]
      rw [if_pos hstop]
    rw [hv]
    refine ⟨⟨ie, is2, id2, ier, ibr⟩, ?_⟩
    intro hbk herr
    exfalso
    rcases hstop with h1 | h1
    · rw [hbk] at h1
      exact absurd h1 (by simp)
    · rw [herr] at h1
      simp at h1
  · have hne : (vToksM { m with scan := (scanStep m.scan (some c)).1, currentChunk := c, startIndex := 0, endIndex := 0 } stack depth (scanStep m.scan (some c)).2).err = none := by
      rcases hx : (vToksM { m with scan := (scanStep m.scan (some c)).1, currentChunk := c, startIndex := 0, endIndex := 0 } stack depth (scanStep m.scan (some c)).2).err with _ | e
      · rfl
      · exact absurd (Or.inr (by rw [hx]; rfl)) hstop
    have hnb : (vToksM { m with scan := (scanStep m.scan (some c)).1, currentChunk := c, startIndex := 0, endIndex := 0 } stack depth (scanStep m.scan (some c)).2).broke = false := by
      rcases hx : (vToksM { m with scan := (scanStep m.scan (some c)).1, currentChunk := c, startIndex := 0, endIndex := 0 } stack depth (scanStep m.scan (some c)).2).broke with _ | _
      · rfl
      · exact absurd (Or.inl hx) hstop
    have hvs : (vChunk m stack depth c).s =
        (if (vToksM { m with scan := (scanStep m.scan (some c)).1, currentChunk := c, startIndex := 0, endIndex := 0 } stack depth (scanStep m.scan (some c)).2).s.startIndex < c.length then { (vToksM { m with scan := (scanStep m.scan (some c)).1, currentChunk := c, startIndex := 0, endIndex := 0 } stack depth (scanStep m.scan (some c)).2).s with bufferedChunks := (vToksM { m with scan := (scanStep m.scan (some c)).1, currentChunk := c, startIndex := 0, endIndex := 0 } stack depth (scanStep m.scan (some c)).2).s.bufferedChunks ++ [c.drop (vToksM { m with scan := (scanStep m.scan (some c)).1, currentChunk := c, startIndex := 0, endIndex := 0 } stack depth (scanStep m.scan (some c)).2).s.startIndex], startIndex := c.length, endIndex := c.length } else (vToksM { m with scan := (scanStep m.scan (some c)).1, currentChunk := c, startIndex := 0, endIndex := 0 } stack depth (scanStep m.scan (some c)).2).s) := by
      simp only [vChunk]
      rw [if_neg hstop]
    have hvrest : (vChunk m stack depth c).events =
          (vToksM { m with scan := (scanStep m.scan (some c)).1, currentChunk := c, startIndex := 0, endIndex := 0 } stack depth (scanStep m.scan (some c)).2).events ∧
        (vChunk m stack depth c).stack =
          (vToksM { m with scan := (scanStep m.scan (some c)).1, currentChunk := c, startIndex := 0, endIndex := 0 } stack depth (scanStep m.scan (some c)).2).stack ∧
        (vChunk m stack depth c).depth =
          (vToksM { m with scan := (scanStep m.scan (some c)).1, currentChunk := c, startIndex := 0, endIndex := 0 } stack depth (scanStep m.scan (some c)).2).depth ∧
        (vChunk m stack depth c).err = none ∧
        (vChunk m stack depth c).broke = false := by
      refine ⟨?_, ?_, ?_, ?_, ?_⟩ <;>
        · simp only [vChunk]
          rw [if_neg hstop]
    obtain ⟨hv1, hv2, hv3, hv4, hv5⟩ := hvrest
    obtain ⟨hinv3, hcur3, hse3, hscan3⟩ :=
      vChunk_push_inv full c (base + m.currentChunk.length) w2
        (vToksM { m with scan := (scanStep m.scan (some c)).1, currentChunk := c, startIndex := 0, endIndex := 0 } stack depth (scanStep m.scan (some c)).2).s
        hinv2 hcur2
    refine ⟨⟨hv1.trans ie, hv2.trans is2, hv3.trans id2, hv4.trans (hne ▸ ier),
      hv5.trans (hnb ▸ ibr)⟩, ?_⟩
    intro _ _
    refine ⟨w2, ?_, hw2, ?_, ?_, ?_, ?_⟩
    · rw [hvs]
      exact hinv3
    · rw [hvs]
      rw [hab2]
      by_cases hlt : (vToksM { m with scan := (scanStep m.scan (some c)).1, currentChunk := c, startIndex := 0, endIndex := 0 } stack depth (scanStep m.scan (some c)).2).s.startIndex < c.length
      · rw [if_pos hlt]
      · rw [if_neg hlt]
    · rw [hvs]
      exact hcur3
    · rw [hvs]
      exact hse3
    · rw [hvs]
      exact hscan3.trans hscan2

/-- Splitting an abstract run at a list boundary: a stopped run absorbs the
rest; a completed run composes. -/
theorem vAbsToks_append (full : Chunk) (l1 : List (TokenType × Nat)) :
    ∀ (a : AState) (stack : List VisitState) (depth : Int) (l2 : List (TokenType × Nat)),
    (((vAbsToks full a stack depth l1).broke = true ∨
        (vAbsToks full a stack depth l1).err.isSome = true) →
      vAbsToks full a stack depth (l1 ++ l2) = vAbsToks full a stack depth l1) ∧
    ((vAbsToks full a stack depth l1).broke = false →
      (vAbsToks full a stack depth l1).err = none →
      vAbsToks full a stack depth (l1 ++ l2) =
        ⟨(vAbsToks full (vAbsToks full a stack depth l1).s
            (vAbsToks full a stack depth l1).stack
            (vAbsToks full a stack depth l1).depth l2).s,
          (vAbsToks full (vAbsToks full a stack depth l1).s
            (vAbsToks full a stack depth l1).stack
            (vAbsToks full a stack depth l1).depth l2).stack,
          (vAbsToks full (vAbsToks full a stack depth l1).s
            (vAbsToks full a stack depth l1).stack
            (vAbsToks full a stack depth l1).depth l2).depth,
          (vAbsToks full a stack depth l1).events ++
            (vAbsToks full (vAbsToks full a stack depth l1).s
              (vAbsToks full a stack depth l1).stack
              (vAbsToks full a stack depth l1).depth l2).events,
          (vAbsToks full (vAbsToks full a stack depth l1).s
            (vAbsToks full a stack depth l1).stack
            (vAbsToks full a stack depth l1).depth l2).err,
          (vAbsToks full (vAbsToks full a stack depth l1).s
            (vAbsToks full a stack depth l1).stack
            (vAbsToks full a stack depth l1).depth l2).broke⟩) := by
  induction l1 with
  | nil =>
    intro a stack depth l2
    constructor
    · intro h
      rcases h with h | h <;> simp [vAbsToks] at h
    · intro _ _
      rfl
  | cons tg l1rest ih =>
    intro a stack depth l2
    by_cases he : stack.isEmpty = true
    · constructor
      · intro _
        have h1 : vAbsToks full a stack depth ((tg :: l1rest) ++ l2) =
            ⟨a, stack, depth, [], none, true⟩ := by
          simp only [List.cons_append, vAbsToks, if_pos he]
        have h2 : vAbsToks full a stack depth (tg :: l1rest) =
            ⟨a, stack, depth, [], none, true⟩ := by
          simp only [vAbsToks, if_pos he]
        rw [h1, h2]
      · intro hbk _
        exfalso
        have h2 : vAbsToks full a stack depth (tg :: l1rest) =
            ⟨a, stack, depth, [], none, true⟩ := by
          simp only [vAbsToks, if_pos he]
        rw [h2] at hbk
        exact absurd hbk (by simp)
    · rcases ha : dispatch (aOps full) { a with g := tg.2 } stack depth tg.1 with e | r
      · constructor
        · intro _
          have h1 : vAbsToks full a stack depth ((tg :: l1rest) ++ l2) =
              ⟨{ a with g := tg.2 }, stack, depth, [Ev.dispatch tg.1], some e, true⟩ := by
            simp only [List.cons_append, vAbsToks, if_neg he, ha]
          have h2 : vAbsToks full a stack depth (tg :: l1rest) =
              ⟨{ a with g := tg.2 }, stack, depth, [Ev.dispatch tg.1], some e, true⟩ := by
            simp only [vAbsToks, if_neg he, ha]
          rw [h1, h2]
        · intro _ herr
          exfalso
          have h2 : vAbsToks full a stack depth (tg :: l1rest) =
              ⟨{ a with g := tg.2 }, stack, depth, [Ev.dispatch tg.1], some e, true⟩ := by
            simp only [vAbsToks, if_neg he, ha]
          rw [h2] at herr
          simp at herr
      · have h1 : vAbsToks full a stack depth ((tg :: l1rest) ++ l2) =
            ⟨(vAbsToks full (if r.1.buffering then r.1 else { r.1 with w := r.1.g }) r.2.1 r.2.2.1 (l1rest ++ l2)).s,
              (vAbsToks full (if r.1.buffering then r.1 else { r.1 with w := r.1.g }) r.2.1 r.2.2.1 (l1rest ++ l2)).stack,
              (vAbsToks full (if r.1.buffering then r.1 else { r.1 with w := r.1.g }) r.2.1 r.2.2.1 (l1rest ++ l2)).depth,
              (Ev.dispatch tg.1 :: r.2.2.2) ++
                (vAbsToks full (if r.1.buffering then r.1 else { r.1 with w := r.1.g }) r.2.1 r.2.2.1 (l1rest ++ l2)).events,
              (vAbsToks full (if r.1.buffering then r.1 else { r.1 with w := r.1.g }) r.2.1 r.2.2.1 (l1rest ++ l2)).err,
              (vAbsToks full (if r.1.buffering then r.1 else { r.1 with w := r.1.g }) r.2.1 r.2.2.1 (l1rest ++ l2)).broke⟩ := by
          simp only [List.cons_append, vAbsToks, if_neg he, ha]
          try rfl
        have h2 : vAbsToks full a stack depth (tg :: l1rest) =
            ⟨(vAbsToks full (if r.1.buffering then r.1 else { r.1 with w := r.1.g }) r.2.1 r.2.2.1 l1rest).s,
              (vAbsToks full (if r.1.buffering then r.1 else { r.1 with w := r.1.g }) r.2.1 r.2.2.1 l1rest).stack,
              (vAbsToks full (if r.1.buffering then r.1 else { r.1 with w := r.1.g }) r.2.1 r.2.2.1 l1rest).depth,
              (Ev.dispatch tg.1 :: r.2.2.2) ++
                (vAbsToks full (if r.1.buffering then r.1 else { r.1 with w := r.1.g }) r.2.1 r.2.2.1 l1rest).events,
              (vAbsToks full (if r.1.buffering then r.1 else { r.1 with w := r.1.g }) r.2.1 r.2.2.1 l1rest).err,
              (vAbsToks full (if r.1.buffering then r.1 else { r.1 with w := r.1.g }) r.2.1 r.2.2.1 l1rest).broke⟩ := by
          simp only [vAbsToks, if_neg he, ha]
        obtain ⟨ihstop, ihgo⟩ :=
          ih (if r.1.buffering then r.1 else { r.1 with w := r.1.g }) r.2.1 r.2.2.1 l2
        constructor
        · intro hstop
          rw [h2] at hstop
          have hstop2 : (vAbsToks full (if r.1.buffering then r.1 else { r.1 with w := r.1.g }) r.2.1 r.2.2.1 l1rest).broke = true ∨
              (vAbsToks full (if r.1.buffering then r.1 else { r.1 with w := r.1.g }) r.2.1 r.2.2.1 l1rest).err.isSome = true := by
            simpa using hstop
          rw [h1, h2, ihstop hstop2]
        · intro hbk herr
          rw [h2] at hbk herr
          simp only at hbk herr
          rw [h1, h2, ihgo hbk herr]
          simp only [List.append_assoc, List.cons_append, List.append_eq]

theorem traceAux_split (chunks : List Chunk) :
    ∀ (st : ScanState) (base : Nat),
    traceAux st base chunks =
      bodyTrace st base chunks ++
        (scanStep (scanEnd st chunks) none).2.map
          (fun t => (t.type, base + (chunks.map List.length).sum)) := by
  induction chunks with
  | nil =>
    intro st base
    simp [traceAux, bodyTrace, scanEnd]
  | cons c rest ih =>
    intro st base
    have h1 : traceAux st base (c :: rest) =
        (scanStep st (some c)).2.map (fun t => (t.type, base + t.endIndex)) ++
          traceAux (scanStep st (some c)).1 (base + c.length) rest := rfl
    have h2 : bodyTrace st base (c :: rest) =
        (scanStep st (some c)).2.map (fun t => (t.type, base + t.endIndex)) ++
          bodyTrace (scanStep st (some c)).1 (base + c.length) rest := rfl
    have h3 : scanEnd st (c :: rest) = scanEnd (scanStep st (some c)).1 rest := rfl
    have hsum : ((c :: rest).map List.length).sum = c.length + (rest.map List.length).sum := by
      simp
    have hmap : (scanStep (scanEnd (scanStep st (some c)).1 rest) none).2.map
          (fun t => (t.type, base + c.length + (rest.map List.length).sum)) =
        (scanStep (scanEnd (scanStep st (some c)).1 rest) none).2.map
          (fun t => (t.type, base + (c.length + (rest.map List.length).sum))) := by
      simp [Nat.add_assoc]
    rw [h1, h2, h3, ih, List.append_assoc, hsum, hmap]


/-- The chunk loop of the driver is in lockstep with the abstract run over
the body trace, and a completed run re-establishes the invariant at the end
of the consumed input. -/
theorem vBody_abs (chunks : List Chunk) :
    ∀ (m : MState) (a : AState) (stack : List VisitState) (depth : Int)
      (full : Chunk) (base w : Nat),
    BufInv m full base w → a.w = w → a.buffering = m.buffering →
    m.startIndex = m.currentChunk.length →
    seg full (base + m.currentChunk.length) full.length = chunks.flatten →
    ((vBody m stack depth chunks).events =
        (vAbsToks full a stack depth
          (bodyTrace m.scan (base + m.currentChunk.length) chunks)).events ∧
      (vBody m stack depth chunks).stack =
        (vAbsToks full a stack depth
          (bodyTrace m.scan (base + m.currentChunk.length) chunks)).stack ∧
      (vBody m stack depth chunks).depth =
        (vAbsToks full a stack depth
          (bodyTrace m.scan (base + m.currentChunk.length) chunks)).depth ∧
      (vBody m stack depth chunks).err =
        (vAbsToks full a stack depth
          (bodyTrace m.scan (base + m.currentChunk.length) chunks)).err ∧
      (vBody m stack depth chunks).broke =
        (vAbsToks full a stack depth
          (bodyTrace m.scan (base + m.currentChunk.length) chunks)).broke) ∧
    ((vBody m stack depth chunks).broke = false →
      (vBody m stack depth chunks).err = none →
      ∃ base2 w2, BufInv (vBody m stack depth chunks).s full base2 w2 ∧
        (vAbsToks full a stack depth
          (bodyTrace m.scan (base + m.currentChunk.length) chunks)).s.w = w2 ∧
        (vAbsToks full a stack depth
          (bodyTrace m.scan (base + m.currentChunk.length) chunks)).s.buffering =
          (vBody m stack depth chunks).s.buffering ∧
        (vBody m stack depth chunks).s.startIndex =
          (vBody m stack depth chunks).s.currentChunk.length ∧
        base2 + (vBody m stack depth chunks).s.currentChunk.length = full.length ∧
        (vBody m stack depth chunks).s.scan = scanEnd m.scan chunks) := by
  induction chunks with
  | nil =>
    intro m a stack depth full base w hinv hw hab hse hrest
    refine ⟨⟨rfl, rfl, rfl, rfl, rfl⟩, ?_⟩
    intro _ _
    refine ⟨base, w, hinv, hw, hab, hse, ?_, rfl⟩
    show base + m.currentChunk.length = full.length
    have h1 := congrArg List.length hrest
    rw [seg_len full _ _ (le_refl _) (by have := hinv.baseLe; omega)] at h1
    simp at h1
    have := hinv.baseLe
    omega
  | cons c rest ih =>
    intro m a stack depth full base w hinv hw hab hse hrest
    have hfl : (c :: rest).flatten = c ++ rest.flatten := by simp
    rw [hfl] at hrest
    have hlenle : base + m.currentChunk.length + (c.length + rest.flatten.length) ≤
        full.length := by
      have h1 := congrArg List.length hrest
      rw [seg_len full _ _ (le_refl _) (by have := hinv.baseLe; omega)] at h1
      rw [List.length_append] at h1
      have := hinv.baseLe
      omega
    have hcseg : c = seg full (base + m.currentChunk.length)
        (base + m.currentChunk.length + c.length) := by
      have h1 : (seg full (base + m.currentChunk.length) full.length).take c.length =
          (c ++ rest.flatten).take c.length := by rw [hrest]
      rw [List.take_left, seg_take] at h1
      · exact h1.symm
      · have := hinv.baseLe
        omega
    have hrest2 : seg full (base + m.currentChunk.length + c.length) full.length =
        rest.flatten := by
      have h1 : (seg full (base + m.currentChunk.length) full.length).drop c.length =
          (c ++ rest.flatten).drop c.length := by rw [hrest]
      rw [List.drop_left, seg_drop] at h1
      rw [← h1]
      congr 1
      have := hinv.baseLe
      omega
    obtain ⟨⟨ce, cs, cd, cer, cbr⟩, hstate⟩ :=
      vChunk_abs m a stack depth c full base w hinv hw hab hse hcseg (by omega)
    have hbt : bodyTrace m.scan (base + m.currentChunk.length) (c :: rest) =
        (scanStep m.scan (some c)).2.map
          (fun t => (t.type, base + m.currentChunk.length + t.endIndex)) ++
        bodyTrace (scanStep m.scan (some c)).1
          (base + m.currentChunk.length + c.length) rest := rfl
    obtain ⟨habsStop, habsGo⟩ :=
      vAbsToks_append full
        ((scanStep m.scan (some c)).2.map
          (fun t => (t.type, base + m.currentChunk.length + t.endIndex)))
        a stack depth
        (bodyTrace (scanStep m.scan (some c)).1
          (base + m.currentChunk.length + c.length) rest)
    by_cases hstop : ((vChunk m stack depth c).broke = true ∨
        (vChunk m stack depth c).err.isSome = true)
    · have hv : vBody m stack depth (c :: rest) = vChunk m stack depth c := by
        simp only [vBody]
        rw [if_pos hstop]
      have hastop : (vAbsToks full a stack depth
            ((scanStep m.scan (some c)).2.map
              (fun t => (t.type, base + m.currentChunk.length + t.endIndex)))).broke = true ∨
          (vAbsToks full a stack depth
            ((scanStep m.scan (some c)).2.map
              (fun t => (t.type, base + m.currentChunk.length + t.endIndex)))).err.isSome = true := by
        rcases hstop with h1 | h1
        · exact Or.inl (cbr ▸ h1)
        · exact Or.inr (cer ▸ h1)
      rw [hbt, habsStop hastop, hv]
      refine ⟨⟨ce, cs, cd, cer, cbr⟩, ?_⟩
      intro hbk herr
      exfalso
      rcases hstop with h1 | h1
      · rw [hbk] at h1
        exact absurd h1 (by simp)
      · rw [herr] at h1
        simp at h1
    · have hnb : (vChunk m stack depth c).broke = false := by
        rcases hx : (vChunk m stack depth c).broke with _ | _
        · rfl
        · exact absurd (Or.inl hx) hstop
      have hne : (vChunk m stack depth c).err = none := by
        rcases hx : (vChunk m stack depth c).err with _ | e
        · rfl
        · exact absurd (Or.inr (by rw [hx]; rfl)) hstop
      obtain ⟨w2, hinv2, hw2, hab2, hcur2, hse2, hscan2⟩ := hstate hnb hne
      have hanb : (vAbsToks full a stack depth
          ((scanStep m.scan (some c)).2.map
            (fun t => (t.type, base + m.currentChunk.length + t.endIndex)))).broke = false :=
        cbr ▸ hnb
      have hane : (vAbsToks full a stack depth
          ((scanStep m.scan (some c)).2.map
            (fun t => (t.type, base + m.currentChunk.length + t.endIndex)))).err = none :=
        cer ▸ hne
      have hv : vBody m stack depth (c :: rest) =
          ⟨(vBody (vChunk m stack depth c).s (vChunk m stack depth c).stack
              (vChunk m stack depth c).depth rest).s,
            (vBody (vChunk m stack depth c).s (vChunk m stack depth c).stack
              (vChunk m stack depth c).depth rest).stack,
            (vBody (vChunk m stack depth c).s (vChunk m stack depth c).stack
              (vChunk m stack depth c).depth rest).depth,
            (vChunk m stack depth c).events ++
              (vBody (vChunk m stack depth c).s (vChunk m stack depth c).stack
                (vChunk m stack depth c).depth rest).events,
            (vBody (vChunk m stack depth c).s (vChunk m stack depth c).stack
              (vChunk m stack depth c).depth rest).err,
            (vBody (vChunk m stack depth c).s (vChunk m stack depth c).stack
              (vChunk m stack depth c).depth rest).broke⟩ := by
        simp only [vBody]
        rw [if_neg hstop]
      have htr2 : bodyTrace (vChunk m stack depth c).s.scan
          (base + m.currentChunk.length + (vChunk m stack depth c).s.currentChunk.length)
          rest =
          bodyTrace (scanStep m.scan (some c)).1
            (base + m.currentChunk.length + c.length) rest := by
        rw [hscan2, hcur2]
      obtain ⟨⟨re, rs2, rd2, rer, rbr⟩, rstate⟩ :=
        ih (vChunk m stack depth c).s
          (vAbsToks full a stack depth
            ((scanStep m.scan (some c)).2.map
              (fun t => (t.type, base + m.currentChunk.length + t.endIndex)))).s
          (vChunk m stack depth c).stack (vChunk m stack depth c).depth full
          (base + m.currentChunk.length) w2 hinv2 hw2 hab2
          (by rw [hse2, hcur2])
          (by rw [hcur2]; exact hrest2)
      rw [htr2] at re rs2 rd2 rer rbr rstate
      have hcomp := habsGo hanb hane
      rw [← cs, ← cd] at hcomp
      rw [hbt, hcomp, hv]
      refine ⟨⟨?_, rs2, rd2, rer, rbr⟩, ?_⟩
      · show (vChunk m stack depth c).events ++ _ = _ ++ _
        rw [ce, re]
      · intro hbk herr
        obtain ⟨base3, w3, hinv3, hw3, hab3, hse3, hb3, hscan3⟩ := rstate hbk herr
        refine ⟨base3, w3, hinv3, hw3, hab3, hse3, hb3, ?_⟩
        rw [hscan3]
        show scanEnd (vChunk m stack depth c).s.scan rest =
          scanEnd (scanStep m.scan (some c)).1 rest
        rw [hscan2]


/-- The single possible sentinel yield is in lockstep with the abstract run
over the sentinel trace entry. -/
theorem vSent_abs_step (full : Chunk) (m : MState) (a : AState)
    (stack : List VisitState) (depth : Int) (tt : TokenType)
    (hf : flushStr m = seg full a.w full.length)
    (hb : m.buffering = a.buffering) :
    (vSent m stack depth [tt]).events =
        (vAbsToks full a stack depth [(tt, full.length)]).events ∧
      (vSent m stack depth [tt]).err =
        (vAbsToks full a stack depth [(tt, full.length)]).err ∧
      (vSent m stack depth [tt]).broke =
        (vAbsToks full a stack depth [(tt, full.length)]).broke := by
  by_cases he : stack.isEmpty = true
  · have h1 : vSent m stack depth [tt] = ⟨m, stack, depth, [], none, true⟩ := by
      simp only [vSent, if_pos he]
    have h2 : vAbsToks full a stack depth [(tt, full.length)] =
        ⟨a, stack, depth, [], none, true⟩ := by
      simp only [vAbsToks, if_pos he]
    rw [h1, h2]
    exact ⟨rfl, rfl, rfl⟩
  · have hf1 : flushStr m = seg full ({ a with g := full.length } : AState).w
        ({ a with g := full.length } : AState).g := hf
    have hrel := dispatch_rel full m { a with g := full.length } stack depth tt hf1
      (by show m.buffering = a.buffering; exact hb)
    rcases hd : dispatch mOps m stack depth tt with e | r
    · rcases ha : dispatch (aOps full) { a with g := full.length } stack depth tt with e' | r'
      · rw [hd, ha] at hrel
        simp only [Except.map] at hrel
        injection hrel with hee
        have h1 : vSent m stack depth [tt] =
            ⟨m, stack, depth, [Ev.dispatch tt], some e, true⟩ := by
          simp only [vSent, if_neg he, hd]
        have h2 : vAbsToks full a stack depth [(tt, full.length)] =
            ⟨{ a with g := full.length }, stack, depth, [Ev.dispatch tt], some e', true⟩ := by
          simp only [vAbsToks, if_neg he, ha]
        rw [h1, h2]
        exact ⟨rfl, by rw [hee], rfl⟩
      · rw [hd, ha] at hrel
        simp [Except.map] at hrel
    · rcases ha : dispatch (aOps full) { a with g := full.length } stack depth tt with e' | r'
      · rw [hd, ha] at hrel
        simp [Except.map] at hrel
      · rw [hd, ha] at hrel
        simp only [Except.map] at hrel
        injection hrel with hrel2
        obtain ⟨rs, rstack, rdepth, revs⟩ := r
        obtain ⟨ras, rastack, radepth, raevs⟩ := r'
        obtain ⟨hflag, h1e, h2e, h3e⟩ : rs.buffering = ras.buffering ∧ rstack = rastack ∧
            rdepth = radepth ∧ revs = raevs := by simpa using hrel2
        subst h1e
        subst h2e
        subst h3e
        have h1 : vSent m stack depth [tt] =
            ⟨rs, rstack, rdepth, (Ev.dispatch tt :: revs) ++ [], none, false⟩ := by
          simp only [vSent, if_neg he, hd]
        have h2 : vAbsToks full a stack depth [(tt, full.length)] =
            ⟨(if ras.buffering then ras else { ras with w := ras.g }), rstack, rdepth,
              (Ev.dispatch tt :: revs) ++ [], none, false⟩ := by
          simp only [vAbsToks, if_neg he, ha]
        rw [h1, h2]
        exact ⟨rfl, rfl, rfl⟩

/-- A whole `visit` run depends on the input only through its token trace:
the concrete run and the abstract run over the trace produce the same events,
error and break behaviour. -/
theorem visitRun_abs (chunks : List Chunk) (v : Visitor) :
    (visitRun chunks v).events =
      (visitAbs chunks.flatten (tokenTrace chunks) v).events ∧
    (visitRun chunks v).err =
      (visitAbs chunks.flatten (tokenTrace chunks) v).err ∧
    (visitRun chunks v).broke =
      (visitAbs chunks.flatten (tokenTrace chunks) v).broke := by
  have hinit : BufInv initM chunks.flatten 0 0 :=
    ⟨rfl, rfl, Nat.le_refl _, Nat.le_refl _, Nat.le_refl _, Nat.zero_le _⟩
  obtain ⟨⟨be, bs, bd, ber, bbr⟩, bstate⟩ :=
    vBody_abs chunks initM ⟨false, 0, 0⟩ [(stateFromVisitor v).asFrame] 0
      chunks.flatten 0 0 hinit rfl rfl rfl
      (by simpa [initM] using seg_all chunks.flatten)
  have hTB : bodyTrace initM.scan (0 + initM.currentChunk.length) chunks =
      bodyTrace initScan 0 chunks := rfl
  rw [hTB] at be bs bd ber bbr bstate
  have htr : tokenTrace chunks =
      bodyTrace initScan 0 chunks ++
        (scanStep (scanEnd initScan chunks) none).2.map
          (fun t => (t.type, chunks.flatten.length)) := by
    have hlen : (0 : Nat) + (chunks.map List.length).sum = chunks.flatten.length := by
      rw [List.length_flatten]
      omega
    show traceAux initScan 0 chunks = _
    rw [traceAux_split, hlen]
  obtain ⟨habsStop, habsGo⟩ :=
    vAbsToks_append chunks.flatten (bodyTrace initScan 0 chunks) ⟨false, 0, 0⟩
      [(stateFromVisitor v).asFrame] 0
      ((scanStep (scanEnd initScan chunks) none).2.map
        (fun t => (t.type, chunks.flatten.length)))
  have hua : visitAbs chunks.flatten (tokenTrace chunks) v =
      vAbsToks chunks.flatten ⟨false, 0, 0⟩ [(stateFromVisitor v).asFrame] 0
        (bodyTrace initScan 0 chunks ++
          (scanStep (scanEnd initScan chunks) none).2.map
            (fun t => (t.type, chunks.flatten.length))) := by
    show vAbsToks chunks.flatten ⟨false, 0, 0⟩ [(stateFromVisitor v).asFrame] 0
        (tokenTrace chunks) = _
    rw [htr]
  by_cases hstop : ((vBody initM [(stateFromVisitor v).asFrame] 0 chunks).broke = true ∨
      (vBody initM [(stateFromVisitor v).asFrame] 0 chunks).err.isSome = true)
  · have hv : visitRun chunks v = vBody initM [(stateFromVisitor v).asFrame] 0 chunks := by
      simp only [visitRun]
      rw [if_pos hstop]
    have hastop : (vAbsToks chunks.flatten ⟨false, 0, 0⟩ [(stateFromVisitor v).asFrame] 0
          (bodyTrace initScan 0 chunks)).broke = true ∨
        (vAbsToks chunks.flatten ⟨false, 0, 0⟩ [(stateFromVisitor v).asFrame] 0
          (bodyTrace initScan 0 chunks)).err.isSome = true := by
      rcases hstop with h1 | h1
      · exact Or.inl (bbr ▸ h1)
      · exact Or.inr (ber ▸ h1)
    rw [hv, hua, habsStop hastop]
    exact ⟨be, ber, bbr⟩
  · have hnb : (vBody initM [(stateFromVisitor v).asFrame] 0 chunks).broke = false := by
      rcases hx : (vBody initM [(stateFromVisitor v).asFrame] 0 chunks).broke with _ | _
      · rfl
      · exact absurd (Or.inl hx) hstop
    have hne : (vBody initM [(stateFromVisitor v).asFrame] 0 chunks).err = none := by
      rcases hx : (vBody initM [(stateFromVisitor v).asFrame] 0 chunks).err with _ | e
      · rfl
      · exact absurd (Or.inr (by rw [hx]; rfl)) hstop
    obtain ⟨base2, w2, hinv2, hw2, hab2, hse2, hb2, hscanE⟩ := bstate hnb hne
    have hscanE2 : (vBody initM [(stateFromVisitor v).asFrame] 0 chunks).s.scan =
        scanEnd initScan chunks := hscanE
    have hanb : (vAbsToks chunks.flatten ⟨false, 0, 0⟩ [(stateFromVisitor v).asFrame] 0
        (bodyTrace initScan 0 chunks)).broke = false := bbr ▸ hnb
    have hane : (vAbsToks chunks.flatten ⟨false, 0, 0⟩ [(stateFromVisitor v).asFrame] 0
        (bodyTrace initScan 0 chunks)).err = none := ber ▸ hne
    have hcomp := habsGo hanb hane
    have hv : visitRun chunks v =
        ⟨(vSent { (vBody initM [(stateFromVisitor v).asFrame] 0 chunks).s with
              scan := (scanStep (vBody initM [(stateFromVisitor v).asFrame] 0 chunks).s.scan none).1 }
            (vBody initM [(stateFromVisitor v).asFrame] 0 chunks).stack
            (vBody initM [(stateFromVisitor v).asFrame] 0 chunks).depth
            ((scanStep (vBody initM [(stateFromVisitor v).asFrame] 0 chunks).s.scan none).2.map Token.type)).s,
          (vSent { (vBody initM [(stateFromVisitor v).asFrame] 0 chunks).s with
              scan := (scanStep (vBody initM [(stateFromVisitor v).asFrame] 0 chunks).s.scan none).1 }
            (vBody initM [(stateFromVisitor v).asFrame] 0 chunks).stack
            (vBody initM [(stateFromVisitor v).asFrame] 0 chunks).depth
            ((scanStep (vBody initM [(stateFromVisitor v).asFrame] 0 chunks).s.scan none).2.map Token.type)).stack,
          (vSent { (vBody initM [(stateFromVisitor v).asFrame] 0 chunks).s with
              scan := (scanStep (vBody initM [(stateFromVisitor v).asFrame] 0 chunks).s.scan none).1 }
            (vBody initM [(stateFromVisitor v).asFrame] 0 chunks).stack
            (vBody initM [(stateFromVisitor v).asFrame] 0 chunks).depth
            ((scanStep (vBody initM [(stateFromVisitor v).asFrame] 0 chunks).s.scan none).2.map Token.type)).depth,
          (vBody initM [(stateFromVisitor v).asFrame] 0 chunks).events ++
            (vSent { (vBody initM [(stateFromVisitor v).asFrame] 0 chunks).s with
                scan := (scanStep (vBody initM [(stateFromVisitor v).asFrame] 0 chunks).s.scan none).1 }
              (vBody initM [(stateFromVisitor v).asFrame] 0 chunks).stack
              (vBody initM [(stateFromVisitor v).asFrame] 0 chunks).depth
              ((scanStep (vBody initM [(stateFromVisitor v).asFrame] 0 chunks).s.scan none).2.map Token.type)).events,
          (vSent { (vBody initM [(stateFromVisitor v).asFrame] 0 chunks).s with
              scan := (scanStep (vBody initM [(stateFromVisitor v).asFrame] 0 chunks).s.scan none).1 }
            (vBody initM [(stateFromVisitor v).asFrame] 0 chunks).stack
            (vBody initM [(stateFromVisitor v).asFrame] 0 chunks).depth
            ((scanStep (vBody initM [(stateFromVisitor v).asFrame] 0 chunks).s.scan none).2.map Token.type)).err,
          (vSent { (vBody initM [(stateFromVisitor v).asFrame] 0 chunks).s with
              scan := (scanStep (vBody initM [(stateFromVisitor v).asFrame] 0 chunks).s.scan none).1 }
            (vBody initM [(stateFromVisitor v).asFrame] 0 chunks).stack
            (vBody initM [(stateFromVisitor v).asFrame] 0 chunks).depth
            ((scanStep (vBody initM [(stateFromVisitor v).asFrame] 0 chunks).s.scan none).2.map Token.type)).broke⟩ := by
      simp only [visitRun]
      rw [if_neg hstop]
    rw [hscanE2] at hv
    rw [hv, hua, hcomp, ← bs, ← bd]
    have hfl2 : flushStr { (vBody initM [(stateFromVisitor v).asFrame] 0 chunks).s with
        scan := (scanStep (scanEnd initScan chunks) none).1 } =
        seg chunks.flatten
          (vAbsToks chunks.flatten ⟨false, 0, 0⟩ [(stateFromVisitor v).asFrame] 0
            (bodyTrace initScan 0 chunks)).s.w chunks.flatten.length := by
      show flushStr (vBody initM [(stateFromVisitor v).asFrame] 0 chunks).s = _
      rw [flushStr_inv_stale hinv2 (by rw [hse2]; exact hinv2.endLe), hse2, hb2, hw2]
    have hbb2 : ({ (vBody initM [(stateFromVisitor v).asFrame] 0 chunks).s with
        scan := (scanStep (scanEnd initScan chunks) none).1 } : MState).buffering =
        (vAbsToks chunks.flatten ⟨false, 0, 0⟩ [(stateFromVisitor v).asFrame] 0
          (bodyTrace initScan 0 chunks)).s.buffering := by
      show (vBody initM [(stateFromVisitor v).asFrame] 0 chunks).s.buffering = _
      exact hab2.symm
    rcases hsent : (scanStep (scanEnd initScan chunks) none).2 with _ | ⟨tok, srest⟩
    · simp only [List.map_nil]
      have hs1 : vSent { (vBody initM [(stateFromVisitor v).asFrame] 0 chunks).s with
            scan := (scanStep (scanEnd initScan chunks) none).1 }
          (vBody initM [(stateFromVisitor v).asFrame] 0 chunks).stack
          (vBody initM [(stateFromVisitor v).asFrame] 0 chunks).depth [] =
          ⟨{ (vBody initM [(stateFromVisitor v).asFrame] 0 chunks).s with
            scan := (scanStep (scanEnd initScan chunks) none).1 },
            (vBody initM [(stateFromVisitor v).asFrame] 0 chunks).stack,
            (vBody initM [(stateFromVisitor v).asFrame] 0 chunks).depth, [], none, false⟩ := rfl
      have hs2 : vAbsToks chunks.flatten
          (vAbsToks chunks.flatten ⟨false, 0, 0⟩ [(stateFromVisitor v).asFrame] 0
            (bodyTrace initScan 0 chunks)).s
          (vBody initM [(stateFromVisitor v).asFrame] 0 chunks).stack
          (vBody initM [(stateFromVisitor v).asFrame] 0 chunks).depth [] =
          ⟨(vAbsToks chunks.flatten ⟨false, 0, 0⟩ [(stateFromVisitor v).asFrame] 0
              (bodyTrace initScan 0 chunks)).s,
            (vBody initM [(stateFromVisitor v).asFrame] 0 chunks).stack,
            (vBody initM [(stateFromVisitor v).asFrame] 0 chunks).depth, [], none, false⟩ := rfl
      rw [hs1, hs2]
      exact ⟨by rw [be], rfl, rfl⟩
    · have hone : srest = [] := by
        rcases scanStep_none_short (scanEnd initScan chunks) with h0 | ⟨tok2, h1⟩
        · rw [hsent] at h0
          cases h0
        · rw [hsent] at h1
          injection h1 with _ h2
      subst hone
      simp only [List.map_cons, List.map_nil]
      obtain ⟨se, ser, sbr⟩ := vSent_abs_step chunks.flatten
        { (vBody initM [(stateFromVisitor v).asFrame] 0 chunks).s with
          scan := (scanStep (scanEnd initScan chunks) none).1 }
        (vAbsToks chunks.flatten ⟨false, 0, 0⟩ [(stateFromVisitor v).asFrame] 0
          (bodyTrace initScan 0 chunks)).s
        (vBody initM [(stateFromVisitor v).asFrame] 0 chunks).stack
        (vBody initM [(stateFromVisitor v).asFrame] 0 chunks).depth
        tok.type hfl2 hbb2
      exact ⟨by rw [be, se], ser, sbr⟩

theorem struct_not_ws {c : CU} {ty : TokenType} (h : structType? c = some ty) :
    isWsCU c = false := by
  unfold structType? at h
  split at h
  · rename_i hc; subst hc; rfl
  · split at h
    · rename_i hc; subst hc; rfl
    · split at h
      · rename_i hc; subst hc; rfl
      · split at h
        · rename_i hc; subst hc; rfl
        · split at h
          · rename_i hc; subst hc; rfl
          · split at h
            · rename_i hc; subst hc; rfl
            · cases h

theorem isNsCU_parts {c : CU} (h : isNsCU c = true) :
    isWsCU c = false ∧ structType? c = none ∧ c ≠ 34 := by
  unfold isNsCU at h
  simp only [Bool.and_eq_true, Bool.not_eq_true', Option.isNone_iff_eq_none,
    decide_eq_true_eq] at h
  exact ⟨h.1.1, h.1.2, h.2⟩

theorem isNsCU_of_parts {c : CU} (h1 : isWsCU c = false) (h2 : structType? c = none)
    (h3 : c ≠ 34) : isNsCU c = true := by
  unfold isNsCU
  simp [h1, h2, h3]

@[simp] theorem cRun_nil (md : CMode) (i : Nat) : cRun md i [] = (md, []) := rfl

theorem cRun_cons (md : CMode) (i : Nat) (c : CU) (rest : Chunk) :
    cRun md i (c :: rest) =
      ((cRun (cNext md c) (i + 1) rest).1,
        cOut md c i ++ (cRun (cNext md c) (i + 1) rest).2) := rfl

theorem cRun_mode_pos (l : Chunk) : ∀ (md : CMode) (i j : Nat),
    (cRun md i l).1 = (cRun md j l).1 := by
  induction l with
  | nil => intro md i j; rfl
  | cons c rest ih =>
    intro md i j
    rw [cRun_cons, cRun_cons]
    exact ih _ _ _

theorem cRun_append (x : Chunk) : ∀ (y : Chunk) (md : CMode) (i : Nat),
    cRun md i (x ++ y) =
      ((cRun (cRun md i x).1 (i + x.length) y).1,
        (cRun md i x).2 ++ (cRun (cRun md i x).1 (i + x.length) y).2) := by
  induction x with
  | nil =>
    intro y md i
    simp
  | cons c rest ih =>
    intro y md i
    rw [List.cons_append, cRun_cons, ih, cRun_cons]
    have h1 : i + (c :: rest).length = (i + 1) + rest.length := by
      simp [List.length_cons]
      omega
    rw [h1, List.append_assoc]

theorem cClean_append (x : Chunk) : ∀ (y : Chunk) (md : CMode),
    cClean md (x ++ y) = (cClean md x && cClean (cRun md 0 x).1 y) := by
  induction x with
  | nil => intro y md; simp [cClean]
  | cons c rest ih =>
    intro y md
    rw [List.cons_append]
    show ((match md with | .inStr true => jsDot c | _ => true) &&
        cClean (cNext md c) (rest ++ y)) = _
    rw [ih]
    rw [cRun_cons]
    show _ = ((match md with | .inStr true => jsDot c | _ => true) &&
        cClean (cNext md c) rest &&
        cClean (cRun (cNext md c) 1 rest).1 y)
    rw [cRun_mode_pos rest (cNext md c) 0 1]
    rw [Bool.and_assoc]

theorem cNext_atomB (c : CU) : cNext .inAtom c = cNext .between c := rfl

theorem cClean_atomB (l : Chunk) : cClean .inAtom l = cClean .between l := by
  cases l with
  | nil => rfl
  | cons c rest => rfl

theorem cRun_mode_atomB (l : Chunk) (i : Nat) (h : l ≠ []) :
    (cRun .inAtom i l).1 = (cRun .between i l).1 := by
  cases l with
  | nil => exact absurd rfl h
  | cons c rest => rw [cRun_cons, cRun_cons, cNext_atomB]

theorem cNextB_ws {c : CU} (h : isWsCU c = true) : cNextB c = .between := by
  simp [cNextB, h]

theorem cNextB_struct {c : CU} {ty : TokenType} (h : structType? c = some ty) :
    cNextB c = .between := by
  simp [cNextB, struct_not_ws h, h]

theorem cNextB_quote : cNextB 34 = .inStr false := rfl

theorem cNextB_ns {c : CU} (h : isNsCU c = true) : cNextB c = .inAtom := by
  obtain ⟨h1, h2, h3⟩ := isNsCU_parts h
  simp [cNextB, h1, h2, h3]

theorem cOutB_ws {c : CU} (h : isWsCU c = true) (i : Nat) : cOutB c i = [] := by
  simp [cOutB, h]

theorem cOutB_struct {c : CU} {ty : TokenType} (h : structType? c = some ty) (i : Nat) :
    cOutB c i = [(ty, i + 1)] := by
  simp [cOutB, struct_not_ws h, h]

theorem cOutB_quote (i : Nat) : cOutB 34 i = [] := rfl

theorem cOutB_ns {c : CU} (h : isNsCU c = true) (i : Nat) : cOutB c i = [] := by
  obtain ⟨h1, h2, h3⟩ := isNsCU_parts h
  simp [cOutB, h1, h2]

theorem cOut_atom {c : CU} (h : ¬ isNsCU c = true) (i : Nat) :
    cOut .inAtom c i = (.atom, i) :: cOut .between c i := by
  show (if isNsCU c then [] else (.atom, i) :: cOutB c i) = _
  rw [if_neg h]
  rfl

theorem ws_cRun (l : Chunk) : ∀ i : Nat,
    cRun .between i l = cRun .between (i + wsCount l) (l.drop (wsCount l)) := by
  induction l with
  | nil => intro i; simp [wsCount]
  | cons c rest ih =>
    intro i
    by_cases hw : isWsCU c = true
    · have h1 : wsCount (c :: rest) = 1 + wsCount rest := by simp [wsCount, hw]
      have h2 : cRun .between i (c :: rest) = cRun .between (i + 1) rest := by
        have hn : cNext CMode.between c = .between := cNextB_ws hw
        have ho : cOut CMode.between c i = [] := cOutB_ws hw i
        rw [cRun_cons, hn, ho]
        simp
      have h3 : i + (1 + wsCount rest) = (i + 1) + wsCount rest := by omega
      have h4 : (c :: rest).drop (1 + wsCount rest) = rest.drop (wsCount rest) := by
        have h5 : 1 + wsCount rest = wsCount rest + 1 := by omega
        rw [h5, List.drop_succ_cons]
      rw [h2, h1, h3, h4]
      exact ih (i + 1)
    · have h1 : wsCount (c :: rest) = 0 := by
        simp only [wsCount]
        rw [if_neg hw]
      rw [h1]
      simp

theorem ws_cClean (l : Chunk) :
    cClean .between l = cClean .between (l.drop (wsCount l)) := by
  induction l with
  | nil => simp [wsCount]
  | cons c rest ih =>
    by_cases hw : isWsCU c = true
    · have h1 : wsCount (c :: rest) = 1 + wsCount rest := by simp [wsCount, hw]
      have h2 : cClean .between (c :: rest) = cClean .between rest := by
        show (true && cClean (cNextB c) rest) = _
        rw [cNextB_ws hw]
        simp
      have h4 : (c :: rest).drop (1 + wsCount rest) = rest.drop (wsCount rest) := by
        have h5 : 1 + wsCount rest = wsCount rest + 1 := by omega
        rw [h5, List.drop_succ_cons]
      rw [h2, h1, h4]
      exact ih
    · have h1 : wsCount (c :: rest) = 0 := by
        simp only [wsCount]
        rw [if_neg hw]
      rw [h1, List.drop_zero]

theorem ws_drop_head (l : Chunk) : ∀ {c : CU} {r : Chunk},
    l.drop (wsCount l) = c :: r → isWsCU c = false := by
  induction l with
  | nil => intro c r h; simp [wsCount] at h
  | cons x rest ih =>
    intro c r h
    by_cases hw : isWsCU x = true
    · have h1 : wsCount (x :: rest) = 1 + wsCount rest := by simp [wsCount, hw]
      rw [h1] at h
      have h4 : (x :: rest).drop (1 + wsCount rest) = rest.drop (wsCount rest) := by
        have h5 : 1 + wsCount rest = wsCount rest + 1 := by omega
        rw [h5, List.drop_succ_cons]
      rw [h4] at h
      exact ih h
    · have h1 : wsCount (x :: rest) = 0 := by
        simp only [wsCount]
        rw [if_neg hw]
      rw [h1, List.drop_zero] at h
      cases h
      simp at hw
      exact hw

theorem ns_cClean (l : Chunk) :
    cClean .inAtom l = cClean .inAtom (l.drop (nsCont l)) := by
  induction l with
  | nil => simp [nsCont]
  | cons c rest ih =>
    by_cases hn : isNsCU c = true
    · have h1 : nsCont (c :: rest) = 1 + nsCont rest := by simp [nsCont, hn]
      have h2 : cClean .inAtom (c :: rest) = cClean .inAtom rest := by
        show (true && cClean (cNextB c) rest) = _
        rw [cNextB_ns hn]
        simp
      have h4 : (c :: rest).drop (1 + nsCont rest) = rest.drop (nsCont rest) := by
        have h5 : 1 + nsCont rest = nsCont rest + 1 := by omega
        rw [h5, List.drop_succ_cons]
      rw [h2, h1, h4]
      exact ih
    · have h1 : nsCont (c :: rest) = 0 := by
        simp only [nsCont]
        rw [if_neg hn]
      rw [h1, List.drop_zero]

theorem ns_cRun_all (l : Chunk) : ∀ i : Nat, nsCont l = l.length →
    cRun .inAtom i l = (.inAtom, []) := by
  induction l with
  | nil => intro i _; rfl
  | cons c rest ih =>
    intro i h
    by_cases hn : isNsCU c = true
    · have h1 : nsCont (c :: rest) = 1 + nsCont rest := by simp [nsCont, hn]
      have hnx : cNext CMode.inAtom c = .inAtom := by
        rw [cNext_atomB]
        exact cNextB_ns hn
      have h2 : cOut .inAtom c i = [] := by
        show (if isNsCU c then [] else _) = []
        rw [if_pos hn]
      rw [cRun_cons, hnx, h2, ih (i+1) (by simp [List.length_cons] at h; omega)]
      simp
    · have h1 : nsCont (c :: rest) = 0 := by
        simp only [nsCont]
        rw [if_neg hn]
      rw [h1] at h
      simp at h


theorem ns_cRun_part (l : Chunk) : ∀ i : Nat, nsCont l < l.length →
    cRun .inAtom i l =
      ((cRun .between (i + nsCont l) (l.drop (nsCont l))).1,
        (.atom, i + nsCont l) ::
          (cRun .between (i + nsCont l) (l.drop (nsCont l))).2) := by
  induction l with
  | nil => intro i h; simp [nsCont] at h
  | cons c rest ih =>
    intro i h
    by_cases hn : isNsCU c = true
    · have h1 : nsCont (c :: rest) = 1 + nsCont rest := by simp [nsCont, hn]
      have h2 : cOut .inAtom c i = [] := by
        show (if isNsCU c then [] else _) = []
        rw [if_pos hn]
      have h3 : cNext .inAtom c = .inAtom := by
        rw [cNext_atomB]
        exact cNextB_ns hn
      have h6 : nsCont rest < rest.length := by
        rw [h1] at h
        simp [List.length_cons] at h
        omega
      rw [cRun_cons, h3, h2, ih (i+1) h6, h1]
      have h4 : (c :: rest).drop (1 + nsCont rest) = rest.drop (nsCont rest) := by
        have h5 : 1 + nsCont rest = nsCont rest + 1 := by omega
        rw [h5, List.drop_succ_cons]
      have h7 : i + (1 + nsCont rest) = (i + 1) + nsCont rest := by omega
      rw [h4, h7]
      simp
    · have h1 : nsCont (c :: rest) = 0 := by
        simp only [nsCont]
        rw [if_neg hn]
      rw [h1, List.drop_zero, Nat.add_zero, cRun_cons, cRun_cons, cNext_atomB,
        cOut_atom hn]
      simp

theorem str_cRun (l : Chunk) :
    cClean (.inStr false) l = true →
    (((stringCont l).2.2 = true →
        cClean .between (l.drop (stringCont l).1) = true ∧
        ∀ i, cRun (.inStr false) i l =
          ((cRun .between (i + (stringCont l).1) (l.drop (stringCont l).1)).1,
            (.atom, i + (stringCont l).1) ::
              (cRun .between (i + (stringCont l).1) (l.drop (stringCont l).1)).2)) ∧
      ((stringCont l).2.2 = false →
        (stringCont l).1 = l.length ∧
        ∀ i, cRun (.inStr false) i l = (.inStr (stringCont l).2.1, []))) := by
  induction l using stringCont.induct with
  | case1 =>
    intro _
    refine ⟨?_, ?_⟩
    · intro h; cases h
    · intro _; exact ⟨rfl, fun i => rfl⟩
  | case2 rest =>
    intro hclean
    refine ⟨?_, ?_⟩
    · intro _
      have hcn : cNext (.inStr false) 34 = .between := rfl
      constructor
      · have : cClean (.inStr false) (34 :: rest) =
            (true && cClean .between rest) := rfl
        rw [this] at hclean
        simp at hclean
        simpa [stringCont_quote] using hclean
      · intro i
        rw [stringCont_quote]
        show ((cRun (cNext (.inStr false) 34) (i+1) rest).1,
          cOut (.inStr false) 34 i ++ _) = _
        rw [hcn]
        show ((cRun CMode.between (i+1) rest).1, [(TokenType.atom, i + 1)] ++ _) = _
        simp [List.drop_succ_cons]
    · intro h
      rw [stringCont_quote] at h
      cases h
  | case3 h =>
    intro _
    refine ⟨?_, ?_⟩
    · intro hcl
      rw [stringCont_esc_nil] at hcl
      cases hcl
    · intro _
      rw [stringCont_esc_nil]
      refine ⟨rfl, fun i => ?_⟩
      rw [cRun_cons]
      have hcn : cNext (.inStr false) 92 = .inStr true := rfl
      have hco : cOut (.inStr false) 92 i = [] := rfl
      rw [hcn, hco]
      rfl
  | case4 d rest2 hd h ih =>
    intro hclean
    have hstep : cClean (.inStr false) (92 :: d :: rest2) =
        (true && (jsDot d && cClean (.inStr false) rest2)) := by
      show (true && cClean (cNext (.inStr false) 92) (d :: rest2)) = _
      have h1 : cNext (.inStr false) 92 = .inStr true := rfl
      rw [h1]
      show (true && ((jsDot d) && cClean (cNext (.inStr true) d) rest2)) = _
      rfl
    rw [hstep] at hclean
    simp only [Bool.true_and, Bool.and_eq_true] at hclean
    obtain ⟨hclean2, ih1, ih2⟩ := And.intro hclean.1 (ih hclean.2)
    have hrw : stringCont (92 :: d :: rest2) =
        (2 + (stringCont rest2).1, (stringCont rest2).2.1, (stringCont rest2).2.2) := by
      rw [stringCont_esc_cons, if_pos hd]
    have hstep2 : ∀ i, cRun (.inStr false) i (92 :: d :: rest2) =
        cRun (.inStr false) (i + 2) rest2 := by
      intro i
      rw [cRun_cons]
      have h1 : cNext (.inStr false) 92 = .inStr true := rfl
      have h2 : cOut (.inStr false) 92 i = [] := rfl
      rw [h1, h2, cRun_cons]
      have h3 : cNext (.inStr true) d = .inStr false := rfl
      have h4 : cOut (.inStr true) d (i+1) = [] := rfl
      rw [h3, h4]
      have h5 : i + 1 + 1 = i + 2 := by omega
      rw [h5]
      simp
    have hdrop : ∀ k, (92 :: d :: rest2).drop (2 + k) = rest2.drop k := by
      intro k
      have h5 : 2 + k = (k + 1) + 1 := by omega
      rw [h5, List.drop_succ_cons, List.drop_succ_cons]
    refine ⟨?_, ?_⟩
    · intro hcl
      rw [hrw] at hcl
      obtain ⟨ha, hb⟩ := ih1 hcl
      rw [hrw]
      refine ⟨by rw [hdrop]; exact ha, ?_⟩
      intro i
      rw [hstep2 i, hb (i + 2)]
      have h6 : i + (2 + (stringCont rest2).1) = (i + 2) + (stringCont rest2).1 := by
        omega
      rw [h6, hdrop]
    · intro hcl
      rw [hrw] at hcl
      obtain ⟨ha, hb⟩ := ih2 hcl
      rw [hrw]
      refine ⟨by simp [List.length_cons]; omega, ?_⟩
      intro i
      rw [hstep2 i, hb (i + 2)]
  | case5 d rest2 hd h =>
    intro hclean
    exfalso
    have hstep : cClean (.inStr false) (92 :: d :: rest2) =
        (true && (jsDot d && cClean (.inStr false) rest2)) := by
      show (true && cClean (cNext (.inStr false) 92) (d :: rest2)) = _
      rfl
    rw [hstep] at hclean
    simp only [Bool.true_and, Bool.and_eq_true] at hclean
    exact hd hclean.1
  | case6 c rest h1 h2 ih =>
    intro hclean
    have hn : cNext (.inStr false) c = .inStr false := by
      simp [cNext, h1, h2]
    have hstep : cClean (.inStr false) (c :: rest) =
        (true && cClean (.inStr false) rest) := by
      show (true && cClean (cNext (.inStr false) c) rest) = _
      rw [hn]
    rw [hstep] at hclean
    simp only [Bool.true_and] at hclean
    obtain ⟨ih1, ih2⟩ := ih hclean
    have hrw : stringCont (c :: rest) =
        (1 + (stringCont rest).1, (stringCont rest).2.1, (stringCont rest).2.2) :=
      stringCont_other c rest h1 h2
    have hstep2 : ∀ i, cRun (.inStr false) i (c :: rest) =
        cRun (.inStr false) (i + 1) rest := by
      intro i
      have ho : cOut (.inStr false) c i = [] := by
        simp [cOut, h1]
      rw [cRun_cons, hn, ho]
      simp
    have hdrop : ∀ k, (c :: rest).drop (1 + k) = rest.drop k := by
      intro k
      have h5 : 1 + k = k + 1 := by omega
      rw [h5, List.drop_succ_cons]
    refine ⟨?_, ?_⟩
    · intro hcl
      rw [hrw] at hcl
      obtain ⟨ha, hb⟩ := ih1 hcl
      rw [hrw]
      refine ⟨by rw [hdrop]; exact ha, ?_⟩
      intro i
      rw [hstep2 i, hb (i + 1)]
      have h6 : i + (1 + (stringCont rest).1) = (i + 1) + (stringCont rest).1 := by
        omega
      rw [h6, hdrop]
    · intro hcl
      rw [hrw] at hcl
      obtain ⟨ha, hb⟩ := ih2 hcl
      rw [hrw]
      refine ⟨by simp [List.length_cons]; omega, ?_⟩
      intro i
      rw [hstep2 i, hb (i + 1)]


theorem drop_add {l : Chunk} (a b : Nat) : l.drop (a + b) = (l.drop a).drop b := by
  rw [List.drop_drop]

theorem drop_cons_tail {chunk : Chunk} {s : Nat} {c : CU} {rest : List CU}
    (h : chunk.drop s = c :: rest) : chunk.drop (s + 1) = rest := by
  rw [drop_add s 1, h]
  rfl

/-- The scanner loop on a clean chunk suffix is in lockstep with the character
machine: it emits the machine's token stream (at global positions) and leaves
a state related to the machine's final mode. -/
theorem mainLoop_abs (base : Nat) (fuel : Nat) (chunk : Chunk) (p : Nat)
    (st : ScanState) (acc : List Token) :
    st.pending = none →
    chunk.length - p < fuel →
    cClean .between (chunk.drop p) = true →
    ((mainLoop fuel chunk p st acc).2.map (fun t => (t.type, base + t.endIndex)) =
        acc.map (fun t => (t.type, base + t.endIndex)) ++
          (cRun .between (base + p) (chunk.drop p)).2) ∧
    ScanRel (mainLoop fuel chunk p st acc).1
      (cRun .between (base + p) (chunk.drop p)).1 := by
  induction fuel, chunk, p, st, acc using mainLoop.induct with
  | case1 chunk p st acc =>
    intro _ hfuel _
    omega
  | case2 chunk p st acc fuel s hdrop =>
    intro hp _ _
    have hs : s = p + wsCount (chunk.drop p) := rfl
    have hse : (chunk.drop p).drop (wsCount (chunk.drop p)) = chunk.drop s := by
      rw [← drop_add]
    have hcr : cRun .between (base + p) (chunk.drop p) =
        cRun .between (base + s) (chunk.drop s) := by
      rw [ws_cRun (chunk.drop p) (base + p), hse]
      congr 1
      omega
    simp only [mainLoop, hdrop]
    rw [hcr, hdrop]
    exact ⟨by simp, hp⟩
  | case3 chunk p st acc fuel s d rest2 hdrop ty hty ih =>
    intro hp hfuel hclean
    have hs : s = p + wsCount (chunk.drop p) := rfl
    have hse : (chunk.drop p).drop (wsCount (chunk.drop p)) = chunk.drop s := by
      rw [← drop_add]
    have hcr : cRun .between (base + p) (chunk.drop p) =
        cRun .between (base + s) (chunk.drop s) := by
      rw [ws_cRun (chunk.drop p) (base + p), hse]
      congr 1
      omega
    have hcc : cClean .between (chunk.drop s) = true := by
      rw [← hse, ← ws_cClean]
      exact hclean
    have hslt : s < chunk.length := drop_cons_lt hdrop
    have htail : chunk.drop (s + 1) = rest2 := drop_cons_tail hdrop
    have hq1 : cNext CMode.between d = .between := cNextB_struct hty
    have hq2 : cOut CMode.between d (base + s) = [(ty, base + s + 1)] :=
      cOutB_struct hty (base + s)
    have hcc2 : cClean .between (chunk.drop (s + 1)) = true := by
      rw [hdrop] at hcc
      have hstep : cClean .between (d :: rest2) =
          (true && cClean .between rest2) := by
        show (true && cClean (cNextB d) rest2) = _
        rw [cNextB_struct hty]
      rw [hstep] at hcc
      rw [htail]
      simpa using hcc
    obtain ⟨ihmap, ihrel⟩ := ih hp (by omega) hcc2
    simp only [mainLoop, hdrop, hty]
    constructor
    · rw [ihmap, hcr, hdrop, cRun_cons, hq1, hq2]
      have hpos : base + (s + 1) = base + s + 1 := by omega
      simp only [List.map_append, List.map_cons, List.map_nil, List.append_assoc,
        hpos, htail]
      try rfl
    · rw [hcr, hdrop, cRun_cons, hq1]
      show ScanRel _ (cRun CMode.between (base + s + 1) rest2).1
      rw [cRun_mode_pos rest2 CMode.between (base + s + 1) (base + (s + 1)), ← htail]
      exact ihrel
  | case4 chunk p st acc fuel s rest2 r e hcl hdrop hty ih =>
    intro hp hfuel hclean
    have hs : s = p + wsCount (chunk.drop p) := rfl
    have hse : (chunk.drop p).drop (wsCount (chunk.drop p)) = chunk.drop s := by
      rw [← drop_add]
    have hcr : cRun .between (base + p) (chunk.drop p) =
        cRun .between (base + s) (chunk.drop s) := by
      rw [ws_cRun (chunk.drop p) (base + p), hse]
      congr 1
      omega
    have hcc : cClean .between (chunk.drop s) = true := by
      rw [← hse, ← ws_cClean]
      exact hclean
    have hslt : s < chunk.length := drop_cons_lt hdrop
    have hlen : chunk.length = s + 1 + rest2.length := drop_cons_len hdrop
    have htail : chunk.drop (s + 1) = rest2 := drop_cons_tail hdrop
    have hscle := stringCont_le rest2
    have hstr : cClean (.inStr false) rest2 = true := by
      rw [hdrop] at hcc
      have hstep : cClean .between (34 :: rest2) =
          (true && cClean (.inStr false) rest2) := by
        show (true && cClean (cNextB 34) rest2) = _
        rw [cNextB_quote]
      rw [hstep] at hcc
      simpa using hcc
    obtain ⟨hclosed, _⟩ := str_cRun rest2 hstr
    obtain ⟨hcc2, hcrs⟩ := hclosed hcl
    have hdropE : chunk.drop (s + 1 + (stringCont rest2).1) =
        rest2.drop (stringCont rest2).1 := by
      rw [drop_add (s + 1) ((stringCont rest2).1), htail]
    have hq1 : cNext CMode.between 34 = .inStr false := cNextB_quote
    have hq2 : cOut CMode.between 34 (base + s) = [] := cOutB_quote (base + s)
    obtain ⟨ihmap, ihrel⟩ := ih hp (by omega)
      (by rw [hdropE]; exact hcc2)
    simp only [mainLoop, hdrop, hty, reduceIte,
      if_pos (show (stringCont rest2).2.2 = true from hcl)]
    constructor
    · rw [ihmap, hcr, hdrop, cRun_cons, hq1, hq2, hcrs (base + s + 1)]
      have hpos : base + (s + 1 + (stringCont rest2).1) =
          base + s + 1 + (stringCont rest2).1 := by omega
      simp only [List.map_append, List.map_cons, List.map_nil, List.append_assoc,
        hpos, hdropE]
      try rfl
    · rw [hcr, hdrop, cRun_cons, hq1, hcrs (base + s + 1)]
      show ScanRel _ (cRun CMode.between (base + s + 1 + (stringCont rest2).1)
        (rest2.drop (stringCont rest2).1)).1
      rw [cRun_mode_pos (rest2.drop (stringCont rest2).1) CMode.between
        (base + s + 1 + (stringCont rest2).1) (base + (s + 1 + (stringCont rest2).1)),
        ← hdropE]
      exact ihrel
  | case5 chunk p st acc fuel s rest2 r e hcl hdrop hty ih =>
    intro hp hfuel hclean
    have hs : s = p + wsCount (chunk.drop p) := rfl
    have hse : (chunk.drop p).drop (wsCount (chunk.drop p)) = chunk.drop s := by
      rw [← drop_add]
    have hcr : cRun .between (base + p) (chunk.drop p) =
        cRun .between (base + s) (chunk.drop s) := by
      rw [ws_cRun (chunk.drop p) (base + p), hse]
      congr 1
      omega
    have hcc : cClean .between (chunk.drop s) = true := by
      rw [← hse, ← ws_cClean]
      exact hclean
    have hslt : s < chunk.length := drop_cons_lt hdrop
    have hlen : chunk.length = s + 1 + rest2.length := drop_cons_len hdrop
    have hstr : cClean (.inStr false) rest2 = true := by
      rw [hdrop] at hcc
      have hstep : cClean .between (34 :: rest2) =
          (true && cClean (.inStr false) rest2) := by
        show (true && cClean (cNextB 34) rest2) = _
        rw [cNextB_quote]
      rw [hstep] at hcc
      simpa using hcc
    obtain ⟨_, hnotcl⟩ := str_cRun rest2 hstr
    obtain ⟨hall, hcrs⟩ := hnotcl (by
      rcases hx : (stringCont rest2).2.2 with _ | _
      · rfl
      · exact absurd hx hcl)
    have hq1 : cNext CMode.between 34 = .inStr false := cNextB_quote
    have hq2 : cOut CMode.between 34 (base + s) = [] := cOutB_quote (base + s)
    simp only [mainLoop, hdrop, hty, reduceIte,
      if_neg (show ¬ (stringCont rest2).2.2 = true from hcl)]
    rw [mainLoop_end _ _ _ (by omega)]
    constructor
    · rw [hcr, hdrop, cRun_cons, hq1, hq2, hcrs (base + s + 1)]
      simp
    · rw [hcr, hdrop, cRun_cons, hq1, hcrs (base + s + 1)]
      exact ⟨⟨s + 1 + (stringCont rest2).1, rfl⟩, rfl, rfl⟩
  | case6 chunk p st acc fuel s d rest2 hdrop hty hd e he ih =>
    intro hp hfuel hclean
    have hs : s = p + wsCount (chunk.drop p) := rfl
    have hse : (chunk.drop p).drop (wsCount (chunk.drop p)) = chunk.drop s := by
      rw [← drop_add]
    have hcr : cRun .between (base + p) (chunk.drop p) =
        cRun .between (base + s) (chunk.drop s) := by
      rw [ws_cRun (chunk.drop p) (base + p), hse]
      congr 1
      omega
    have hcc : cClean .between (chunk.drop s) = true := by
      rw [← hse, ← ws_cClean]
      exact hclean
    have hlen : chunk.length = s + 1 + rest2.length := drop_cons_len hdrop
    have hwsd : isWsCU d = false := ws_drop_head (chunk.drop p) (by rw [hse, hdrop])
    have hnd : isNsCU d = true := isNsCU_of_parts hwsd hty hd
    have hq1 : cNext CMode.between d = .inAtom := cNextB_ns hnd
    have hq2 : cOut CMode.between d (base + s) = [] := cOutB_ns hnd (base + s)
    have hall : nsCont rest2 = rest2.length := by omega
    simp only [mainLoop, hdrop, hty, if_neg hd,
      if_pos (show s + 1 + nsCont rest2 = chunk.length from he)]
    rw [mainLoop_end _ _ _ (by omega)]
    constructor
    · rw [hcr, hdrop, cRun_cons, hq1, hq2, ns_cRun_all rest2 (base + s + 1) hall]
      simp
    · rw [hcr, hdrop, cRun_cons, hq1, ns_cRun_all rest2 (base + s + 1) hall]
      exact ⟨⟨s + 1 + nsCont rest2, rfl⟩, rfl, rfl⟩
  | case7 chunk p st acc fuel s d rest2 hdrop hty hd e he ih =>
    intro hp hfuel hclean
    have hs : s = p + wsCount (chunk.drop p) := rfl
    have hse : (chunk.drop p).drop (wsCount (chunk.drop p)) = chunk.drop s := by
      rw [← drop_add]
    have hcr : cRun .between (base + p) (chunk.drop p) =
        cRun .between (base + s) (chunk.drop s) := by
      rw [ws_cRun (chunk.drop p) (base + p), hse]
      congr 1
      omega
    have hcc : cClean .between (chunk.drop s) = true := by
      rw [← hse, ← ws_cClean]
      exact hclean
    have hslt : s < chunk.length := drop_cons_lt hdrop
    have hlen : chunk.length = s + 1 + rest2.length := drop_cons_len hdrop
    have hncle := nsCont_le rest2
    have htail : chunk.drop (s + 1) = rest2 := drop_cons_tail hdrop
    have hwsd : isWsCU d = false := ws_drop_head (chunk.drop p) (by rw [hse, hdrop])
    have hnd : isNsCU d = true := isNsCU_of_parts hwsd hty hd
    have hq1 : cNext CMode.between d = .inAtom := cNextB_ns hnd
    have hq2 : cOut CMode.between d (base + s) = [] := cOutB_ns hnd (base + s)
    have hpart : nsCont rest2 < rest2.length := by omega
    have hdropE : chunk.drop (s + 1 + nsCont rest2) = rest2.drop (nsCont rest2) := by
      rw [drop_add (s + 1) (nsCont rest2), htail]
    have hcc2 : cClean .between (chunk.drop (s + 1 + nsCont rest2)) = true := by
      rw [hdrop] at hcc
      have hstep : cClean .between (d :: rest2) =
          (true && cClean .inAtom rest2) := by
        show (true && cClean (cNextB d) rest2) = _
        rw [cNextB_ns hnd]
      rw [hstep] at hcc
      simp only [Bool.true_and] at hcc
      rw [ns_cClean] at hcc
      rw [hdropE, ← cClean_atomB]
      exact hcc
    obtain ⟨ihmap, ihrel⟩ := ih hp (by omega) hcc2
    simp only [mainLoop, hdrop, hty, if_neg hd,
      if_neg (show ¬ s + 1 + nsCont rest2 = chunk.length from he)]
    constructor
    · rw [ihmap, hcr, hdrop, cRun_cons, hq1, hq2,
        ns_cRun_part rest2 (base + s + 1) hpart]
      have hpos : base + (s + 1 + nsCont rest2) = base + s + 1 + nsCont rest2 := by
        omega
      simp only [List.map_append, List.map_cons, List.map_nil, List.append_assoc,
        hpos, hdropE]
      try rfl
    · rw [hcr, hdrop, cRun_cons, hq1, ns_cRun_part rest2 (base + s + 1) hpart]
      show ScanRel _ (cRun CMode.between (base + s + 1 + nsCont rest2)
        (rest2.drop (nsCont rest2))).1
      rw [cRun_mode_pos (rest2.drop (nsCont rest2)) CMode.between
        (base + s + 1 + nsCont rest2) (base + (s + 1 + nsCont rest2)), ← hdropE]
      exact ihrel


/-- One scanner call on a clean chunk is in lockstep with the character
machine run over that chunk. -/
theorem scanChunk_abs (st : ScanState) (md : CMode) (c : Chunk) (base : Nat)
    (hrel : ScanRel st md) (hclean : cClean md c = true) :
    (scanStep st (some c)).2.map (fun t => (t.type, base + t.endIndex)) =
      (cRun md base c).2 ∧
    ScanRel (scanStep st (some c)).1 (cRun md base c).1 := by
  cases md with
  | between =>
    have hp : st.pending = none := hrel
    simp only [scanStep, scanChunk, hp]
    obtain ⟨hm, hr⟩ := mainLoop_abs base (c.length + 1) c 0 st [] hp (by omega)
      (by simpa using hclean)
    simp only [List.map_nil, List.nil_append, Nat.add_zero, List.drop_zero] at hm hr
    exact ⟨hm, hr⟩
  | inStr esc =>
    obtain ⟨⟨e0, hpend⟩, hcont, hskip⟩ := hrel
    simp only [scanStep, scanChunk, hpend]
    by_cases hsk : st.pendingSkip ≥ c.length
    · rw [if_pos hsk]
      cases esc with
      | false =>
        have hsk0 : st.pendingSkip = 0 := by simpa using hskip
        rw [hsk0] at hsk
        have hc : c = [] := List.eq_nil_of_length_eq_zero (by omega)
        subst hc
        refine ⟨by simp, ⟨⟨e0, rfl⟩, hcont, ?_⟩⟩
        show st.pendingSkip - List.length ([] : Chunk) = _
        simp [hsk0]
      | true =>
        have hsk1 : st.pendingSkip = 1 := by simpa using hskip
        rw [hsk1] at hsk
        match c with
        | [] =>
          refine ⟨by simp, ⟨⟨e0, rfl⟩, hcont, ?_⟩⟩
          show st.pendingSkip - List.length ([] : Chunk) = _
          simp [hsk1]
        | [d] =>
          have hone : cRun (.inStr true) base [d] = (.inStr false, []) := by
            rw [cRun_cons]
            rfl
          rw [hone]
          refine ⟨by simp, ⟨⟨e0, rfl⟩, hcont, ?_⟩⟩
          show st.pendingSkip - List.length [d] = _
          simp [hsk1]
        | d :: x :: r =>
          exfalso
          simp [List.length_cons] at hsk
    · rw [if_neg hsk, hcont]
      simp only [contMatch]
      cases esc with
      | false =>
        have hsk0 : st.pendingSkip = 0 := by simpa using hskip
        rw [hsk0]
        simp only [List.drop_zero, Nat.zero_add]
        obtain ⟨hclosed, hnotcl⟩ := str_cRun c hclean
        by_cases hcl : (stringCont c).2.2 = true
        · obtain ⟨hcc2, hcrs⟩ := hclosed hcl
          have hscle := stringCont_le c
          have hcond : (decide ((stringCont c).1 < c.length) || (stringCont c).2.2)
              = true := by rw [hcl]; simp
          rw [if_pos hcond]
          have htok : ({ (⟨.atom, e0⟩ : Token) with endIndex := (stringCont c).1 } :
              Token) = ⟨.atom, (stringCont c).1⟩ := rfl
          rw [htok]
          obtain ⟨hm, hr⟩ := mainLoop_abs base (c.length + 1) c (stringCont c).1
            ⟨none, 0, .string⟩ [⟨.atom, (stringCont c).1⟩] rfl (by omega) hcc2
          constructor
          · rw [hm, hcrs base]
            simp
          · rw [hcrs base]
            exact hr
        · obtain ⟨hall, hcrs⟩ := hnotcl (by
            rcases hx : (stringCont c).2.2 with _ | _
            · rfl
            · exact absurd hx hcl)
          have hcond : (decide ((stringCont c).1 < c.length) || (stringCont c).2.2)
              = false := by
            rcases hx : (stringCont c).2.2 with _ | _
            · simp [hall]
            · exact absurd hx hcl
          rw [if_neg (by rw [hcond]; simp)]
          rw [mainLoop_end _ _ _ (by omega)]
          rw [hcrs base]
          exact ⟨by simp, ⟨⟨(stringCont c).1, rfl⟩, rfl, rfl⟩⟩
      | true =>
        have hsk1 : st.pendingSkip = 1 := by simpa using hskip
        rw [hsk1]
        rw [hsk1] at hsk
        match c with
        | [] => exact absurd (by simp) hsk
        | d :: rest =>
          have hdrop1 : (d :: rest).drop 1 = rest := rfl
          rw [hdrop1]
          have hstr : cClean (.inStr false) rest = true := by
            have hstep : cClean (.inStr true) (d :: rest) =
                (jsDot d && cClean (.inStr false) rest) := by
              show (jsDot d && cClean (cNext (.inStr true) d) rest) = _
              rfl
            rw [hstep] at hclean
            simp only [Bool.and_eq_true] at hclean
            exact hclean.2
          have hcstep : ∀ i, cRun (.inStr true) i (d :: rest) =
              cRun (.inStr false) (i + 1) rest := by
            intro i
            rw [cRun_cons]
            have h1 : cNext (.inStr true) d = .inStr false := rfl
            have h2 : cOut (.inStr true) d i = [] := rfl
            rw [h1, h2]
            simp
          obtain ⟨hclosed, hnotcl⟩ := str_cRun rest hstr
          have hlen : (d :: rest).length = rest.length + 1 := by simp
          by_cases hcl : (stringCont rest).2.2 = true
          · obtain ⟨hcc2, hcrs⟩ := hclosed hcl
            have hscle := stringCont_le rest
            have hcond : (decide (1 + (stringCont rest).1 < (d :: rest).length) ||
                (stringCont rest).2.2) = true := by rw [hcl]; simp
            rw [if_pos hcond]
            have htok : ({ (⟨.atom, e0⟩ : Token) with
                endIndex := 1 + (stringCont rest).1 } : Token) =
                ⟨.atom, 1 + (stringCont rest).1⟩ := rfl
            rw [htok]
            have hdropE : (d :: rest).drop (1 + (stringCont rest).1) =
                rest.drop (stringCont rest).1 := by
              have h5 : 1 + (stringCont rest).1 = (stringCont rest).1 + 1 := by omega
              rw [h5, List.drop_succ_cons]
            obtain ⟨hm, hr⟩ := mainLoop_abs base ((d :: rest).length + 1) (d :: rest)
              (1 + (stringCont rest).1)
              ⟨none, 1, .string⟩ [⟨.atom, 1 + (stringCont rest).1⟩] rfl
              (by omega) (by rw [hdropE]; exact hcc2)
            constructor
            · rw [hm, hcstep base, hcrs (base + 1)]
              have hpos : base + (1 + (stringCont rest).1) =
                  base + 1 + (stringCont rest).1 := by omega
              simp only [List.map_cons, List.map_nil, List.nil_append, hpos, hdropE]
              rfl
            · rw [hcstep base, hcrs (base + 1)]
              show ScanRel _ (cRun CMode.between (base + 1 + (stringCont rest).1)
                (rest.drop (stringCont rest).1)).1
              rw [cRun_mode_pos (rest.drop (stringCont rest).1) CMode.between
                (base + 1 + (stringCont rest).1) (base + (1 + (stringCont rest).1)),
                ← hdropE]
              exact hr
          · obtain ⟨hall, hcrs⟩ := hnotcl (by
              rcases hx : (stringCont rest).2.2 with _ | _
              · rfl
              · exact absurd hx hcl)
            have hcond : (decide (1 + (stringCont rest).1 < (d :: rest).length) ||
                (stringCont rest).2.2) = false := by
              rcases hx : (stringCont rest).2.2 with _ | _
              · simp [hall, hlen]
                omega
              · exact absurd hx hcl
            rw [if_neg (by rw [hcond]; simp)]
            rw [mainLoop_end _ _ _ (by omega)]
            rw [hcstep base, hcrs (base + 1)]
            exact ⟨by simp, ⟨⟨1 + (stringCont rest).1, rfl⟩, rfl, rfl⟩⟩
  | inAtom =>
    obtain ⟨⟨e0, hpend⟩, hcont, hskip⟩ := hrel
    simp only [scanStep, scanChunk, hpend]
    by_cases hsk : st.pendingSkip ≥ c.length
    · rw [if_pos hsk]
      rw [hskip] at hsk
      have hc : c = [] := List.eq_nil_of_length_eq_zero (by omega)
      subst hc
      refine ⟨by simp, ⟨⟨e0, rfl⟩, hcont, ?_⟩⟩
      show st.pendingSkip - List.length ([] : Chunk) = _
      simp [hskip]
    · rw [if_neg hsk, hcont]
      simp only [contMatch]
      rw [hskip]
      simp only [List.drop_zero, Nat.zero_add]
      by_cases hlt : nsCont c < c.length
      · have hcond : (decide (nsCont c < c.length) || false) = true := by simp [hlt]
        rw [if_pos hcond]
        have htok : ({ (⟨.atom, e0⟩ : Token) with endIndex := nsCont c } : Token) =
            ⟨.atom, nsCont c⟩ := rfl
        rw [htok]
        have hcc2 : cClean .between (c.drop (nsCont c)) = true := by
          rw [← cClean_atomB, ← ns_cClean]
          exact hclean
        obtain ⟨hm, hr⟩ := mainLoop_abs base (c.length + 1) c (nsCont c)
          ⟨none, 0, .nsAtom⟩ [⟨.atom, nsCont c⟩] rfl (by omega) hcc2
        constructor
        · rw [hm, ns_cRun_part c base hlt]
          simp
        · rw [ns_cRun_part c base hlt]
          exact hr
      · have hall : nsCont c = c.length := by
          have := nsCont_le c
          omega
        have hcond : (decide (nsCont c < c.length) || false) = false := by
          simp [hall]
        rw [if_neg (by rw [hcond]; simp)]
        rw [mainLoop_end _ _ _ (by omega)]
        rw [ns_cRun_all c base hall]
        exact ⟨by simp, ⟨⟨nsCont c, rfl⟩, rfl, rfl⟩⟩

/-- The full token trace of a chunked stream is the character-machine trace of
the concatenated input (with the pending token flushed by the sentinel at the
total length), for any clean starting relation. -/
theorem traceAux_cRun (chunks : List Chunk) : ∀ (st : ScanState) (md : CMode)
    (base : Nat), ScanRel st md → cClean md chunks.flatten = true →
    traceAux st base chunks =
      (cRun md base chunks.flatten).2 ++
        (if (cRun md base chunks.flatten).1 = .between then []
         else [(.atom, base + chunks.flatten.length)]) := by
  induction chunks with
  | nil =>
    intro st md base hrel _
    cases md with
    | between =>
      have hp : st.pending = none := hrel
      have h1 : scanStep st none = (st, []) := by simp [scanStep, hp]
      simp [traceAux, h1]
    | inStr esc =>
      obtain ⟨⟨e0, hpend⟩, _, _⟩ := hrel
      have h1 : scanStep st none = ({ st with pending := none }, [⟨.atom, e0⟩]) := by
        simp [scanStep, hpend]
      simp [traceAux, h1]
    | inAtom =>
      obtain ⟨⟨e0, hpend⟩, _, _⟩ := hrel
      have h1 : scanStep st none = ({ st with pending := none }, [⟨.atom, e0⟩]) := by
        simp [scanStep, hpend]
      simp [traceAux, h1]
  | cons c rest ih =>
    intro st md base hrel hclean
    rw [List.flatten_cons] at hclean ⊢
    rw [cClean_append] at hclean
    simp only [Bool.and_eq_true] at hclean
    obtain ⟨hcl1, hcl2⟩ := hclean
    obtain ⟨hmap, hrel2⟩ := scanChunk_abs st md c base hrel hcl1
    have hcl2b : cClean (cRun md base c).1 rest.flatten = true := by
      rw [cRun_mode_pos c md base 0]
      exact hcl2
    have hih := ih (scanStep st (some c)).1 (cRun md base c).1 (base + c.length)
      hrel2 hcl2b
    have hlhs : traceAux st base (c :: rest) =
        (scanStep st (some c)).2.map (fun t => (t.type, base + t.endIndex)) ++
          traceAux (scanStep st (some c)).1 (base + c.length) rest := rfl
    rw [hlhs, hmap, hih, cRun_append c rest.flatten md base]
    have hpos : base + c.length + rest.flatten.length =
        base + (c ++ rest.flatten).length := by
      simp [List.length_append]
      omega
    rw [hpos, List.append_assoc]

/-- On clean input the token trace does not depend on the chunking. -/
theorem trace_flat (chunks : List Chunk)
    (hclean : cClean .between chunks.flatten = true) :
    tokenTrace chunks = tokenTrace [chunks.flatten] := by
  have hfl : ([chunks.flatten] : List Chunk).flatten = chunks.flatten := by simp
  have h1 := traceAux_cRun chunks initScan .between 0 rfl hclean
  have h2 := traceAux_cRun [chunks.flatten] initScan .between 0 rfl
    (by rw [hfl]; exact hclean)
  rw [hfl] at h2
  show traceAux initScan 0 chunks = traceAux initScan 0 [chunks.flatten]
  rw [h1, h2]

theorem cleanSeg_append {x y : Chunk} (hx : CleanSeg x) (hy : CleanSeg y) :
    CleanSeg (x ++ y) := by
  obtain ⟨hx1, hx2⟩ := hx
  obtain ⟨hy1, hy2⟩ := hy
  constructor
  · rw [cClean_append, hx1, Bool.true_and]
    rcases hx2 with hm | hm
    · rw [hm]
      exact hy1
    · rw [hm, cClean_atomB]
      exact hy1
  · rw [cRun_append x y .between 0,
      cRun_mode_pos y (cRun CMode.between 0 x).1 (0 + x.length) 0]
    rcases hx2 with hm | hm
    · rw [hm]
      exact hy2
    · rw [hm]
      cases y with
      | nil => exact Or.inr rfl
      | cons c rest =>
        rw [cRun_mode_atomB (c :: rest) 0 (by simp)]
        exact hy2

theorem ws_seg (w : Chunk) (h : ∀ u ∈ w, isWsCU u = true) :
    cClean .between w = true ∧ ∀ i, (cRun .between i w).1 = .between := by
  induction w with
  | nil => exact ⟨rfl, fun i => rfl⟩
  | cons c rest ih =>
    have hc : isWsCU c = true := h c (by simp)
    obtain ⟨ih1, ih2⟩ := ih (fun u hu => h u (List.mem_cons_of_mem c hu))
    constructor
    · show ((match CMode.between with | .inStr true => jsDot c | _ => true) &&
        cClean (cNext .between c) rest) = true
      rw [show cNext CMode.between c = .between from cNextB_ws hc]
      simpa using ih1
    · intro i
      rw [cRun_cons, show cNext CMode.between c = .between from cNextB_ws hc]
      exact ih2 (i + 1)

theorem cleanSeg_ws (w : Chunk) (h : ∀ u ∈ w, isWsCU u = true) : CleanSeg w :=
  ⟨(ws_seg w h).1, Or.inl ((ws_seg w h).2 0)⟩

theorem ns_seg (x : Chunk) (h : ∀ u ∈ x, isNsCU u = true) :
    cClean .inAtom x = true ∧ ∀ i, (cRun .inAtom i x).1 = .inAtom := by
  induction x with
  | nil => exact ⟨rfl, fun i => rfl⟩
  | cons c rest ih =>
    have hc : isNsCU c = true := h c (by simp)
    obtain ⟨ih1, ih2⟩ := ih (fun u hu => h u (List.mem_cons_of_mem c hu))
    have hn : cNext CMode.inAtom c = .inAtom := by
      rw [cNext_atomB]
      exact cNextB_ns hc
    constructor
    · show ((match CMode.inAtom with | .inStr true => jsDot c | _ => true) &&
        cClean (cNext .inAtom c) rest) = true
      rw [hn]
      simpa using ih1
    · intro i
      rw [cRun_cons, hn]
      exact ih2 (i + 1)

theorem cleanSeg_ns (x : Chunk) (h : ∀ u ∈ x, isNsCU u = true) : CleanSeg x := by
  constructor
  · rw [← cClean_atomB]
    exact (ns_seg x h).1
  · cases x with
    | nil => exact Or.inl rfl
    | cons c rest =>
      rw [← cRun_mode_atomB (c :: rest) 0 (by simp)]
      exact Or.inr ((ns_seg (c :: rest) h).2 0)

theorem strsub_cons {c : CU} (h1 : c ≠ 34) (h2 : c ≠ 92) (l : Chunk) :
    cClean (.inStr false) (c :: l) = cClean (.inStr false) l ∧
    ∀ i, (cRun (.inStr false) i (c :: l)).1 = (cRun (.inStr false) (i + 1) l).1 := by
  have hn : cNext (.inStr false) c = .inStr false := by
    simp [cNext, h1, h2]
  constructor
  · show ((match CMode.inStr false with | .inStr true => jsDot c | _ => true) &&
      cClean (cNext (.inStr false) c) l) = _
    rw [hn]
    simp
  · intro i
    rw [cRun_cons, hn]

theorem strsub_esc {d : CU} (hd : jsDot d = true) (l : Chunk) :
    cClean (.inStr false) (92 :: d :: l) = cClean (.inStr false) l ∧
    ∀ i, (cRun (.inStr false) i (92 :: d :: l)).1 =
      (cRun (.inStr false) (i + 2) l).1 := by
  have hn1 : cNext (.inStr false) 92 = .inStr true := rfl
  have hn2 : cNext (.inStr true) d = .inStr false := rfl
  constructor
  · show ((match CMode.inStr false with | .inStr true => jsDot d | _ => true) &&
      cClean (cNext (.inStr false) 92) (d :: l)) = _
    rw [hn1]
    show (true && (jsDot d && cClean (cNext (.inStr true) d) l)) = _
    rw [hn2, hd]
    simp
  · intro i
    rw [cRun_cons, hn1, cRun_cons, hn2]

theorem hex_ne {h : CU} {v : Nat} (hh : hexVal h = some v) : h ≠ 34 ∧ h ≠ 92 := by
  unfold hexVal at hh
  split at hh
  · rename_i hcond
    exact ⟨fun he => absurd (he ▸ hcond) (by decide),
      fun he => absurd (he ▸ hcond) (by decide)⟩
  · split at hh
    · rename_i hcond
      exact ⟨fun he => absurd (he ▸ hcond) (by decide),
        fun he => absurd (he ▸ hcond) (by decide)⟩
    · split at hh
      · rename_i hcond
        exact ⟨fun he => absurd (he ▸ hcond) (by decide),
          fun he => absurd (he ▸ hcond) (by decide)⟩
      · cases hh

/-- The code units consumed by a successful `strBody` parse are clean from
inside a string and return the machine to between tokens at the closing
quote. -/
theorem str_seg (l : Chunk) : ∀ p : Chunk × Chunk, strBody l = some p →
    ∃ x, l = x ++ p.2 ∧ cClean (.inStr false) x = true ∧
      ∀ i, (cRun (.inStr false) i x).1 = .between := by
  induction l using strBody.induct with
  | case1 =>
    intro p h
    cases h
  | case2 rest =>
    intro p h
    have heq : strBody (34 :: rest) = some ([], rest) := by
      rw [strBody.eq_def]
      simp
    rw [heq] at h
    injection h with h2
    refine ⟨[34], by rw [← h2]; rfl, rfl, ?_⟩
    intro i
    rw [cRun_cons]
    rfl
  | case3 hq =>
    intro p h
    cases h
  | case4 d r hd hq ih =>
    intro p h
    have heq : strBody (92 :: d :: r) = (strBody r).map (fun q => (d :: q.1, q.2)) := by
      rw [strBody.eq_def]
      rcases hd with rfl | rfl | rfl <;> simp
    rw [heq] at h
    rcases hr : strBody r with _ | q
    · rw [hr] at h
      cases h
    · rw [hr] at h
      injection h with h2
      obtain ⟨x, hx1, hx2, hx3⟩ := ih q hr
      have hjd : jsDot d = true := by
        rcases hd with rfl | rfl | rfl <;> decide
      obtain ⟨hc, hm⟩ := strsub_esc hjd x
      refine ⟨92 :: d :: x, ?_, by rw [hc]; exact hx2, ?_⟩
      · rw [← h2]
        simp [hx1]
      · intro i
        rw [hm i]
        exact hx3 (i + 2)
  | case5 r hq hd ih =>
    intro p h
    have heq : strBody (92 :: 98 :: r) = (strBody r).map (fun q => (8 :: q.1, q.2)) := by
      rw [strBody.eq_def]
      simp
    rw [heq] at h
    rcases hr : strBody r with _ | q
    · rw [hr] at h
      cases h
    · rw [hr] at h
      injection h with h2
      obtain ⟨x, hx1, hx2, hx3⟩ := ih q hr
      obtain ⟨hc, hm⟩ := strsub_esc (show jsDot 98 = true by decide) x
      refine ⟨92 :: 98 :: x, ?_, by rw [hc]; exact hx2, ?_⟩
      · rw [← h2]
        simp [hx1]
      · intro i
        rw [hm i]
        exact hx3 (i + 2)
  | case6 r hq hd h98 ih =>
    intro p h
    have heq : strBody (92 :: 102 :: r) = (strBody r).map (fun q => (12 :: q.1, q.2)) := by
      rw [strBody.eq_def]
      simp
    rw [heq] at h
    rcases hr : strBody r with _ | q
    · rw [hr] at h
      cases h
    · rw [hr] at h
      injection h with h2
      obtain ⟨x, hx1, hx2, hx3⟩ := ih q hr
      obtain ⟨hc, hm⟩ := strsub_esc (show jsDot 102 = true by decide) x
      refine ⟨92 :: 102 :: x, ?_, by rw [hc]; exact hx2, ?_⟩
      · rw [← h2]
        simp [hx1]
      · intro i
        rw [hm i]
        exact hx3 (i + 2)
  | case7 r hq hd h98 h102 ih =>
    intro p h
    have heq : strBody (92 :: 110 :: r) = (strBody r).map (fun q => (10 :: q.1, q.2)) := by
      rw [strBody.eq_def]
      simp
    rw [heq] at h
    rcases hr : strBody r with _ | q
    · rw [hr] at h
      cases h
    · rw [hr] at h
      injection h with h2
      obtain ⟨x, hx1, hx2, hx3⟩ := ih q hr
      obtain ⟨hc, hm⟩ := strsub_esc (show jsDot 110 = true by decide) x
      refine ⟨92 :: 110 :: x, ?_, by rw [hc]; exact hx2, ?_⟩
      · rw [← h2]
        simp [hx1]
      · intro i
        rw [hm i]
        exact hx3 (i + 2)
  | case8 r hq hd h98 h102 h110 ih =>
    intro p h
    have heq : strBody (92 :: 114 :: r) = (strBody r).map (fun q => (13 :: q.1, q.2)) := by
      rw [strBody.eq_def]
      simp
    rw [heq] at h
    rcases hr : strBody r with _ | q
    · rw [hr] at h
      cases h
    · rw [hr] at h
      injection h with h2
      obtain ⟨x, hx1, hx2, hx3⟩ := ih q hr
      obtain ⟨hc, hm⟩ := strsub_esc (show jsDot 114 = true by decide) x
      refine ⟨92 :: 114 :: x, ?_, by rw [hc]; exact hx2, ?_⟩
      · rw [← h2]
        simp [hx1]
      · intro i
        rw [hm i]
        exact hx3 (i + 2)
  | case9 r hq hd h98 h102 h110 h114 ih =>
    intro p h
    have heq : strBody (92 :: 116 :: r) = (strBody r).map (fun q => (9 :: q.1, q.2)) := by
      rw [strBody.eq_def]
      simp
    rw [heq] at h
    rcases hr : strBody r with _ | q
    · rw [hr] at h
      cases h
    · rw [hr] at h
      injection h with h2
      obtain ⟨x, hx1, hx2, hx3⟩ := ih q hr
      obtain ⟨hc, hm⟩ := strsub_esc (show jsDot 116 = true by decide) x
      refine ⟨92 :: 116 :: x, ?_, by rw [hc]; exact hx2, ?_⟩
      · rw [← h2]
        simp [hx1]
      · intro i
        rw [hm i]
        exact hx3 (i + 2)
  | case10 h1 h2 h3 h4 r4 a b x y hh4 hh3 hh2 hh1 hq hd h98 h102 h110 h114 h116 ih =>
    intro p h
    have heq : strBody (92 :: 117 :: h1 :: h2 :: h3 :: h4 :: r4) =
        (strBody r4).map (fun q => ((((a * 16 + b) * 16 + x) * 16 + y) :: q.1, q.2)) := by
      rw [strBody.eq_def]
      simp [hh1, hh2, hh3, hh4]

    rw [heq] at h
    rcases hr : strBody r4 with _ | q
    · rw [hr] at h
      cases h
    · rw [hr] at h
      injection h with hinj
      obtain ⟨x0, hx1, hx2, hx3⟩ := ih q hr
      obtain ⟨hn1a, hn1b⟩ := hex_ne hh1
      obtain ⟨hn2a, hn2b⟩ := hex_ne hh2
      obtain ⟨hn3a, hn3b⟩ := hex_ne hh3
      obtain ⟨hn4a, hn4b⟩ := hex_ne hh4
      obtain ⟨hcU, hmU⟩ := strsub_esc (show jsDot 117 = true by decide)
        (h1 :: h2 :: h3 :: h4 :: x0)
      obtain ⟨hc1, hm1⟩ := strsub_cons hn1a hn1b (h2 :: h3 :: h4 :: x0)
      obtain ⟨hc2, hm2⟩ := strsub_cons hn2a hn2b (h3 :: h4 :: x0)
      obtain ⟨hc3, hm3⟩ := strsub_cons hn3a hn3b (h4 :: x0)
      obtain ⟨hc4, hm4⟩ := strsub_cons hn4a hn4b x0
      refine ⟨92 :: 117 :: h1 :: h2 :: h3 :: h4 :: x0, ?_, ?_, ?_⟩
      · rw [← hinj]
        simp [hx1]
      · rw [hcU, hc1, hc2, hc3, hc4]
        exact hx2
      · intro i
        rw [hmU i, hm1 (i + 2), hm2 (i + 2 + 1), hm3 (i + 2 + 1 + 1),
          hm4 (i + 2 + 1 + 1 + 1)]
        exact hx3 _
  | case11 h1 h2 h3 h4 r4 hbad hq hd h98 h102 h110 h114 h116 =>
    intro p h
    have heq : strBody (92 :: 117 :: h1 :: h2 :: h3 :: h4 :: r4) = none := by
      rcases hv1 : hexVal h1 with _ | a
      · rw [strBody.eq_def]
        simp [hv1]
      · rcases hv2 : hexVal h2 with _ | b
        · rw [strBody.eq_def]
          simp [hv1, hv2]
        · rcases hv3 : hexVal h3 with _ | x
          · rw [strBody.eq_def]
            simp [hv1, hv2, hv3]
          · rcases hv4 : hexVal h4 with _ | y
            · rw [strBody.eq_def]
              simp [hv1, hv2, hv3, hv4]
            · exact (hbad a b x y hv1 hv2 hv3 hv4).elim
    rw [heq] at h
    cases h
  | case12 r hshort hq hd h98 h102 h110 h114 h116 =>
    intro p h
    have heq : strBody (92 :: 117 :: r) = none := by
      rcases r with _ | ⟨a, r1⟩
      · rw [strBody.eq_def]
        simp
      · rcases r1 with _ | ⟨b, r2⟩
        · rw [strBody.eq_def]
          simp
        · rcases r2 with _ | ⟨c2, r3⟩
          · rw [strBody.eq_def]
            simp
          · rcases r3 with _ | ⟨d2, r4⟩
            · rw [strBody.eq_def]
              simp
            · exact (hshort a b c2 d2 r4 rfl).elim
    rw [heq] at h
    cases h
  | case13 d r hd h98 h102 h110 h114 h116 h117 hq =>
    intro p h
    have heq : strBody (92 :: d :: r) = none := by
      rw [strBody.eq_def]
      simp [hd, h98, h102, h110, h114, h116, h117]
    rw [heq] at h
    cases h
  | case14 c rest h1 h2 h3 =>
    intro p h
    have heq : strBody (c :: rest) = none := by
      rw [strBody.eq_def]
      simp [h1, h2, h3]
    rw [heq] at h
    cases h
  | case15 c rest h1 h2 h3 ih =>
    intro p h
    have heq : strBody (c :: rest) = (strBody rest).map (fun q => (c :: q.1, q.2)) := by
      rw [strBody.eq_def]
      simp [h1, h2, h3]
    rw [heq] at h
    rcases hr : strBody rest with _ | q
    · rw [hr] at h
      cases h
    · rw [hr] at h
      injection h with hinj
      obtain ⟨x, hx1, hx2, hx3⟩ := ih q hr
      obtain ⟨hc, hm⟩ := strsub_cons h1 h2 x
      refine ⟨c :: x, ?_, by rw [hc]; exact hx2, ?_⟩
      · rw [← hinj]
        simp [hx1]
      · intro i
        rw [hm i]
        exact hx3 (i + 1)

/-- A string literal (opening quote plus a successful `strBody` parse) is a
clean segment ending between tokens. -/
theorem cleanSeg_str {x : Chunk} (hc : cClean (.inStr false) x = true)
    (hm : ∀ i, (cRun (.inStr false) i x).1 = .between) : CleanSeg (34 :: x) := by
  constructor
  · show ((match CMode.between with | .inStr true => jsDot 34 | _ => true) &&
      cClean (cNext .between 34) x) = true
    rw [show cNext CMode.between 34 = .inStr false from cNextB_quote]
    simpa using hc
  · rw [cRun_cons, show cNext CMode.between 34 = .inStr false from cNextB_quote]
    exact Or.inl (hm 1)

theorem jsonWsDrop_spec (l : Chunk) :
    ∃ w, l = w ++ jsonWsDrop l ∧ ∀ u ∈ w, isWsCU u = true := by
  induction l with
  | nil => exact ⟨[], rfl, by simp⟩
  | cons c rest ih =>
    by_cases hc : isWsCU c = true
    · obtain ⟨w, hw1, hw2⟩ := ih
      have heq : jsonWsDrop (c :: rest) = jsonWsDrop rest := by
        simp [jsonWsDrop, hc]
      rw [heq]
      refine ⟨c :: w, by simp [← hw1], ?_⟩
      intro u hu
      rcases List.mem_cons.mp hu with rfl | hm
      · exact hc
      · exact hw2 u hm
    · have heq : jsonWsDrop (c :: rest) = c :: rest := by
        simp only [jsonWsDrop]
        rw [if_neg hc]
      rw [heq]
      exact ⟨[], rfl, by simp⟩

theorem jsonWsDrop_nil {l : Chunk} (h : jsonWsDrop l = []) :
    ∀ u ∈ l, isWsCU u = true := by
  obtain ⟨w, hw1, hw2⟩ := jsonWsDrop_spec l
  rw [h, List.append_nil] at hw1
  rw [hw1]
  exact hw2


theorem digit_ns {u : Nat} (h1 : 48 ≤ u) (h2 : u ≤ 57) : isNsCU u = true := by
  have hn : ∀ k : Nat, (k < 48 ∨ 57 < k) → u ≠ k := by
    intro k hk he
    subst he
    rcases hk with hk | hk
    · omega
    · omega
  have hws : isWsCU u = false := by
    simp only [isWsCU, Bool.or_eq_false_iff, decide_eq_false_iff_not]
    exact ⟨⟨⟨hn 32 (by omega), hn 9 (by omega)⟩, hn 10 (by omega)⟩, hn 13 (by omega)⟩
  have hst : structType? u = none := by
    simp only [structType?]
    rw [if_neg (hn 123 (by omega)), if_neg (hn 125 (by omega)),
      if_neg (hn 91 (by omega)), if_neg (hn 93 (by omega)),
      if_neg (hn 44 (by omega)), if_neg (hn 58 (by omega))]
  exact isNsCU_of_parts hws hst (hn 34 (by omega))

theorem digitSpan_spec (l : Chunk) : ∀ a b, digitSpan l = (a, b) →
    l = a ++ b ∧ ∀ u ∈ a, isNsCU u = true := by
  induction l with
  | nil =>
    intro a b h
    have heq : digitSpan [] = (([] : Chunk), ([] : Chunk)) := rfl
    rw [heq] at h
    injection h with h1 h2
    subst h1
    subst h2
    exact ⟨rfl, by simp⟩
  | cons c rest ih =>
    intro a b h
    by_cases hc : 48 ≤ c ∧ c ≤ 57
    · have heq : digitSpan (c :: rest) =
          (c :: (digitSpan rest).1, (digitSpan rest).2) := by
        simp only [digitSpan]
        rw [if_pos hc]
      rw [heq] at h
      injection h with h1 h2
      subst h1
      subst h2
      obtain ⟨ih1, ih2⟩ := ih (digitSpan rest).1 (digitSpan rest).2 rfl
      constructor
      · rw [List.cons_append, ← ih1]
      · intro u hu
        rcases List.mem_cons.mp hu with rfl | hm
        · exact digit_ns hc.1 hc.2
        · exact ih2 u hm
    · have heq : digitSpan (c :: rest) = ([], c :: rest) := by
        simp only [digitSpan]
        rw [if_neg hc]
      rw [heq] at h
      injection h with h1 h2
      subst h1
      subst h2
      exact ⟨rfl, by simp⟩

theorem expCore (r1 : Chunk) (r : Chunk)
    (h : (match digitSpan r1 with
          | ([], _) => none
          | (_, r2) => some r2) = some r) :
    ∃ x, r1 = x ++ r ∧ ∀ u ∈ x, isNsCU u = true := by
  rcases hds : digitSpan r1 with ⟨dd, rr⟩
  rw [hds] at h
  rcases dd with _ | ⟨d0, ds⟩
  · have h2 : (none : Option Chunk) = some r := h
    cases h2
  · have h2 : some rr = some r := h
    injection h2 with h3
    subst h3
    obtain ⟨hd1, hd2⟩ := digitSpan_spec r1 (d0 :: ds) rr hds
    exact ⟨d0 :: ds, hd1, hd2⟩

theorem jsonExpPart_spec (l : Chunk) : ∀ r, jsonExpPart l = some r →
    ∃ x, l = x ++ r ∧ ∀ u ∈ x, isNsCU u = true := by
  intro r h
  unfold jsonExpPart at h
  split at h
  · split at h
    · split at h
      · rename_i l2 c hce r0 r2
        obtain ⟨x, hx1, hx2⟩ := expCore r2 r h
        have hcns : isNsCU c = true := by
          rcases hce with rfl | rfl <;> decide
        refine ⟨c :: 43 :: x, by simp [hx1], ?_⟩
        intro u hu
        rcases List.mem_cons.mp hu with rfl | hu2
        · exact hcns
        · rcases List.mem_cons.mp hu2 with rfl | hu3
          · decide
          · exact hx2 u hu3
      · rename_i l2 c hce r0 r2
        obtain ⟨x, hx1, hx2⟩ := expCore r2 r h
        have hcns : isNsCU c = true := by
          rcases hce with rfl | rfl <;> decide
        refine ⟨c :: 45 :: x, by simp [hx1], ?_⟩
        intro u hu
        rcases List.mem_cons.mp hu with rfl | hu2
        · exact hcns
        · rcases List.mem_cons.mp hu2 with rfl | hu3
          · decide
          · exact hx2 u hu3
      · rename_i l2 c r0 hce rdup h43 h45
        obtain ⟨x, hx1, hx2⟩ := expCore r0 r h
        have hcns : isNsCU c = true := by
          rcases hce with rfl | rfl <;> decide
        refine ⟨c :: x, by simp [hx1], ?_⟩
        intro u hu
        rcases List.mem_cons.mp hu with rfl | hu2
        · exact hcns
        · exact hx2 u hu2
    · rename_i l2 c r0 hce
      injection h with h2
      subst h2
      exact ⟨[], rfl, by simp⟩
  · injection h with h2
    subst h2
    exact ⟨[], rfl, by simp⟩

theorem jsonFracPart_spec (l : Chunk) : ∀ r, jsonFracPart l = some r →
    ∃ x, l = x ++ r ∧ ∀ u ∈ x, isNsCU u = true := by
  intro r h
  unfold jsonFracPart at h
  split at h
  · rename_i l2 r0
    rcases hds : digitSpan r0 with ⟨dd, rr⟩
    rw [hds] at h
    rcases dd with _ | ⟨d0, ds⟩
    · have h2 : (none : Option Chunk) = some r := h
      cases h2
    · have h2 : jsonExpPart rr = some r := h
      obtain ⟨hd1, hd2⟩ := digitSpan_spec r0 (d0 :: ds) rr hds
      obtain ⟨x2, hx1, hx2⟩ := jsonExpPart_spec rr r h2
      refine ⟨46 :: ((d0 :: ds) ++ x2), by simp [hd1, hx1], ?_⟩
      intro u hu
      rcases List.mem_cons.mp hu with rfl | hu2
      · decide
      · rcases List.mem_append.mp hu2 with hm | hm
        · exact hd2 u hm
        · exact hx2 u hm
  · obtain ⟨x, hx1, hx2⟩ := jsonExpPart_spec l r h
    exact ⟨x, hx1, hx2⟩

theorem numCore (l1 : Chunk) (r : Chunk)
    (h : (match l1 with
          | 48 :: r2 => jsonFracPart r2
          | c :: r2 => if 49 ≤ c ∧ c ≤ 57 then jsonFracPart (digitSpan r2).2 else none
          | [] => none) = some r) :
    ∃ x, l1 = x ++ r ∧ ∀ u ∈ x, isNsCU u = true := by
  split at h
  · rename_i r2
    obtain ⟨x, hx1, hx2⟩ := jsonFracPart_spec r2 r h
    refine ⟨48 :: x, by simp [hx1], ?_⟩
    intro u hu
    rcases List.mem_cons.mp hu with rfl | hm
    · decide
    · exact hx2 u hm
  · rename_i c r2 hn48
    split at h
    · rename_i hc
      rcases hds : digitSpan r2 with ⟨dd, rr⟩
      rw [hds] at h
      obtain ⟨xf, hf1, hf2⟩ := jsonFracPart_spec rr r h
      obtain ⟨hd1, hd2⟩ := digitSpan_spec r2 dd rr hds
      refine ⟨c :: (dd ++ xf), by simp [hd1, hf1], ?_⟩
      intro u hu
      rcases List.mem_cons.mp hu with rfl | hu2
      · exact digit_ns (le_trans (by decide) hc.1) hc.2
      · rcases List.mem_append.mp hu2 with hm | hm
        · exact hd2 u hm
        · exact hf2 u hm
    · cases h
  · cases h

theorem jsonNum_spec (l : Chunk) : ∀ r, jsonNum l = some r →
    ∃ x, l = x ++ r ∧ ∀ u ∈ x, isNsCU u = true := by
  intro r h
  unfold jsonNum at h
  split at h
  · rename_i l2 r1
    obtain ⟨x, hx1, hx2⟩ := numCore r1 r h
    refine ⟨45 :: x, by simp [hx1], ?_⟩
    intro u hu
    rcases List.mem_cons.mp hu with rfl | hm
    · decide
    · exact hx2 u hm
  · rename_i l2 hdef
    obtain ⟨x, hx1, hx2⟩ := numCore l r h
    exact ⟨x, hx1, hx2⟩


theorem jsonVal_zero (l : Chunk) : jsonVal 0 l = none := rfl

theorem jsonMembers_zero (l : Chunk) : jsonMembers 0 l = none := rfl

theorem jsonElems_zero (l : Chunk) : jsonElems 0 l = none := rfl

theorem jsonVal_succ (fuel : Nat) (l : Chunk) :
    jsonVal (fuel + 1) l =
      match l with
      | 123 :: rest =>
        let l1 := jsonWsDrop rest
        (match l1 with
         | 125 :: r => some r
         | _ => jsonMembers fuel l1)
      | 91 :: rest =>
        let l1 := jsonWsDrop rest
        (match l1 with
         | 93 :: r => some r
         | _ => jsonElems fuel l1)
      | 34 :: rest => (strBody rest).map Prod.snd
      | 116 :: 114 :: 117 :: 101 :: r => some r
      | 102 :: 97 :: 108 :: 115 :: 101 :: r => some r
      | 110 :: 117 :: 108 :: 108 :: r => some r
      | _ => jsonNum l := rfl

theorem jsonMembers_succ (fuel : Nat) (l : Chunk) :
    jsonMembers (fuel + 1) l =
      match l with
      | 34 :: rest =>
        (match strBody rest with
         | none => none
         | some p =>
           match jsonWsDrop p.2 with
           | 58 :: r2 =>
             (match jsonVal fuel (jsonWsDrop r2) with
              | none => none
              | some r3 =>
                match jsonWsDrop r3 with
                | 44 :: r4 => jsonMembers fuel (jsonWsDrop r4)
                | 125 :: r4 => some r4
                | _ => none)
           | _ => none)
      | _ => none := rfl

theorem jsonElems_succ (fuel : Nat) (l : Chunk) :
    jsonElems (fuel + 1) l =
      match jsonVal fuel l with
      | none => none
      | some r =>
        match jsonWsDrop r with
        | 44 :: r2 => jsonElems fuel (jsonWsDrop r2)
        | 93 :: r2 => some r2
        | _ => none := rfl

theorem seg_chain {l m r x : Chunk} (hlm : l = x ++ m) (hx : CleanSeg x)
    (hrest : ∃ y, m = y ++ r ∧ CleanSeg y) : ∃ z, l = z ++ r ∧ CleanSeg z := by
  obtain ⟨y, hy1, hy2⟩ := hrest
  exact ⟨x ++ y, by rw [hlm, hy1, List.append_assoc], cleanSeg_append hx hy2⟩

theorem cleanSeg_brace1 : CleanSeg [123] := ⟨rfl, Or.inl rfl⟩
theorem cleanSeg_brace2 : CleanSeg [125] := ⟨rfl, Or.inl rfl⟩
theorem cleanSeg_brack1 : CleanSeg [91] := ⟨rfl, Or.inl rfl⟩
theorem cleanSeg_brack2 : CleanSeg [93] := ⟨rfl, Or.inl rfl⟩
theorem cleanSeg_colon : CleanSeg [58] := ⟨rfl, Or.inl rfl⟩
theorem cleanSeg_comma : CleanSeg [44] := ⟨rfl, Or.inl rfl⟩

set_option maxHeartbeats 4000000 in
/-- Every text accepted by one of the mutual `JSON.parse` productions is a
clean segment: it contains no hanging escape followed by a line terminator. -/
theorem parse_clean : ∀ fuel : Nat,
    (∀ l r, jsonVal fuel l = some r → ∃ x, l = x ++ r ∧ CleanSeg x) ∧
    (∀ l r, jsonMembers fuel l = some r → ∃ x, l = x ++ r ∧ CleanSeg x) ∧
    (∀ l r, jsonElems fuel l = some r → ∃ x, l = x ++ r ∧ CleanSeg x) := by
  intro fuel
  induction fuel with
  | zero =>
    refine ⟨?_, ?_, ?_⟩ <;> intro l r h
    · rw [jsonVal_zero] at h
      cases h
    · rw [jsonMembers_zero] at h
      cases h
    · rw [jsonElems_zero] at h
      cases h
  | succ fuel ih =>
    obtain ⟨ihV, ihM, ihE⟩ := ih
    refine ⟨?_, ?_, ?_⟩
    · intro l r h
      rw [jsonVal_succ] at h
      split at h
      · -- l = 123 :: rest
        rename_i rest
        have h2 : (match jsonWsDrop rest with
            | 125 :: q => some q
            | _ => jsonMembers fuel (jsonWsDrop rest)) = some r := h
        obtain ⟨w, hw1, hw2⟩ := jsonWsDrop_spec rest
        split at h2
        · rename_i q hq
          injection h2 with hinj
          subst hinj
          refine seg_chain (show 123 :: rest = [123] ++ rest from rfl) cleanSeg_brace1
            (seg_chain hw1 (cleanSeg_ws w hw2) ⟨[125], by simp [hq], cleanSeg_brace2⟩)
        · exact seg_chain (show 123 :: rest = [123] ++ rest from rfl) cleanSeg_brace1
            (seg_chain hw1 (cleanSeg_ws w hw2) (ihM _ r h2))
      · -- l = 91 :: rest
        rename_i rest
        have h2 : (match jsonWsDrop rest with
            | 93 :: q => some q
            | _ => jsonElems fuel (jsonWsDrop rest)) = some r := h
        obtain ⟨w, hw1, hw2⟩ := jsonWsDrop_spec rest
        split at h2
        · rename_i q hq
          injection h2 with hinj
          subst hinj
          refine seg_chain (show 91 :: rest = [91] ++ rest from rfl) cleanSeg_brack1
            (seg_chain hw1 (cleanSeg_ws w hw2) ⟨[93], by simp [hq], cleanSeg_brack2⟩)
        · exact seg_chain (show 91 :: rest = [91] ++ rest from rfl) cleanSeg_brack1
            (seg_chain hw1 (cleanSeg_ws w hw2) (ihE _ r h2))
      · -- l = 34 :: rest
        rename_i rest
        rcases hsb : strBody rest with _ | p
        · rw [hsb] at h
          cases h
        · rw [hsb] at h
          have h2 : some p.2 = some r := h
          injection h2 with hinj
          obtain ⟨xs, hx1, hcs, hms⟩ := str_seg rest p hsb
          refine ⟨34 :: xs, ?_, cleanSeg_str hcs hms⟩
          rw [← hinj]
          simp [hx1]
      · -- true
        rename_i q
        injection h with hinj
        subst hinj
        exact ⟨[116, 114, 117, 101], rfl, cleanSeg_ns _ (by decide)⟩
      · -- false
        rename_i q
        injection h with hinj
        subst hinj
        exact ⟨[102, 97, 108, 115, 101], rfl, cleanSeg_ns _ (by decide)⟩
      · -- null
        rename_i q
        injection h with hinj
        subst hinj
        exact ⟨[110, 117, 108, 108], rfl, cleanSeg_ns _ (by decide)⟩
      · -- number
        obtain ⟨x, hx1, hx2⟩ := jsonNum_spec l r h
        exact ⟨x, hx1, cleanSeg_ns x (fun u hu => hx2 u hu)⟩
    · intro l r h
      rw [jsonMembers_succ] at h
      split at h
      · rename_i rest
        split at h
        · cases h
        · rename_i p hsb
          split at h
          · rename_i r2 h58
            split at h
            · cases h
            · rename_i r3 hv
              obtain ⟨xs, hx1, hcs, hms⟩ := str_seg rest p hsb
              obtain ⟨w1, hw1a, hw1b⟩ := jsonWsDrop_spec p.2
              obtain ⟨w2, hw2a, hw2b⟩ := jsonWsDrop_spec r2
              obtain ⟨xv, hv1, hv2⟩ := ihV _ _ hv
              obtain ⟨w3, hw3a, hw3b⟩ := jsonWsDrop_spec r3
              split at h
              · rename_i r4 h44
                obtain ⟨w4, hw4a, hw4b⟩ := jsonWsDrop_spec r4
                refine seg_chain (show 34 :: rest = (34 :: xs) ++ p.2 by simp [hx1])
                  (cleanSeg_str hcs hms)
                  (seg_chain hw1a (cleanSeg_ws w1 hw1b)
                    (seg_chain (show jsonWsDrop p.2 = [58] ++ r2 by simp [h58])
                      cleanSeg_colon
                      (seg_chain hw2a (cleanSeg_ws w2 hw2b)
                        (seg_chain hv1 hv2
                          (seg_chain hw3a (cleanSeg_ws w3 hw3b)
                            (seg_chain (show jsonWsDrop r3 = [44] ++ r4 by simp [h44])
                              cleanSeg_comma
                              (seg_chain hw4a (cleanSeg_ws w4 hw4b)
                                (ihM _ r h))))))))
              · rename_i r4 h125
                injection h with hinj
                subst hinj
                refine seg_chain (show 34 :: rest = (34 :: xs) ++ p.2 by simp [hx1])
                  (cleanSeg_str hcs hms)
                  (seg_chain hw1a (cleanSeg_ws w1 hw1b)
                    (seg_chain (show jsonWsDrop p.2 = [58] ++ r2 by simp [h58])
                      cleanSeg_colon
                      (seg_chain hw2a (cleanSeg_ws w2 hw2b)
                        (seg_chain hv1 hv2
                          (seg_chain hw3a (cleanSeg_ws w3 hw3b)
                            ⟨[125], by simp [h125], cleanSeg_brace2⟩)))))
              · cases h
          · cases h
      · cases h
    · intro l r h
      rw [jsonElems_succ] at h
      split at h
      · cases h
      · rename_i r0 hv
        obtain ⟨xv, hv1, hv2⟩ := ihV _ _ hv
        obtain ⟨w1, hw1a, hw1b⟩ := jsonWsDrop_spec r0
        split at h
        · rename_i r2 h44
          obtain ⟨w2, hw2a, hw2b⟩ := jsonWsDrop_spec r2
          refine seg_chain hv1 hv2
            (seg_chain hw1a (cleanSeg_ws w1 hw1b)
              (seg_chain (show jsonWsDrop r0 = [44] ++ r2 by simp [h44])
                cleanSeg_comma
                (seg_chain hw2a (cleanSeg_ws w2 hw2b) (ihE _ r h))))
        · rename_i r2 h93
          injection h with hinj
          subst hinj
          refine seg_chain hv1 hv2
            (seg_chain hw1a (cleanSeg_ws w1 hw1b)
              ⟨[93], by simp [h93], cleanSeg_brack2⟩)
        · cases h

/-- Input accepted by `JSON.parse` is clean. -/
theorem accepts_clean (J : Chunk) (h : jsonAccepts J = true) :
    cClean .between J = true := by
  unfold jsonAccepts at h
  split at h
  · rename_i r hv
    obtain ⟨w0, hw0, hws0⟩ := jsonWsDrop_spec J
    obtain ⟨x, hx1, hx2⟩ := (parse_clean (J.length + 1)).1 (jsonWsDrop J) r hv
    have hrw : ∀ u ∈ r, isWsCU u = true := jsonWsDrop_nil (List.isEmpty_iff.mp h)
    have hall : CleanSeg J := by
      rw [hw0, hx1]
      exact cleanSeg_append (cleanSeg_ws w0 hws0)
        (cleanSeg_append hx2 (cleanSeg_ws r hrw))
    exact hall.1
  · cases h


/-- C1: Split invariance.  For every input whose concatenation is accepted by
`JSON.parse`, every visitor schema, and every partition of the input into a
sequence of chunks, running `visit` on the chunked stream produces exactly the
same event sequence — token dispatches, callback invocations (with the same
raw flushed argument text, hence the same parsed argument values) and
callback resolutions, in the same order — and the same error outcome as
running `visit` on the single-chunk stream carrying the whole input. -/
theorem split_invariance (chunks : List Chunk) (v : Visitor)
    (hvalid : jsonAccepts chunks.flatten = true) :
    (visitRun chunks v).events = (visitRun [chunks.flatten] v).events ∧
    (visitRun chunks v).err = (visitRun [chunks.flatten] v).err := by
  have hclean : cClean .between chunks.flatten = true := accepts_clean _ hvalid
  have htr : tokenTrace chunks = tokenTrace [chunks.flatten] :=
    trace_flat chunks hclean
  obtain ⟨e1, r1, _⟩ := visitRun_abs chunks v
  obtain ⟨e2, r2, _⟩ := visitRun_abs [chunks.flatten] v
  have hfl : ([chunks.flatten] : List Chunk).flatten = chunks.flatten := by simp
  rw [hfl] at e2 r2
  rw [htr] at e1 r1
  exact ⟨e1.trans e2.symm, r1.trans r2.symm⟩

theorem split_invariance_witness :
    jsonAccepts ([[91], [93]] : List Chunk).flatten = true ∧
    ((visitRun [[91], [93]] (Visitor.fn 0)).events =
        (visitRun [([[91], [93]] : List Chunk).flatten] (Visitor.fn 0)).events ∧
      (visitRun [[91], [93]] (Visitor.fn 0)).err =
        (visitRun [([[91], [93]] : List Chunk).flatten] (Visitor.fn 0)).err) :=
  ⟨by decide, split_invariance [[91], [93]] (Visitor.fn 0) (by decide)⟩

end JsonStreamVisit
